import Mathlib

/-!
# beaglefloppy: flux capture to SuperCard Pro image

A shallow embedding of `src/beaglefloppy.c` (`acquire_track`, and the file
header and track loop of `main`), with theorems about the byte layout it writes.

Conventions of the embedding.

* The output `FILE*` is a byte list with a position (`File`); `fseek`, `ftell`
  and `fwrite` are functions on it.  A write inside the file overwrites, a write
  at the end appends, a write past the end zero-fills the gap.
* The capture device is the list of chunks that the successive `fread` calls
  return; a chunk of length 0 is the end of the stream, and a device that is at
  its end from the start is the empty list of chunks.  The device is taken to
  have been opened: with a null stream the loop of line 127 is skipped, but
  `fclose(in)` on line 172 is undefined.
* A sample (`unsigned char`) is a `Fin 256`.
* C `int` variables are embedded as `Int` (`index_count`, which only counts up
  from 0 and indexes the arrays, as `Nat`).  Signed overflow is undefined in C;
  the values stay far below `2^31` for captures of at most `CAPTURE_SIZE` samples.
* The arrays `index_times`, `index_offsets`, `index_transitions` are lists of
  length `MAX_REVOLUTIONS + 1`.  C leaves them uninitialised; here they start as
  zeros, and the theorems only speak of cells below `index_count`, which have
  been written.
* File offsets (`long`) are natural numbers: `long` is taken wide enough for any
  offset, and the truncation of an offset to the 4 bytes of a directory slot
  (lines 111-114) is explicit.  The arguments `track_num` and `track_side`, a
  cylinder in `[0,82]` and a side in `{0,1}`, are natural numbers too.
* `x >> k & 0xff` on a two's-complement value is `x / 2^k % 256` with the
  flooring division of `Int`; `/` of C is `Int.tdiv`.
* `printf`/`fprintf` diagnostics do not touch the output file and are left out.
-/

namespace BeagleFloppy

/-! ## Constants -/

/-- Number of SuperCard Pro time units (25 ns) per captured sample. -/
def TIME_UNITS_PER_SAMPLE : Int := 2

/-- Size of capture in bytes (number of data samples). -/
def CAPTURE_SIZE : Nat := 33554432

/-- Stop track captures at this many revolutions. -/
def MAX_REVOLUTIONS : Nat := 5

/-- Mask of data bit in captured byte. -/
def DATA_MASK : Nat := 1

/-- Mask of index bit in captured byte. -/
def INDEX_MASK : Nat := 2

/-- Mask of unused bits in captured byte. -/
def UNUSED_MASK : Nat := 0xfc

/-- One captured sample, an `unsigned char`. -/
abbrev Sample := Fin 256

/-! ## The output file -/

/-- The output stream: its bytes and the current position. -/
structure File where
  data : List Nat
  pos : Nat
deriving DecidableEq, Repr

/-- The call `fseek(out, 0, SEEK_END)`. -/
def fseekEnd (f : File) : File := { f with pos := f.data.length }

/-- The call `fseek(out, off, SEEK_SET)`. -/
def fseekSet (f : File) (off : Nat) : File := { f with pos := off }

/-- The call `ftell(out)`. -/
def ftell (f : File) : Nat := f.pos

/-- The call `fwrite(bytes, 1, n, out)`: overwrite at the position, extending the file
when the write runs past its end. -/
def fwrite (f : File) (bytes : List Nat) : File :=
  { data := f.data.take f.pos ++ List.replicate (f.pos - f.data.length) 0 ++ bytes
              ++ f.data.drop (f.pos + bytes.length),
    pos := f.pos + bytes.length }

/-! ## State of `acquire_track` -/

/-- The local variables of `acquire_track` together with the output file. -/
structure TrackState where
  total_rd : Int
  index_count : Nat
  index_times : List Int
  index_offsets : List Int
  index_transitions : List Int
  last_transition_time : Int
  num_transitions : Int
  total_w : Int
  histo : List Int
  prev_byte : Sample
  do_write : Bool
  out : File
deriving DecidableEq, Repr

/-- The index-pulse test of lines 129-130 on the previous and the current sample. -/
def indexEdge (prev cur : Sample) : Bool :=
  (prev.val &&& (INDEX_MASK ||| UNUSED_MASK)) == INDEX_MASK
    && (cur.val &&& (INDEX_MASK ||| UNUSED_MASK)) == 0

/-- The transition test of lines 141-142 on the previous and the current sample. -/
def dataEdge (prev cur : Sample) : Bool :=
  (prev.val &&& (DATA_MASK ||| UNUSED_MASK)) == DATA_MASK
    && (cur.val &&& (DATA_MASK ||| UNUSED_MASK)) == 0

/-- Body of the index-pulse branch (lines 134-137) at time `t`. -/
def indexStep (t : Int) (st : TrackState) : TrackState :=
  { st with
    do_write := true
    index_times := st.index_times.set st.index_count t
    index_transitions := st.index_transitions.set st.index_count st.num_transitions
    index_offsets := st.index_offsets.set st.index_count st.total_w
    index_count := st.index_count + 1 }

/-- The loop `while( delta >= 0x10000 )` of lines 153-159: returns the remaining delta,
the updated `total_w` and the file.  The first argument bounds the number of iterations. -/
def overflowLoop : Nat → Int → Int → File → Int × Int × File
  | 0, delta, total_w, out => (delta, total_w, out)
  | fuel + 1, delta, total_w, out =>
    if delta ≥ 0x10000 then
      overflowLoop fuel (delta - 0x10000) (total_w + 2) (fwrite out [0, 0])
    else (delta, total_w, out)

/-- The statement `++histo[ usecs<15 ? usecs : 15 ]` of line 151. -/
def histoBump (histo : List Int) (usecs : Int) : List Int :=
  let k := (if usecs < 15 then usecs else 15).toNat
  histo.set k (histo.getD k 0 + 1)

/-- Lines 152-163: the cells written for one delta when `do_write` holds. -/
def writeCells (delta : Int) (st : TrackState) : TrackState :=
  let r := overflowLoop delta.toNat delta st.total_w st.out
  let delta1 := r.1
  let out_bytes : List Nat := [((delta1 / 256) % 256).toNat, (delta1 % 256).toNat]
  { st with out := fwrite r.2.2 out_bytes, total_w := r.2.1 + 2 }

/-- Body of the transition branch (lines 146-165) at time `t`. -/
def transitionStep (t : Int) (st : TrackState) : TrackState :=
  let st1 := { st with num_transitions := st.num_transitions + 1 }
  let st2 :=
    if st1.last_transition_time ≥ 0 then
      let delta := t - st1.last_transition_time
      let usecs := Int.tdiv (delta * 25 + 499) 1000
      let st3 := { st1 with histo := histoBump st1.histo usecs }
      if st3.do_write then writeCells delta st3 else st3
    else st1
  { st2 with last_transition_time := t }

/-- Body of the `for` loop (lines 129-167) for the sample `b` at stream position `p`. -/
def stepAt (p : Int) (b : Sample) (st : TrackState) : TrackState :=
  let t := p * TIME_UNITS_PER_SAMPLE
  let st1 := if indexEdge st.prev_byte b then indexStep t st else st
  let st2 := if dataEdge st1.prev_byte b then transitionStep t st1 else st1
  { st2 with prev_byte := b }

/-- The `for` loop of line 128 over the rest of a chunk, `i` being the loop index. -/
def forLoop : List Sample → Nat → TrackState → TrackState
  | [], _, st => st
  | b :: bs, i, st =>
    if st.index_count ≤ MAX_REVOLUTIONS then
      forLoop bs (i + 1) (stepAt (st.total_rd + (i : Int)) b st)
    else st

/-- The `while` loop of lines 127-170 over the chunks returned by `fread`. -/
def captureLoop : List (List Sample) → TrackState → TrackState
  | [], st => st
  | chunk :: rest, st =>
    if 0 < chunk.length ∧ st.index_count ≤ MAX_REVOLUTIONS then
      let st1 := forLoop chunk 0 st
      captureLoop rest { st1 with total_rd := st1.total_rd + (chunk.length : Int) }
    else st

/-- The four bytes of `x`, least significant first (lines 111-114). -/
def offsetBytes (x : Nat) : List Nat :=
  [x % 256, (x / 256) % 256, (x / 65536) % 256, (x / 16777216) % 256]

/-- The 64-byte empty track data header of lines 122-123. -/
def trackStub (track_num track_side : Nat) : List Nat :=
  [84, 82, 75, (2 * track_num + track_side) % 256] ++ List.replicate 60 0

/-- Lines 104-125: the directory entry and the empty track header are written. -/
def beginTrack (out : File) (track_num track_side : Nat) : File :=
  let out1 := fseekEnd out
  let offset_track_header := ftell out1
  let out2 := fseekSet out1 (16 + 4 * (2 * track_num + track_side))
  let out3 := fwrite out2 (offsetBytes offset_track_header)
  let out4 := fseekEnd out3
  fwrite out4 (trackStub track_num track_side)

/-- The variables of `acquire_track` when the capture loop is entered. -/
def trackInit (out : File) (track_num track_side : Nat) : TrackState :=
  { total_rd := 0
    index_count := 0
    index_times := List.replicate (MAX_REVOLUTIONS + 1) 0
    index_offsets := List.replicate (MAX_REVOLUTIONS + 1) 0
    index_transitions := List.replicate (MAX_REVOLUTIONS + 1) 0
    last_transition_time := -1
    num_transitions := 0
    total_w := 0
    histo := List.replicate 16 0
    prev_byte := 0xff
    do_write := true
    out := beginTrack out track_num track_side }

/-- The four bytes of the `int` value `x`, least significant first (lines 186-189). -/
def intBytes (x : Int) : List Nat :=
  [(x % 256).toNat, ((x / 256) % 256).toNat, ((x / 65536) % 256).toNat,
   ((x / 16777216) % 256).toNat]

/-- The values `duration`, `transitions` and `offset` of lines 185, 190 and 195. -/
def revolutionRecord (st : TrackState) (i : Nat) : Int × Int × Int :=
  (st.index_times.getD (i + 1) 0 - st.index_times.getD i 0,
   st.index_transitions.getD (i + 1) 0 - st.index_transitions.getD i 0,
   st.index_offsets.getD i 0 + 4 + 12 * (MAX_REVOLUTIONS : Int))

/-- The array `bytes[12]` of lines 184-199. -/
def recordBytes (r : Int × Int × Int) : List Nat :=
  intBytes r.1 ++ intBytes r.2.1 ++ intBytes r.2.2

/-- The loop `for( int i=0 ; i+1<index_count ; ++i )` of lines 183-201, from `i` on;
`n` bounds the number of iterations left. -/
def patchLoop : Nat → Nat → TrackState → File → File
  | 0, _, _, out => out
  | n + 1, i, st, out =>
    if i + 1 < st.index_count then
      patchLoop n (i + 1) st (fwrite out (recordBytes (revolutionRecord st i)))
    else out

/-- The state of `acquire_track` when the capture loop has ended. -/
def captureState (out : File) (track_num track_side : Nat) (input : List (List Sample)) :
    TrackState :=
  captureLoop input (trackInit out track_num track_side)

/-- The function `acquire_track`: the output file after the track has been acquired. -/
def acquire_track (out : File) (track_num track_side : Nat) (input : List (List Sample)) :
    File :=
  let offset_track_header := (fseekEnd out).pos
  let st := captureState out track_num track_side input
  let out1 := fseekSet st.out (offset_track_header + 4)
  let out2 := patchLoop st.index_count 0 st out1
  fseekEnd out2

/-- The array `bytes[680]` that `main` writes as file header (lines 224-235). -/
def fileHeader : List Nat :=
  [83, 67, 80, 0x09, 0x04, MAX_REVOLUTIONS, 0, 0xa5, 0x03, 0x00, 0x00, 0x00, 0x00]
    ++ List.replicate 667 0

/-- The output file of `main` after `fopen(filename, "w+")` and the header write. -/
def headerFile : File := fwrite { data := [], pos := 0 } fileHeader

/-- The track loop of `main` (lines 272-291) from cylinder `track` on, for `n` more
cylinders; `input track side` is what the capture device delivers for that track. -/
def trackLoop (input : Nat → Nat → List (List Sample)) : Nat → Nat → File → File
  | 0, _, out => out
  | n + 1, track, out =>
    let out1 := acquire_track out track 0 (input track 0)
    let out2 := acquire_track out1 track 1 (input track 1)
    trackLoop input n (track + 1) out2

/-- The output file that `main` leaves behind. -/
def mainFile (input : Nat → Nat → List (List Sample)) : File :=
  trackLoop input 83 0 headerFile

/-! ## The stream seen as a whole -/

/-- The samples handed to the capture loop: the chunks up to the first empty one. -/
def streamOf (input : List (List Sample)) : List Sample :=
  (input.takeWhile (fun c => decide (0 < c.length))).flatten

/-- The body of the `for` loop run over a stream that starts at position `p`, with the
loop guard `index_count<=MAX_REVOLUTIONS` before every sample. -/
def runAt : List Sample → Int → TrackState → TrackState
  | [], _, st => st
  | b :: bs, p, st =>
    if st.index_count ≤ MAX_REVOLUTIONS then runAt bs (p + 1) (stepAt p b st) else st

/-- The positions `p, p+1, ...` of a stream at which `edge` holds between a sample and its
predecessor, `prev` being the predecessor of the first sample. -/
def edgePositions (edge : Sample → Sample → Bool) : Sample → Nat → List Sample → List Nat
  | _, _, [] => []
  | prev, p, b :: bs =>
    if edge prev b then p :: edgePositions edge b (p + 1) bs
    else edgePositions edge b (p + 1) bs

/-- The stream positions at which the index-pulse test holds. -/
def indexPositions (s : List Sample) : List Nat := edgePositions indexEdge 0xff 0 s

/-- The stream positions at which the transition test holds. -/
def dataPositions (s : List Sample) : List Nat := edgePositions dataEdge 0xff 0 s

/-- The part of a stream up to and including its sixth index edge; the whole stream when it
has fewer index edges. -/
def processed (s : List Sample) : List Sample :=
  match (indexPositions s)[MAX_REVOLUTIONS]? with
  | some p => s.take (p + 1)
  | none => s

/-- The time differences, in time units, between consecutive positions of a list. -/
def deltas : List Nat → List Int
  | a :: b :: rest => (2 * (b : Int) - 2 * (a : Int)) :: deltas (b :: rest)
  | _ => []

/-- The cells that stand for one delta: `delta / 0x10000` all-zero cells, then one cell with
`delta % 0x10000`, high byte first. -/
def deltaCells (delta : Int) : List Nat :=
  List.replicate (2 * (delta / 0x10000).toNat) 0
    ++ [((delta % 0x10000) / 256).toNat, ((delta % 0x10000) % 256).toNat]

/-- The cell bytes of a sequence of deltas. -/
def cellStream (ds : List Int) : List Nat := (ds.map deltaCells).flatten

/-- The decoder in the words of the specification: an all-zero cell adds `0x10000` to the
pending value, any other cell closes the value with its big-endian 16-bit remainder. -/
def decodeCells : Int → List Nat → List Int
  | pending, hi :: lo :: rest =>
    if hi = 0 ∧ lo = 0 then decodeCells (pending + 0x10000) rest
    else (pending + (256 * (hi : Int) + (lo : Int))) :: decodeCells 0 rest
  | _, _ => []

/-- The positions of a list that lie below `q`. -/
def below (ps : List Nat) (q : Nat) : List Nat := ps.filter (fun x => decide (x < q))

/-! ## Auxiliary notions for the statements -/

/-- The value of `last_transition_time` after the transitions at the given positions. -/
def lastTime (ps : List Nat) : Int :=
  match ps.getLast? with
  | some q => 2 * (q : Int)
  | none => -1

/-- What the variables of `acquire_track` hold once the samples `v` have all gone through
the body of the `for` loop, the file having been `out0` when the loop was entered. -/
structure Captured (out0 : File) (v : List Sample) (st : TrackState) : Prop where
  count : st.index_count = (indexPositions v).length
  count_le : st.index_count ≤ MAX_REVOLUTIONS + 1
  len_times : st.index_times.length = MAX_REVOLUTIONS + 1
  len_transitions : st.index_transitions.length = MAX_REVOLUTIONS + 1
  len_offsets : st.index_offsets.length = MAX_REVOLUTIONS + 1
  times : ∀ i, i < (indexPositions v).length →
    st.index_times.getD i 0 = 2 * (((indexPositions v).getD i 0 : Nat) : Int)
  transitions : ∀ i, i < (indexPositions v).length →
    st.index_transitions.getD i 0
      = (((below (dataPositions v) ((indexPositions v).getD i 0)).length : Nat) : Int)
  offsets : ∀ i, i < (indexPositions v).length →
    st.index_offsets.getD i 0
      = (((cellStream (deltas (below (dataPositions v) ((indexPositions v).getD i 0)))).length
          : Nat) : Int)
  offsets_mono : ∀ i j, i ≤ j → j < (indexPositions v).length →
    st.index_offsets.getD i 0 ≤ st.index_offsets.getD j 0
  offsets_le : ∀ i, i < (indexPositions v).length → st.index_offsets.getD i 0 ≤ st.total_w
  num : st.num_transitions = (((dataPositions v).length : Nat) : Int)
  last : st.last_transition_time = lastTime (dataPositions v)
  data : st.out.data = out0.data ++ cellStream (deltas (dataPositions v))
  pos : st.out.pos = st.out.data.length
  written : st.total_w = (((cellStream (deltas (dataPositions v))).length : Nat) : Int)
  writing : st.do_write = true
  prev : st.prev_byte = v.getLast?.getD 0xff

/-- The bytes of the revolution records from record `i` on, `k` records in all. -/
def recordsFrom (st : TrackState) (i k : Nat) : List Nat :=
  ((List.range' i k).map (fun j => recordBytes (revolutionRecord st j))).flatten

/-- The bytes that the header patch writes. -/
def headerPatch (st : TrackState) : List Nat := recordsFrom st 0 (st.index_count - 1)

/-- The bytes of the file once `acquire_track` has written the directory entry. -/
def withDirectoryEntry (out : File) (track_num track_side : Nat) : List Nat :=
  (fwrite (fseekSet (fseekEnd out) (16 + 4 * (2 * track_num + track_side)))
    (offsetBytes (ftell (fseekEnd out)))).data

/-- The cell bytes that a stream of samples stands for. -/
def trackCells (s : List Sample) : List Nat := cellStream (deltas (dataPositions (processed s)))

/-- The deltas, in time units, between the consecutive transitions that `acquire_track`
sees in a stream. -/
def transitionDeltas (s : List Sample) : List Int := deltas (dataPositions (processed s))

/-- The cell bytes that `acquire_track` leaves in the file after the track header. -/
def emittedCells (out : File) (track_num track_side : Nat) (input : List (List Sample)) :
    List Nat :=
  (acquire_track out track_num track_side input).data.drop
    (beginTrack out track_num track_side).data.length

/-- A capture of 32770 samples, read in chunks of 1024: a transition at sample 1 and the next
one at sample 32769, that is `0x10000` time units later. -/
def exactOverflowInput : List (List Sample) :=
  ([1, 0] ++ List.replicate 1022 1) :: (List.replicate 31 (List.replicate 1024 1) ++ [[1, 0]])

/-- A capture of 32772 samples, read in chunks of at most 1024: transitions at the samples 1,
32769 and 32771, that is a delta of `0x10000` time units followed by a delta of 4. -/
def overflowThenShortInput : List (List Sample) :=
  ([1, 0] ++ List.replicate 1022 1) :: (List.replicate 31 (List.replicate 1024 1) ++ [[1, 0, 1, 0]])

/-- The four bytes of the 32-bit two's-complement value `x`, least significant first. -/
def littleEndian32 (x : Int) : List Nat :=
  (List.range 4).map (fun k => ((x / 256 ^ k) % 256).toNat)

/-- One call of `acquire_track` by `main`: the cylinder, the side, and what the capture
device delivers for that track. -/
structure TrackCall where
  cylinder : Nat
  side : Nat
  input : List (List Sample)

/-- The track id `2*cylinder + side` of a call. -/
def trackId (c : TrackCall) : Nat := 2 * c.cylinder + c.side

/-- A sequence of calls of `acquire_track` on the same output file. -/
def acquireAll (calls : List TrackCall) (out : File) : File :=
  calls.foldl (fun f c => acquire_track f c.cylinder c.side c.input) out

/-- The value of a sequence of bytes read as a little-endian number. -/
def leDecode (bs : List Nat) : Nat := bs.foldr (fun b acc => b + 256 * acc) 0

/-- A capture of `CAPTURE_SIZE` samples, read in chunks of 1024, in which the data line
alternates between 1 and 0 from sample to sample and the index line stays low. -/
def squareWaveInput : List (List Sample) :=
  List.replicate 32768 (List.replicate 512 [1, 0]).flatten

/-- The calls of `main` for the track ids 0 to 127 with the square wave as capture, and then
the call for track id 128 with a capture device that delivers nothing. -/
def squareWaveCalls : List TrackCall :=
  (List.range 128).map (fun k => ⟨k / 2, k % 2, squareWaveInput⟩) ++ [⟨64, 0, []⟩]

/-- The values of the cells that stand for one delta: `delta / 0x10000` cells of value 0 and
one cell with the remainder `delta % 0x10000`. -/
def cellValues (delta : Int) : List Int :=
  List.replicate (delta / 0x10000).toNat 0 ++ [delta % 0x10000]

/-- The two bytes of a 16-bit cell value, high byte first. -/
def bigEndianCell (v : Int) : List Nat := [((v / 256) % 256).toNat, (v % 256).toNat]

/-- The two bytes of a 16-bit cell value, low byte first. -/
def littleEndianCell (v : Int) : List Nat := [(v % 256).toNat, ((v / 256) % 256).toNat]

/-- The first `m` calls of `acquire_track` by `main`, in order: the call for track id `id` is
for cylinder `id / 2` and side `id % 2`. -/
def trackCalls (input : Nat → Nat → List (List Sample)) (m : Nat) : List TrackCall :=
  (List.range m).map (fun id => ⟨id / 2, id % 2, input (id / 2) (id % 2)⟩)

/-- The length of the file when `main` has made its first `k` calls of `acquire_track`: the
`offset_track_header` of the call for track id `k`. -/
def trackOffset (input : Nat → Nat → List (List Sample)) (k : Nat) : Nat :=
  (acquireAll (trackCalls input k) headerFile).data.length

/-- The lines of the histogram that `acquire_track` prints (lines 176-179), each as its label
and the count printed after it: `"~%dus"` with `i+1` for `histo[i]`, `i` from 0 to 14, then
`">15us"` for `histo[15]`. -/
def histogramLines (histo : List Int) : List (String × Int) :=
  (List.range 15).map (fun i => ("~" ++ toString (i + 1) ++ "us", histo.getD i 0))
    ++ [(">15us", histo.getD 15 0)]

/-- The value `usecs` of line 150 for a delta. -/
def usecsOf (delta : Int) : Int := Int.tdiv (delta * 25 + 499) 1000

/-- A capture of 42 samples with two transitions 40 samples apart, that is 80 time units or
2 microseconds. -/
def twoMicrosecondInput : List (List Sample) := [[1, 0] ++ List.replicate 39 1 ++ [0]]

/-- A capture of 302 samples with two transitions 300 samples apart, that is 600 time units
or 15 microseconds. -/
def fifteenMicrosecondInput : List (List Sample) := [[1, 0] ++ List.replicate 299 1 ++ [0]]

/-! # Theorems -/

/-! ## File operations -/

theorem fwrite_end_data (f : File) (bs : List Nat) (h : f.pos = f.data.length) :
    (fwrite f bs).data = f.data ++ bs := by
  simp [fwrite, h]

theorem fwrite_end (f : File) (bs : List Nat) (h : f.pos = f.data.length) :
    fwrite f bs = { data := f.data ++ bs, pos := f.data.length + bs.length } := by
  simp [fwrite, h]

theorem fwrite_end_pos (f : File) (bs : List Nat) (h : f.pos = f.data.length) :
    (fwrite f bs).pos = (fwrite f bs).data.length := by
  simp [fwrite, h]

theorem fwrite_inside_data (f : File) (bs : List Nat) (h : f.pos + bs.length ≤ f.data.length) :
    (fwrite f bs).data = f.data.take f.pos ++ bs ++ f.data.drop (f.pos + bs.length) := by
  have : f.pos - f.data.length = 0 := by omega
  simp [fwrite, this]

theorem fwrite_inside_length (f : File) (bs : List Nat)
    (h : f.pos + bs.length ≤ f.data.length) :
    (fwrite f bs).data.length = f.data.length := by
  rw [fwrite_inside_data f bs h]
  simp
  omega

theorem fwrite_pos (f : File) (bs : List Nat) : (fwrite f bs).pos = f.pos + bs.length := rfl

/-! ## The overflow loop -/

theorem zeros_comm (m : Nat) :
    (0 :: 0 :: List.replicate m 0 : List Nat) = List.replicate m 0 ++ [0, 0] := by
  induction m with
  | zero => rfl
  | succ k ih => simp [List.replicate_succ, ← ih]

theorem overflowLoop_spec (fuel : Nat) :
    ∀ (delta total_w : Int) (out : File), 0 ≤ delta → delta / 0x10000 ≤ (fuel : Int) →
      out.pos = out.data.length →
      overflowLoop fuel delta total_w out =
        (delta % 0x10000, total_w + 2 * (delta / 0x10000),
          { data := out.data ++ List.replicate (2 * (delta / 0x10000).toNat) 0,
            pos := out.data.length + 2 * (delta / 0x10000).toNat }) := by
  induction fuel with
  | zero =>
    intro delta total_w out h0 hf hp
    have hq : delta / 0x10000 = 0 := by
      have := Int.ediv_nonneg h0 (by norm_num : (0:Int) ≤ 0x10000)
      simp at hf; omega
    have hlt : delta < 0x10000 := by omega
    have hm : delta % 0x10000 = delta := Int.emod_eq_of_lt h0 hlt
    cases out
    simp_all [overflowLoop]
  | succ n ih =>
    intro delta total_w out h0 hf hp
    unfold overflowLoop
    split
    · rename_i hge
      have h1 : 0 ≤ delta - 0x10000 := by omega
      have hq : (delta - 0x10000) / 0x10000 = delta / 0x10000 - 1 := by omega
      have hm : (delta - 0x10000) % 0x10000 = delta % 0x10000 := by omega
      have hq1 : 1 ≤ delta / 0x10000 := by omega
      rw [ih (delta - 0x10000) (total_w + 2) (fwrite out [0, 0]) h1 (by push_cast at hf ⊢; omega)
        (fwrite_end_pos out _ hp)]
      rw [fwrite_end_data out _ hp, hq, hm]
      have ht : (delta / 0x10000).toNat = (delta / 0x10000 - 1).toNat + 1 := by omega
      rw [ht]
      simp only [Prod.mk.injEq, File.mk.injEq, true_and]
      refine ⟨by ring, ?_, ?_⟩
      · rw [Nat.mul_add, List.replicate_add]
        simp [List.append_assoc]
        exact zeros_comm _
      · simp; omega
    · rename_i hlt
      have hlt' : delta < 0x10000 := by omega
      have hq : delta / 0x10000 = 0 := Int.ediv_eq_zero_of_lt h0 hlt'
      have hm : delta % 0x10000 = delta := Int.emod_eq_of_lt h0 hlt'
      cases out
      simp_all

theorem deltaCells_length (delta : Int) :
    (deltaCells delta).length = 2 * (delta / 0x10000).toNat + 2 := by
  simp [deltaCells]

theorem writeCells_spec (delta : Int) (st : TrackState) (h0 : 0 ≤ delta)
    (hp : st.out.pos = st.out.data.length) :
    writeCells delta st =
      { st with
        out := { data := st.out.data ++ deltaCells delta,
                 pos := st.out.data.length + (deltaCells delta).length }
        total_w := st.total_w + ((deltaCells delta).length : Int) } := by
  have hfuel : delta / 0x10000 ≤ (delta.toNat : Int) := by
    have h1 : delta / 0x10000 ≤ delta := Int.ediv_le_self _ h0
    have h2 : (delta.toNat : Int) = delta := Int.toNat_of_nonneg h0
    omega
  have hq0 : 0 ≤ delta / 0x10000 := Int.ediv_nonneg h0 (by norm_num)
  have hr : ((delta % 0x10000) / 256) % 256 = (delta % 0x10000) / 256 := by omega
  have e1 : fwrite { data := st.out.data ++ List.replicate (2 * (delta / 0x10000).toNat) 0,
                     pos := st.out.data.length + 2 * (delta / 0x10000).toNat }
        [((delta % 0x10000 / 256) % 256).toNat, (delta % 0x10000 % 256).toNat]
      = { data := st.out.data ++ deltaCells delta,
          pos := st.out.data.length + (deltaCells delta).length } := by
    rw [hr, fwrite_end _ _ (by simp)]
    simp [deltaCells]
    omega
  have e2 : st.total_w + 2 * (delta / 0x10000) + 2
      = st.total_w + ((deltaCells delta).length : Int) := by
    rw [deltaCells_length]
    push_cast
    rw [Int.toNat_of_nonneg hq0]
    ring
  unfold writeCells
  rw [overflowLoop_spec delta.toNat delta st.total_w st.out h0 hfuel hp]
  simp only [e1, e2]

/-! ## One sample -/

theorem stepAt_prev_byte (p : Int) (b : Sample) (st : TrackState) :
    (stepAt p b st).prev_byte = b := rfl

theorem stepAt_total_rd (p : Int) (b : Sample) (st : TrackState) :
    (stepAt p b st).total_rd = st.total_rd := by
  unfold stepAt indexStep transitionStep writeCells
  simp only
  split <;> split <;> (try split) <;> (try split) <;> rfl

theorem stepAt_index_count (p : Int) (b : Sample) (st : TrackState) :
    (stepAt p b st).index_count =
      if indexEdge st.prev_byte b then st.index_count + 1 else st.index_count := by
  unfold stepAt indexStep transitionStep writeCells
  simp only
  split <;> split <;> (try split) <;> (try split) <;> rfl

theorem stepAt_index_times (p : Int) (b : Sample) (st : TrackState) :
    (stepAt p b st).index_times =
      if indexEdge st.prev_byte b then st.index_times.set st.index_count (2 * p)
      else st.index_times := by
  unfold stepAt indexStep transitionStep writeCells TIME_UNITS_PER_SAMPLE
  simp only [mul_comm p 2]
  split <;> split <;> (try split) <;> (try split) <;> rfl

theorem stepAt_index_transitions (p : Int) (b : Sample) (st : TrackState) :
    (stepAt p b st).index_transitions =
      if indexEdge st.prev_byte b then st.index_transitions.set st.index_count st.num_transitions
      else st.index_transitions := by
  unfold stepAt indexStep transitionStep writeCells
  simp only
  split <;> split <;> (try split) <;> (try split) <;> rfl

theorem stepAt_index_offsets (p : Int) (b : Sample) (st : TrackState) :
    (stepAt p b st).index_offsets =
      if indexEdge st.prev_byte b then st.index_offsets.set st.index_count st.total_w
      else st.index_offsets := by
  unfold stepAt indexStep transitionStep writeCells
  simp only
  split <;> split <;> (try split) <;> (try split) <;> rfl

theorem stepAt_num_transitions (p : Int) (b : Sample) (st : TrackState) :
    (stepAt p b st).num_transitions =
      if dataEdge st.prev_byte b then st.num_transitions + 1 else st.num_transitions := by
  unfold stepAt indexStep transitionStep writeCells
  simp only
  split <;> split <;> (try split) <;> (try split) <;> rfl

theorem stepAt_last_transition_time (p : Int) (b : Sample) (st : TrackState) :
    (stepAt p b st).last_transition_time =
      if dataEdge st.prev_byte b then 2 * p else st.last_transition_time := by
  unfold stepAt indexStep transitionStep writeCells TIME_UNITS_PER_SAMPLE
  simp only [mul_comm p 2]
  split <;> split <;> (try split) <;> (try split) <;> rfl

theorem stepAt_do_write (p : Int) (b : Sample) (st : TrackState) (h : st.do_write = true) :
    (stepAt p b st).do_write = true := by
  unfold stepAt indexStep transitionStep writeCells
  simp only
  split <;> split <;> (try split) <;> (try split) <;> simp_all

/-- The cells that one sample adds to the output. -/
theorem stepAt_out (p : Int) (b : Sample) (st : TrackState) (hw : st.do_write = true)
    (hp : st.out.pos = st.out.data.length) (hlt : st.last_transition_time ≤ 2 * p) :
    (stepAt p b st).out.data =
        st.out.data ++ (if dataEdge st.prev_byte b = true ∧ 0 ≤ st.last_transition_time
                        then deltaCells (2 * p - st.last_transition_time) else [])
      ∧ (stepAt p b st).out.pos = (stepAt p b st).out.data.length
      ∧ (stepAt p b st).total_w =
        st.total_w + (if dataEdge st.prev_byte b = true ∧ 0 ≤ st.last_transition_time
                        then (((deltaCells (2 * p - st.last_transition_time)).length : Nat) : Int)
                        else 0) := by
  unfold stepAt
  simp only
  have hpb : ∀ t, (indexStep t st).prev_byte = st.prev_byte := fun _ => rfl
  have hout : ∀ t, (indexStep t st).out = st.out := fun _ => rfl
  have hl : ∀ t, (indexStep t st).last_transition_time = st.last_transition_time := fun _ => rfl
  have htw : ∀ t, (indexStep t st).total_w = st.total_w := fun _ => rfl
  have hdw : ∀ t, (indexStep t st).do_write = true := fun _ => rfl
  generalize hst1 : (if indexEdge st.prev_byte b = true then indexStep (p * TIME_UNITS_PER_SAMPLE) st
    else st) = st1
  have e1 : st1.prev_byte = st.prev_byte := by subst hst1; split <;> simp [hpb]
  have e2 : st1.out = st.out := by subst hst1; split <;> simp [hout]
  have e3 : st1.last_transition_time = st.last_transition_time := by
    subst hst1; split <;> simp [hl]
  have e4 : st1.total_w = st.total_w := by subst hst1; split <;> simp [htw]
  have e5 : st1.do_write = true := by subst hst1; split <;> simp [hdw, hw]
  rw [e1]
  by_cases hd : dataEdge st.prev_byte b = true
  · simp only [hd, if_true, true_and]
    unfold transitionStep
    simp only [e3, e5, if_true, TIME_UNITS_PER_SAMPLE, mul_comm p 2]
    by_cases hl0 : st.last_transition_time ≥ 0
    · have hl0' : 0 ≤ st.last_transition_time := hl0
      simp only [hl0, hl0', if_true]
      rw [writeCells_spec _ _ (by omega) (by simpa [e2] using hp)]
      simp [e2, e4]
    · have hl0' : ¬ 0 ≤ st.last_transition_time := hl0
      simp only [hl0, hl0', if_false]
      simp [e2, e4, hp]
  · simp [hd, e2, e4, hp]

/-! ## The loops -/

theorem runAt_nil (p : Int) (st : TrackState) : runAt [] p st = st := rfl

theorem runAt_cons (b : Sample) (bs : List Sample) (p : Int) (st : TrackState) :
    runAt (b :: bs) p st =
      if st.index_count ≤ MAX_REVOLUTIONS then runAt bs (p + 1) (stepAt p b st) else st := rfl

theorem forLoop_cons (b : Sample) (bs : List Sample) (i : Nat) (st : TrackState) :
    forLoop (b :: bs) i st =
      if st.index_count ≤ MAX_REVOLUTIONS
      then forLoop bs (i + 1) (stepAt (st.total_rd + (i : Int)) b st) else st := rfl

theorem runAt_stopped (s : List Sample) (p : Int) (st : TrackState)
    (h : ¬ st.index_count ≤ MAX_REVOLUTIONS) : runAt s p st = st := by
  cases s with
  | nil => rfl
  | cons b bs => rw [runAt_cons, if_neg h]

theorem runAt_append (s t : List Sample) :
    ∀ (p : Int) (st : TrackState),
      runAt (s ++ t) p st = runAt t (p + (s.length : Int)) (runAt s p st) := by
  induction s with
  | nil => intro p st; simp [runAt]
  | cons b bs ih =>
    intro p st
    by_cases h : st.index_count ≤ MAX_REVOLUTIONS
    · rw [List.cons_append, runAt_cons, if_pos h, runAt_cons, if_pos h, ih, List.length_cons]
      congr 1
      push_cast
      ring
    · rw [List.cons_append, runAt_cons, if_neg h, runAt_cons, if_neg h]
      exact (runAt_stopped t _ st h).symm

theorem runAt_snoc (s : List Sample) (b : Sample) (p : Int) (st : TrackState) :
    runAt (s ++ [b]) p st =
      if (runAt s p st).index_count ≤ MAX_REVOLUTIONS
      then stepAt (p + (s.length : Int)) b (runAt s p st) else runAt s p st := by
  rw [runAt_append, runAt_cons, runAt_nil]

theorem stepAt_with_total_rd (p : Int) (b : Sample) (st : TrackState) (x : Int) :
    stepAt p b { st with total_rd := x } = { stepAt p b st with total_rd := x } := by
  unfold stepAt indexStep transitionStep writeCells
  simp only
  split <;> split <;> (try split) <;> (try split) <;> rfl

theorem runAt_with_total_rd (s : List Sample) :
    ∀ (p : Int) (st : TrackState) (x : Int),
      runAt s p { st with total_rd := x } = { runAt s p st with total_rd := x } := by
  induction s with
  | nil => intro p st x; rfl
  | cons b bs ih =>
    intro p st x
    by_cases h : st.index_count ≤ MAX_REVOLUTIONS
    · have h' : ({ st with total_rd := x } : TrackState).index_count ≤ MAX_REVOLUTIONS := h
      rw [runAt_cons, if_pos h', runAt_cons, if_pos h, stepAt_with_total_rd, ih]
    · have h' : ¬ ({ st with total_rd := x } : TrackState).index_count ≤ MAX_REVOLUTIONS := h
      rw [runAt_cons, if_neg h', runAt_cons, if_neg h]

theorem forLoop_eq_runAt (bs : List Sample) :
    ∀ (i : Nat) (st : TrackState), forLoop bs i st = runAt bs (st.total_rd + (i : Int)) st := by
  induction bs with
  | nil => intro i st; rfl
  | cons b bs ih =>
    intro i st
    by_cases h : st.index_count ≤ MAX_REVOLUTIONS
    · rw [forLoop_cons, if_pos h, runAt_cons, if_pos h, ih, stepAt_total_rd]
      congr 1
      push_cast
      ring
    · rw [forLoop_cons, if_neg h, runAt_cons, if_neg h]

theorem streamOf_nil : streamOf [] = [] := rfl

theorem streamOf_cons_nonempty (c : List Sample) (cs : List (List Sample)) (h : 0 < c.length) :
    streamOf (c :: cs) = c ++ streamOf cs := by
  simp [streamOf, List.takeWhile_cons, h]

theorem streamOf_cons_empty (c : List Sample) (cs : List (List Sample)) (h : ¬ 0 < c.length) :
    streamOf (c :: cs) = [] := by
  simp [streamOf, List.takeWhile_cons, h]

/-- The chunked capture loop is the sample loop over the whole stream; only `total_rd`,
which is advanced chunk by chunk, is not determined by the stream alone. -/
theorem captureLoop_eq_runAt (cs : List (List Sample)) :
    ∀ st : TrackState, ∃ n : Int,
      captureLoop cs st = { runAt (streamOf cs) st.total_rd st with total_rd := n } := by
  induction cs with
  | nil => intro st; exact ⟨st.total_rd, rfl⟩
  | cons c cs ih =>
    intro st
    by_cases hc : 0 < c.length
    · by_cases h : st.index_count ≤ MAX_REVOLUTIONS
      · obtain ⟨n, hn⟩ := ih { forLoop c 0 st with total_rd := (forLoop c 0 st).total_rd + (c.length : Int) }
        refine ⟨n, ?_⟩
        simp only [captureLoop, hc, h, and_self, if_true]
        rw [hn, streamOf_cons_nonempty c cs hc, runAt_append, forLoop_eq_runAt]
        simp only [Nat.cast_zero, add_zero, runAt_with_total_rd]
        have : (runAt c st.total_rd st).total_rd = st.total_rd := by
          have hgen : ∀ (s : List Sample) (p : Int) (st : TrackState),
              (runAt s p st).total_rd = st.total_rd := by
            intro s
            induction s with
            | nil => intro p st; rfl
            | cons b bs ih2 =>
              intro p st
              by_cases h2 : st.index_count ≤ MAX_REVOLUTIONS
              · rw [runAt_cons, if_pos h2, ih2, stepAt_total_rd]
              · rw [runAt_cons, if_neg h2]
          exact hgen _ _ _
        rw [this]
      · refine ⟨st.total_rd, ?_⟩
        simp only [captureLoop, hc, h, and_false, if_false]
        rw [runAt_stopped _ _ _ h]
    · refine ⟨st.total_rd, ?_⟩
      simp only [captureLoop, hc, false_and, if_false]
      rw [streamOf_cons_empty c cs hc]
      rfl

/-! ## Edge positions -/

theorem edgePositions_append (edge : Sample → Sample → Bool) (s t : List Sample) :
    ∀ (prev : Sample) (p : Nat),
      edgePositions edge prev p (s ++ t) =
        edgePositions edge prev p s ++ edgePositions edge (s.getLast?.getD prev) (p + s.length) t := by
  induction s with
  | nil => intro prev p; simp [edgePositions]
  | cons b bs ih =>
    intro prev p
    have hl : (b :: bs).getLast?.getD prev = bs.getLast?.getD b := by
      cases bs with
      | nil => rfl
      | cons c cs =>
        rw [List.getLast?_cons_cons]
        simp [List.getLast?_eq_getLast, Option.getD]
    have hp : p + (b :: bs).length = p + 1 + bs.length := by simp; omega
    rw [hl, hp]
    simp only [List.cons_append, edgePositions]
    split <;> simp [ih]

theorem edgePositions_snoc (edge : Sample → Sample → Bool) (s : List Sample) (b : Sample)
    (prev : Sample) (p : Nat) :
    edgePositions edge prev p (s ++ [b]) =
      edgePositions edge prev p s ++
        (if edge (s.getLast?.getD prev) b then [p + s.length] else []) := by
  rw [edgePositions_append]
  simp only [edgePositions]

theorem edgePositions_bounds (edge : Sample → Sample → Bool) (s : List Sample) :
    ∀ (prev : Sample) (p q : Nat), q ∈ edgePositions edge prev p s → p ≤ q ∧ q < p + s.length := by
  induction s with
  | nil => intro prev p q h; simp [edgePositions] at h
  | cons b bs ih =>
    intro prev p q h
    simp only [edgePositions] at h
    simp only [List.length_cons]
    split at h
    · rcases List.mem_cons.mp h with h1 | h1
      · omega
      · have := ih _ _ _ h1; omega
    · have := ih _ _ _ h; omega

theorem indexPositions_snoc (s : List Sample) (b : Sample) :
    indexPositions (s ++ [b]) =
      indexPositions s ++ (if indexEdge (s.getLast?.getD 0xff) b then [s.length] else []) := by
  unfold indexPositions
  rw [edgePositions_snoc]
  simp

theorem dataPositions_snoc (s : List Sample) (b : Sample) :
    dataPositions (s ++ [b]) =
      dataPositions s ++ (if dataEdge (s.getLast?.getD 0xff) b then [s.length] else []) := by
  unfold dataPositions
  rw [edgePositions_snoc]
  simp

theorem indexPositions_lt (s : List Sample) (q : Nat) (h : q ∈ indexPositions s) : q < s.length := by
  have := edgePositions_bounds indexEdge s _ _ _ h
  omega

theorem dataPositions_lt (s : List Sample) (q : Nat) (h : q ∈ dataPositions s) : q < s.length := by
  have := edgePositions_bounds dataEdge s _ _ _ h
  omega

/-! ## The processed part of a stream -/

theorem processed_of_le (s : List Sample) (h : (indexPositions s).length ≤ MAX_REVOLUTIONS) :
    processed s = s := by
  unfold processed
  have : (indexPositions s)[MAX_REVOLUTIONS]? = none := by
    rw [List.getElem?_eq_none_iff]; exact h
  rw [this]

theorem processed_snoc (s : List Sample) (b : Sample) :
    processed (s ++ [b]) =
      if (indexPositions s).length ≤ MAX_REVOLUTIONS then s ++ [b] else processed s := by
  by_cases h : (indexPositions s).length ≤ MAX_REVOLUTIONS
  · rw [if_pos h]
    unfold processed
    cases hq : (indexPositions (s ++ [b]))[MAX_REVOLUTIONS]? with
    | none => rfl
    | some q =>
      simp only
      rw [indexPositions_snoc] at hq
      have hlen : (s ++ [b]).length = s.length + 1 := by simp
      by_cases he : indexEdge (s.getLast?.getD 0xff) b = true
      · simp only [he, if_true] at hq
        rw [List.getElem?_append_right h] at hq
        have hq' : q = s.length := by
          cases hk : MAX_REVOLUTIONS - (indexPositions s).length with
          | zero => rw [hk] at hq; simpa using hq.symm
          | succ k => rw [hk] at hq; simp at hq
        rw [hq', ← hlen, List.take_length]
      · simp only [he] at hq
        simp only [Bool.false_eq_true, if_false, List.append_nil] at hq
        have := List.getElem?_eq_none_iff.mpr h
        rw [this] at hq
        cases hq
  · rw [if_neg h]
    have h' : MAX_REVOLUTIONS < (indexPositions s).length := by omega
    unfold processed
    rw [indexPositions_snoc, List.getElem?_append_left h']
    have hsome : (indexPositions s)[MAX_REVOLUTIONS]? = some ((indexPositions s)[MAX_REVOLUTIONS]) :=
      List.getElem?_eq_getElem h'
    rw [hsome]
    simp only
    have hlt : (indexPositions s)[MAX_REVOLUTIONS] < s.length :=
      indexPositions_lt s _ (List.getElem_mem _)
    rw [List.take_append_of_le_length (by omega)]

theorem indexPositions_processed (s : List Sample) :
    indexPositions (processed s) = (indexPositions s).take (MAX_REVOLUTIONS + 1) := by
  induction s using List.reverseRecOn with
  | nil => rfl
  | append_singleton s b ih =>
    rw [processed_snoc]
    by_cases h : (indexPositions s).length ≤ MAX_REVOLUTIONS
    · rw [if_pos h]
      symm
      apply List.take_of_length_le
      rw [indexPositions_snoc]
      simp only [List.length_append]
      split <;> simp <;> omega
    · rw [if_neg h, ih, indexPositions_snoc]
      rw [List.take_append_of_le_length (by omega)]

theorem processed_prefix (s : List Sample) : processed s <+: s := by
  unfold processed
  split
  · exact List.take_prefix _ _
  · exact List.prefix_refl _

/-! ## Deltas and cells -/

theorem deltas_snoc (ps : List Nat) (q : Nat) :
    deltas (ps ++ [q]) =
      deltas ps ++ (match ps.getLast? with
                    | some l => [2 * (q : Int) - 2 * (l : Int)]
                    | none => []) := by
  induction ps with
  | nil => rfl
  | cons a as ih =>
    cases as with
    | nil => rfl
    | cons b bs =>
      have e : (a :: b :: bs ++ [q]) = a :: b :: (bs ++ [q]) := rfl
      rw [e]
      simp only [deltas]
      have e2 : b :: (bs ++ [q]) = (b :: bs) ++ [q] := rfl
      rw [e2, ih, List.getLast?_cons_cons]
      rfl

theorem cellStream_nil : cellStream [] = [] := rfl

theorem cellStream_append (xs ys : List Int) :
    cellStream (xs ++ ys) = cellStream xs ++ cellStream ys := by
  simp [cellStream]

theorem cellStream_singleton (d : Int) : cellStream [d] = deltaCells d := by
  simp [cellStream]

theorem lastTime_nonneg_iff (ps : List Nat) : 0 ≤ lastTime ps ↔ ps ≠ [] := by
  unfold lastTime
  cases h : ps.getLast? with
  | none => simp [List.getLast?_eq_none_iff.mp h]
  | some q =>
    have : ps ≠ [] := by intro hn; rw [hn] at h; simp at h
    simp only [this, ne_eq, not_false_eq_true, iff_true]
    omega

theorem lastTime_snoc (ps : List Nat) (q : Nat) : lastTime (ps ++ [q]) = 2 * (q : Int) := by
  simp [lastTime]

/-- The cells that a transition at position `q` adds after the transitions at `ps`. -/
theorem cellStream_deltas_snoc (ps : List Nat) (q : Nat) :
    cellStream (deltas (ps ++ [q])) =
      cellStream (deltas ps) ++
        (if 0 ≤ lastTime ps then deltaCells (2 * (q : Int) - lastTime ps) else []) := by
  rw [deltas_snoc, cellStream_append]
  unfold lastTime
  cases h : ps.getLast? with
  | none => simp [cellStream_nil]
  | some l =>
    have : (0 : Int) ≤ 2 * (l : Int) := by omega
    simp [this, cellStream_singleton]

/-! ## Positions below a bound -/

theorem below_append (ps qs : List Nat) (q : Nat) :
    below (ps ++ qs) q = below ps q ++ below qs q := by
  simp [below]

theorem below_all (ps : List Nat) (q : Nat) (h : ∀ x ∈ ps, x < q) : below ps q = ps := by
  unfold below
  rw [List.filter_eq_self]
  intro x hx
  simpa using h x hx

theorem below_none (ps : List Nat) (q : Nat) (h : ∀ x ∈ ps, q ≤ x) : below ps q = [] := by
  unfold below
  rw [List.filter_eq_nil_iff]
  intro x hx
  have := h x hx
  simp
  omega

/-! ## Array cells -/

theorem getD_set_self (l : List Int) (i : Nat) (x : Int) (h : i < l.length) :
    (l.set i x).getD i 0 = x := by
  simp [List.getD_eq_getElem?_getD, List.getElem?_set, h]

theorem getD_set_ne (l : List Int) (i j : Nat) (x : Int) (h : i ≠ j) :
    (l.set i x).getD j 0 = l.getD j 0 := by
  simp [List.getD_eq_getElem?_getD, List.getElem?_set, h]

theorem getD_append_left (l m : List Nat) (i : Nat) (h : i < l.length) :
    (l ++ m).getD i 0 = l.getD i 0 := by
  simp [List.getD_eq_getElem?_getD, List.getElem?_append_left h]

theorem getD_append_length (l : List Nat) (x : Nat) :
    (l ++ [x]).getD l.length 0 = x := by
  simp [List.getD_eq_getElem?_getD]

theorem getD_mem (l : List Nat) (i : Nat) (h : i < l.length) : l.getD i 0 ∈ l := by
  rw [List.getD_eq_getElem?_getD, List.getElem?_eq_getElem h]
  exact List.getElem_mem _

theorem lastTime_lt (ps : List Nat) (n : Nat) (h : ∀ x ∈ ps, x < n) :
    lastTime ps < 2 * (n : Int) := by
  unfold lastTime
  cases hq : ps.getLast? with
  | none => simp only; omega
  | some q =>
    have := h q (List.mem_of_mem_getLast? hq)
    simp only
    omega

theorem below_snoc_le (ps : List Nat) (x q : Nat) (c : Bool) (h : q ≤ x) :
    below (ps ++ (if c then [x] else [])) q = below ps q := by
  rw [below_append]
  have : below (if c then [x] else []) q = [] := by
    apply below_none
    intro y hy
    cases c <;> simp at hy
    omega
  rw [this, List.append_nil]

theorem beginTrack_pos (out : File) (track_num track_side : Nat) :
    (beginTrack out track_num track_side).pos = (beginTrack out track_num track_side).data.length := by
  unfold beginTrack
  exact fwrite_end_pos _ _ rfl

theorem captured_init (out : File) (track_num track_side : Nat) :
    Captured (beginTrack out track_num track_side) [] (trackInit out track_num track_side) where
  count := rfl
  count_le := by simp [trackInit]
  len_times := by simp [trackInit]
  len_transitions := by simp [trackInit]
  len_offsets := by simp [trackInit]
  times := by intro i hi; simp [indexPositions, edgePositions] at hi
  transitions := by intro i hi; simp [indexPositions, edgePositions] at hi
  offsets := by intro i hi; simp [indexPositions, edgePositions] at hi
  offsets_mono := by intro i j _ hj; simp [indexPositions, edgePositions] at hj
  offsets_le := by intro i hi; simp [indexPositions, edgePositions] at hi
  num := rfl
  last := rfl
  data := by simp [trackInit, dataPositions, edgePositions, deltas, cellStream]
  pos := beginTrack_pos out track_num track_side
  written := rfl
  writing := rfl
  prev := rfl

theorem captured_step (out0 : File) (s : List Sample) (b : Sample) (st : TrackState)
    (h : Captured out0 s st) (hc : st.index_count ≤ MAX_REVOLUTIONS) :
    Captured out0 (s ++ [b]) (stepAt (s.length : Int) b st) := by
  have hprev := h.prev
  have hips := indexPositions_snoc s b
  have hdps := dataPositions_snoc s b
  rw [← hprev] at hips hdps
  have hcnt := h.count
  have hdlt : ∀ x ∈ dataPositions s, x < s.length := dataPositions_lt s
  have hilt : ∀ x ∈ indexPositions s, x < s.length := indexPositions_lt s
  have hlast : st.last_transition_time ≤ 2 * (s.length : Int) := by
    rw [h.last]; exact le_of_lt (lastTime_lt _ _ hdlt)
  obtain ⟨hout, hpos, htw⟩ := stepAt_out (s.length : Int) b st h.writing h.pos hlast
  -- the entry of an index array that belongs to an earlier index edge
  have hold : ∀ i, i < (indexPositions s).length →
      (indexPositions (s ++ [b])).getD i 0 = (indexPositions s).getD i 0
        ∧ (indexPositions s).getD i 0 < s.length := by
    intro i hi
    rw [hips]
    exact ⟨getD_append_left _ _ _ hi, hilt _ (getD_mem _ _ hi)⟩
  have hnew : indexEdge st.prev_byte b = true →
      (indexPositions (s ++ [b])).getD (indexPositions s).length 0 = s.length := by
    intro he
    rw [hips, if_pos he]
    exact getD_append_length _ _
  have hlen : ∀ i, i < (indexPositions (s ++ [b])).length →
      i < (indexPositions s).length ∨
        (indexEdge st.prev_byte b = true ∧ i = (indexPositions s).length) := by
    intro i hi
    rw [hips] at hi
    by_cases he : indexEdge st.prev_byte b = true
    · rw [if_pos he, List.length_append, List.length_singleton] at hi
      by_cases hi2 : i < (indexPositions s).length
      · exact Or.inl hi2
      · exact Or.inr ⟨he, by omega⟩
    · rw [if_neg he, List.append_nil] at hi
      exact Or.inl hi
  have hbel : ∀ q, q ≤ s.length → below (dataPositions (s ++ [b])) q = below (dataPositions s) q := by
    intro q hq
    rw [hdps]
    exact below_snoc_le _ _ _ _ hq
  have hall : below (dataPositions s) s.length = dataPositions s := below_all _ _ hdlt
  constructor
  · -- count
    rw [stepAt_index_count, hips]
    split <;> simp [hcnt]
  · rw [stepAt_index_count]
    split <;> omega
  · rw [stepAt_index_times]
    split <;> simp [h.len_times]
  · rw [stepAt_index_transitions]
    split <;> simp [h.len_transitions]
  · rw [stepAt_index_offsets]
    split <;> simp [h.len_offsets]
  · -- times
    intro i hi
    rw [stepAt_index_times]
    rcases hlen i hi with h1 | ⟨he, h1⟩
    · rw [(hold i h1).1, ← h.times i h1]
      split
      · exact getD_set_ne _ _ _ _ (by omega)
      · rfl
    · subst h1
      rw [hnew he, if_pos he, hcnt]
      rw [getD_set_self _ _ _ (by rw [h.len_times, ← hcnt]; omega)]
  · -- transitions
    intro i hi
    rw [stepAt_index_transitions]
    rcases hlen i hi with h1 | ⟨he, h1⟩
    · rw [(hold i h1).1, hbel _ (le_of_lt (hold i h1).2), ← h.transitions i h1]
      split
      · exact getD_set_ne _ _ _ _ (by omega)
      · rfl
    · subst h1
      rw [hnew he, if_pos he, hcnt, hbel _ (le_refl _), hall]
      rw [getD_set_self _ _ _ (by rw [h.len_transitions, ← hcnt]; omega)]
      exact h.num
  · -- offsets
    intro i hi
    rw [stepAt_index_offsets]
    rcases hlen i hi with h1 | ⟨he, h1⟩
    · rw [(hold i h1).1, hbel _ (le_of_lt (hold i h1).2), ← h.offsets i h1]
      split
      · exact getD_set_ne _ _ _ _ (by omega)
      · rfl
    · subst h1
      rw [hnew he, if_pos he, hcnt, hbel _ (le_refl _), hall]
      rw [getD_set_self _ _ _ (by rw [h.len_offsets, ← hcnt]; omega)]
      exact h.written
  · -- offsets_mono
    intro i j hij hj
    rw [stepAt_index_offsets]
    rcases hlen j hj with h1 | ⟨he, h1⟩
    · split
      · rw [getD_set_ne _ _ _ _ (by omega), getD_set_ne _ _ _ _ (by omega)]
        exact h.offsets_mono i j hij h1
      · exact h.offsets_mono i j hij h1
    · subst h1
      rw [if_pos he, hcnt, getD_set_self _ _ _ (by rw [h.len_offsets, ← hcnt]; omega)]
      by_cases hij2 : i = (indexPositions s).length
      · rw [hij2, getD_set_self _ _ _ (by rw [h.len_offsets, ← hcnt]; omega)]
      · rw [getD_set_ne _ _ _ _ (by omega)]
        exact h.offsets_le i (by omega)
  · -- offsets_le
    intro i hi
    have hmono : st.total_w ≤ (stepAt (↑s.length) b st).total_w := by
      rw [htw]
      split <;> omega
    rw [stepAt_index_offsets]
    rcases hlen i hi with h1 | ⟨he, h1⟩
    · have := h.offsets_le i h1
      split
      · rw [getD_set_ne _ _ _ _ (by omega)]; omega
      · omega
    · subst h1
      rw [if_pos he, hcnt, getD_set_self _ _ _ (by rw [h.len_offsets, ← hcnt]; omega)]
      exact hmono
  · -- num
    rw [stepAt_num_transitions, hdps, h.num]
    split <;> simp
  · -- last
    rw [stepAt_last_transition_time, hdps]
    split
    · rw [lastTime_snoc]
    · rw [List.append_nil]; exact h.last
  · -- data
    rw [hout, hdps, h.data, h.last]
    by_cases hd : dataEdge st.prev_byte b = true
    · simp only [hd, if_true, true_and]
      rw [cellStream_deltas_snoc, List.append_assoc]
    · simp [hd]
  · exact hpos
  · -- written
    rw [htw, hdps, h.written, h.last]
    by_cases hd : dataEdge st.prev_byte b = true
    · simp only [hd, if_true, true_and]
      rw [cellStream_deltas_snoc]
      split <;> simp
    · simp [hd]
  · exact stepAt_do_write _ _ _ h.writing
  · rw [stepAt_prev_byte]
    simp

/-- The state that the sample loop reaches on a stream is described by the processed part
of the stream. -/
theorem captured_runAt (out0 : File) (init : TrackState) (h0 : Captured out0 [] init)
    (s : List Sample) : Captured out0 (processed s) (runAt s 0 init) := by
  induction s using List.reverseRecOn with
  | nil => exact h0
  | append_singleton s b ih =>
    have hP := indexPositions_processed s
    have hcnt := ih.count
    rw [runAt_snoc, processed_snoc]
    by_cases h : (indexPositions s).length ≤ MAX_REVOLUTIONS
    · have hps : processed s = s := processed_of_le s h
      rw [hps] at ih
      have hc : (runAt s 0 init).index_count ≤ MAX_REVOLUTIONS := by rw [ih.count]; exact h
      rw [if_pos h, if_pos hc, zero_add]
      exact captured_step out0 s b _ ih hc
    · have hc : ¬ (runAt s 0 init).index_count ≤ MAX_REVOLUTIONS := by
        rw [hcnt, hP, List.length_take]
        omega
      rw [if_neg h, if_neg hc]
      exact ih

/-! ## More on file operations -/

theorem fwrite_length (f : File) (bs : List Nat) :
    (fwrite f bs).data.length = max f.data.length (f.pos + bs.length) := by
  simp only [fwrite, List.length_append, List.length_take, List.length_replicate,
    List.length_drop]
  omega

theorem fwrite_pos_le (f : File) (bs : List Nat) :
    (fwrite f bs).pos ≤ (fwrite f bs).data.length := by
  rw [fwrite_length, fwrite_pos]
  omega

theorem fwrite_nil (f : File) (h : f.pos ≤ f.data.length) : fwrite f [] = f := by
  cases f with
  | mk d p =>
    simp only at h
    have : p - d.length = 0 := by omega
    simp [fwrite, this]

theorem fwrite_fwrite (f : File) (a b : List Nat) :
    fwrite (fwrite f a) b = fwrite f (a ++ b) := by
  cases f with
  | mk d p =>
    have hl := fwrite_length ⟨d, p⟩ a
    simp only [fwrite] at hl ⊢
    simp only [File.mk.injEq]
    refine ⟨?_, by simp [Nat.add_assoc]⟩
    have h1 : (List.take p d ++ List.replicate (p - d.length) 0).length = p := by
      simp only [List.length_append, List.length_take, List.length_replicate]
      omega
    have e1 : List.take (p + a.length)
        (List.take p d ++ List.replicate (p - d.length) 0 ++ a ++ List.drop (p + a.length) d)
        = List.take p d ++ List.replicate (p - d.length) 0 ++ a := by
      apply List.take_left'
      simp only [List.length_append, h1]
    have e2 : List.drop (p + a.length + b.length)
        (List.take p d ++ List.replicate (p - d.length) 0 ++ a ++ List.drop (p + a.length) d)
        = List.drop (p + (a ++ b).length) d := by
      have hlen : (List.take p d ++ List.replicate (p - d.length) 0 ++ a).length = p + a.length := by
        simp only [List.length_append, h1]
      rw [List.drop_append_eq_append_drop, hlen]
      have : List.drop (p + a.length + b.length)
          (List.take p d ++ List.replicate (p - d.length) 0 ++ a) = [] := by
        apply List.drop_eq_nil_of_le
        rw [hlen]; omega
      rw [this, List.nil_append, List.drop_drop, List.length_append]
      congr 1
      omega
    have e3 : p + a.length -
        (List.take p d ++ List.replicate (p - d.length) 0 ++ a ++ List.drop (p + a.length) d).length
        = 0 := by
      rw [hl]; omega
    rw [e1, e2, e3]
    simp [List.append_assoc]

theorem fwrite_middle (a b c bs : List Nat) (h : bs.length = b.length) :
    fwrite { data := a ++ b ++ c, pos := a.length } bs
      = { data := a ++ bs ++ c, pos := a.length + bs.length } := by
  simp only [fwrite, File.mk.injEq, and_true]
  have e1 : List.take a.length (a ++ b ++ c) = a := by
    rw [List.append_assoc]; exact List.take_left _ _
  have e2 : a.length - (a ++ b ++ c).length = 0 := by simp
  have e3 : List.drop (a.length + bs.length) (a ++ b ++ c) = c := by
    have : a.length + bs.length = (a ++ b).length := by simp [h]
    rw [this]; exact List.drop_left _ _
  rw [e1, e2, e3]
  simp

/-! ## The header patch -/

theorem recordBytes_length (r : Int × Int × Int) : (recordBytes r).length = 12 := rfl

theorem recordsFrom_length (st : TrackState) (i k : Nat) : (recordsFrom st i k).length = 12 * k := by
  induction k generalizing i with
  | zero => rfl
  | succ k ih =>
    have : recordsFrom st i (k + 1) = recordBytes (revolutionRecord st i) ++ recordsFrom st (i + 1) k := by
      simp [recordsFrom, List.range'_succ]
    rw [this, List.length_append, ih, recordBytes_length]
    omega

theorem recordsFrom_succ (st : TrackState) (i k : Nat) :
    recordsFrom st i (k + 1) = recordBytes (revolutionRecord st i) ++ recordsFrom st (i + 1) k := by
  simp [recordsFrom, List.range'_succ]

theorem headerPatch_length (st : TrackState) : (headerPatch st).length = 12 * (st.index_count - 1) :=
  recordsFrom_length st 0 _

theorem patchLoop_spec (st : TrackState) (n : Nat) :
    ∀ (i : Nat) (f : File), st.index_count - 1 - i ≤ n → f.pos ≤ f.data.length →
      patchLoop n i st f = fwrite f (recordsFrom st i (st.index_count - 1 - i)) := by
  induction n with
  | zero =>
    intro i f hn hp
    have : st.index_count - 1 - i = 0 := by omega
    rw [this]
    simp only [patchLoop, recordsFrom, List.range'_zero, List.map_nil, List.flatten_nil]
    exact (fwrite_nil f hp).symm
  | succ n ih =>
    intro i f hn hp
    unfold patchLoop
    by_cases h : i + 1 < st.index_count
    · rw [if_pos h, ih (i + 1) _ (by omega) (fwrite_pos_le _ _), fwrite_fwrite]
      have : st.index_count - 1 - i = (st.index_count - 1 - (i + 1)) + 1 := by omega
      rw [this, recordsFrom_succ]
    · rw [if_neg h]
      have : st.index_count - 1 - i = 0 := by omega
      rw [this]
      simp only [recordsFrom, List.range'_zero, List.map_nil, List.flatten_nil]
      exact (fwrite_nil f hp).symm

theorem captured_with_total_rd (out0 : File) (v : List Sample) (st : TrackState) (n : Int)
    (h : Captured out0 v st) : Captured out0 v { st with total_rd := n } :=
  { count := h.count, count_le := h.count_le, len_times := h.len_times,
    len_transitions := h.len_transitions, len_offsets := h.len_offsets, times := h.times,
    transitions := h.transitions, offsets := h.offsets, offsets_mono := h.offsets_mono,
    offsets_le := h.offsets_le, num := h.num, last := h.last,
    data := h.data, pos := h.pos, written := h.written, writing := h.writing, prev := h.prev }

/-- The variables of `acquire_track` at the end of the capture loop. -/
theorem captured_captureState (out : File) (track_num track_side : Nat)
    (input : List (List Sample)) :
    Captured (beginTrack out track_num track_side) (processed (streamOf input))
      (captureState out track_num track_side input) := by
  unfold captureState
  obtain ⟨n, hn⟩ := captureLoop_eq_runAt input (trackInit out track_num track_side)
  rw [hn]
  apply captured_with_total_rd
  exact captured_runAt _ _ (captured_init out track_num track_side) _

theorem offsetBytes_length (x : Nat) : (offsetBytes x).length = 4 := rfl

theorem trackStub_length (track_num track_side : Nat) :
    (trackStub track_num track_side).length = 64 := by
  simp [trackStub]

theorem beginTrack_data (out : File) (track_num track_side : Nat) :
    (beginTrack out track_num track_side).data
      = withDirectoryEntry out track_num track_side ++ trackStub track_num track_side := by
  unfold beginTrack withDirectoryEntry
  exact fwrite_end_data _ _ rfl

theorem withDirectoryEntry_length_ge (out : File) (track_num track_side : Nat) :
    out.data.length ≤ (withDirectoryEntry out track_num track_side).length := by
  unfold withDirectoryEntry
  rw [fwrite_length]
  exact le_max_left _ _

theorem withDirectoryEntry_inside (out : File) (track_num track_side : Nat)
    (h : 16 + 4 * (2 * track_num + track_side) + 4 ≤ out.data.length) :
    withDirectoryEntry out track_num track_side
      = out.data.take (16 + 4 * (2 * track_num + track_side)) ++ offsetBytes out.data.length
          ++ out.data.drop (16 + 4 * (2 * track_num + track_side) + 4) := by
  unfold withDirectoryEntry
  rw [fwrite_inside_data _ _ (by simpa [fseekSet, fseekEnd, offsetBytes_length] using h)]
  rfl

theorem withDirectoryEntry_length (out : File) (track_num track_side : Nat)
    (h : 16 + 4 * (2 * track_num + track_side) + 4 ≤ out.data.length) :
    (withDirectoryEntry out track_num track_side).length = out.data.length := by
  unfold withDirectoryEntry
  rw [fwrite_length]
  simp only [fseekSet, fseekEnd, offsetBytes_length]
  omega

/-- The bytes of the output when the capture loop has ended: the file with its directory
entry, the empty track header and the cells. -/
theorem captureState_data (out : File) (track_num track_side : Nat)
    (input : List (List Sample)) :
    (captureState out track_num track_side input).out.data
      = withDirectoryEntry out track_num track_side ++ trackStub track_num track_side
          ++ trackCells (streamOf input) := by
  rw [(captured_captureState out track_num track_side input).data, beginTrack_data]
  rfl

/-- The function `acquire_track` ends with one write of the header patch. -/
theorem acquire_track_eq (out : File) (track_num track_side : Nat) (input : List (List Sample)) :
    acquire_track out track_num track_side input
      = fseekEnd (fwrite (fseekSet (captureState out track_num track_side input).out
                            (out.data.length + 4))
                  (headerPatch (captureState out track_num track_side input))) := by
  unfold acquire_track
  simp only
  have hlen : out.data.length + 4
      ≤ (captureState out track_num track_side input).out.data.length := by
    rw [captureState_data]
    have := withDirectoryEntry_length_ge out track_num track_side
    simp only [List.length_append, trackStub_length]
    omega
  rw [patchLoop_spec _ _ 0 _ (by omega) (by simpa [fseekSet] using hlen)]
  rfl

theorem headerPatch_le (out : File) (track_num track_side : Nat) (input : List (List Sample)) :
    (headerPatch (captureState out track_num track_side input)).length ≤ 60 := by
  rw [headerPatch_length]
  have := (captured_captureState out track_num track_side input).count_le
  unfold MAX_REVOLUTIONS at this
  omega

/-- The layout of the file that `acquire_track` leaves, when the directory entry of the track
lies inside the file it is given. -/
theorem acquire_track_data (out : File) (track_num track_side : Nat) (input : List (List Sample))
    (h : 16 + 4 * (2 * track_num + track_side) + 4 ≤ out.data.length) :
    (acquire_track out track_num track_side input).data
      = withDirectoryEntry out track_num track_side
          ++ [84, 82, 75, (2 * track_num + track_side) % 256]
          ++ headerPatch (captureState out track_num track_side input)
          ++ List.replicate
              (60 - (headerPatch (captureState out track_num track_side input)).length) 0
          ++ trackCells (streamOf input) := by
  rw [acquire_track_eq]
  have hle := headerPatch_le out track_num track_side input
  have hd := captureState_data out track_num track_side input
  have hL := withDirectoryEntry_length out track_num track_side h
  generalize captureState out track_num track_side input = st at hle hd ⊢
  have hsplit : st.out.data
      = (withDirectoryEntry out track_num track_side ++ [84, 82, 75, (2 * track_num + track_side) % 256])
          ++ List.replicate (headerPatch st).length 0
          ++ (List.replicate (60 - (headerPatch st).length) 0 ++ trackCells (streamOf input)) := by
    rw [hd]
    have : trackStub track_num track_side
        = [84, 82, 75, (2 * track_num + track_side) % 256]
            ++ List.replicate (headerPatch st).length 0
            ++ List.replicate (60 - (headerPatch st).length) 0 := by
      unfold trackStub
      rw [List.append_assoc, ← List.replicate_add]
      congr 2
      omega
    rw [this]
    simp only [List.append_assoc]
  have hpos : out.data.length + 4
      = (withDirectoryEntry out track_num track_side
          ++ [84, 82, 75, (2 * track_num + track_side) % 256]).length := by
    simp [hL]
  have hf : fseekSet st.out (out.data.length + 4)
      = { data := (withDirectoryEntry out track_num track_side
                    ++ [84, 82, 75, (2 * track_num + track_side) % 256])
                  ++ List.replicate (headerPatch st).length 0
                  ++ (List.replicate (60 - (headerPatch st).length) 0 ++ trackCells (streamOf input)),
          pos := (withDirectoryEntry out track_num track_side
                    ++ [84, 82, 75, (2 * track_num + track_side) % 256]).length } := by
    unfold fseekSet
    rw [← hsplit, ← hpos]
  rw [hf, fwrite_middle _ _ _ _ (by simp)]
  simp only [fseekEnd, List.append_assoc]

theorem acquire_track_pos (out : File) (track_num track_side : Nat) (input : List (List Sample)) :
    (acquire_track out track_num track_side input).pos
      = (acquire_track out track_num track_side input).data.length := by
  rw [acquire_track_eq]
  rfl

/-! ## One more sample -/

theorem runAt_total_rd (s : List Sample) :
    ∀ (p : Int) (st : TrackState), (runAt s p st).total_rd = st.total_rd := by
  induction s with
  | nil => intro p st; rfl
  | cons b bs ih =>
    intro p st
    by_cases h : st.index_count ≤ MAX_REVOLUTIONS
    · rw [runAt_cons, if_pos h, ih, stepAt_total_rd]
    · rw [runAt_cons, if_neg h]

/-- Reading one more sample runs the body of the `for` loop once more, unless the loop has
ended. -/
theorem captureState_snoc (out : File) (track_num track_side : Nat)
    (input input' : List (List Sample)) (b : Sample)
    (hs : streamOf input' = streamOf input ++ [b]) :
    ∃ n : Int, captureState out track_num track_side input' =
      { (if (captureState out track_num track_side input).index_count ≤ MAX_REVOLUTIONS
          then stepAt ((streamOf input).length : Int) b (captureState out track_num track_side input)
          else captureState out track_num track_side input) with total_rd := n } := by
  unfold captureState
  obtain ⟨n, hn⟩ := captureLoop_eq_runAt input (trackInit out track_num track_side)
  obtain ⟨n', hn'⟩ := captureLoop_eq_runAt input' (trackInit out track_num track_side)
  refine ⟨n', ?_⟩
  rw [hn', hn, hs, runAt_snoc]
  have h0 : (trackInit out track_num track_side).total_rd = 0 := rfl
  rw [h0, zero_add]
  generalize runAt (streamOf input) 0 (trackInit out track_num track_side) = r
  by_cases h : r.index_count ≤ MAX_REVOLUTIONS
  · have h' : ({ r with total_rd := n } : TrackState).index_count ≤ MAX_REVOLUTIONS := h
    rw [if_pos h, if_pos h', stepAt_with_total_rd ((streamOf input).length : Int) b r n]
  · have h' : ¬ ({ r with total_rd := n } : TrackState).index_count ≤ MAX_REVOLUTIONS := h
    rw [if_neg h, if_neg h']

/-- C1. In `acquire_track`, a data transition that has a predecessor in the track, at a
delta `t - last_transition_time >= 0`, appends to the output exactly `delta / 0x10000`
all-zero 2-byte cells and then one 2-byte cell with `delta % 0x10000`, high byte first, and
`total_w` grows by `2 * (delta / 0x10000 + 1)`.  Here `input` is what has been read so far,
`b` the next sample (at stream position `(streamOf input).length`), and the loop is still
running. -/
theorem transition_appends_cells (out : File) (track_num track_side : Nat)
    (input input' : List (List Sample)) (b : Sample)
    (hs : streamOf input' = streamOf input ++ [b])
    (hrun : (captureState out track_num track_side input).index_count ≤ MAX_REVOLUTIONS)
    (hedge : dataEdge (captureState out track_num track_side input).prev_byte b = true)
    (hpred : 0 ≤ (captureState out track_num track_side input).last_transition_time)
    (hdelta : 0 ≤ ((streamOf input).length : Int) * TIME_UNITS_PER_SAMPLE
                - (captureState out track_num track_side input).last_transition_time) :
    (captureState out track_num track_side input').out.data
        = (captureState out track_num track_side input).out.data
            ++ List.replicate
                (2 * ((((streamOf input).length : Int) * TIME_UNITS_PER_SAMPLE
                  - (captureState out track_num track_side input).last_transition_time)
                    / 0x10000).toNat) 0
            ++ [(((((streamOf input).length : Int) * TIME_UNITS_PER_SAMPLE
                  - (captureState out track_num track_side input).last_transition_time)
                    % 0x10000) / 256).toNat,
                (((((streamOf input).length : Int) * TIME_UNITS_PER_SAMPLE
                  - (captureState out track_num track_side input).last_transition_time)
                    % 0x10000) % 256).toNat]
      ∧ (captureState out track_num track_side input').total_w
        = (captureState out track_num track_side input).total_w
            + 2 * ((((streamOf input).length : Int) * TIME_UNITS_PER_SAMPLE
                  - (captureState out track_num track_side input).last_transition_time)
                    / 0x10000 + 1) := by
  obtain ⟨n, hn⟩ := captureState_snoc out track_num track_side input input' b hs
  have hc := captured_captureState out track_num track_side input
  rw [hn, if_pos hrun]
  generalize captureState out track_num track_side input = st at *
  have hmul : ((streamOf input).length : Int) * TIME_UNITS_PER_SAMPLE
      = 2 * ((streamOf input).length : Int) := by
    unfold TIME_UNITS_PER_SAMPLE; ring
  rw [hmul] at hdelta ⊢
  obtain ⟨h1, -, h3⟩ := stepAt_out ((streamOf input).length : Int) b st hc.writing hc.pos
    (by omega)
  have hcond : (dataEdge st.prev_byte b = true ∧ 0 ≤ st.last_transition_time) := ⟨hedge, hpred⟩
  rw [if_pos hcond] at h1 h3
  have hq : 0 ≤ (2 * ((streamOf input).length : Int) - st.last_transition_time) / 0x10000 :=
    Int.ediv_nonneg hdelta (by norm_num)
  refine ⟨?_, ?_⟩
  · show (stepAt _ b st).out.data = _
    rw [h1, deltaCells, List.append_assoc]
  · show (stepAt _ b st).total_w = _
    rw [h3, deltaCells_length]
    push_cast
    rw [Int.toNat_of_nonneg hq]
    ring

/-- Witness of C1: after the samples `1, 0, 1` the sample `0` is a transition at delta 4. -/
theorem transition_appends_cells_witness :
    (captureState ⟨[], 0⟩ 0 0 [[1, 0, 1], [0]]).out.data
        = (captureState ⟨[], 0⟩ 0 0 [[1, 0, 1]]).out.data ++ [] ++ [0, 4]
      ∧ (captureState ⟨[], 0⟩ 0 0 [[1, 0, 1], [0]]).total_w
        = (captureState ⟨[], 0⟩ 0 0 [[1, 0, 1]]).total_w + 2 :=
  transition_appends_cells ⟨[], 0⟩ 0 0 [[1, 0, 1]] [[1, 0, 1], [0]] 0 (by decide) (by decide)
    (by decide) (by decide) (by decide)

/-! ## The cells in the file -/

theorem drop_patched (b c p : List Nat) (k : Nat) (h : k + p.length ≤ b.length) :
    ((b ++ c).take k ++ p ++ (b ++ c).drop (k + p.length)).drop b.length = c := by
  have h1 : ((b ++ c).take k ++ p).length = k + p.length := by
    simp only [List.length_append, List.length_take]
    omega
  rw [List.drop_append_eq_append_drop, h1]
  have h2 : List.drop b.length ((b ++ c).take k ++ p) = [] := by
    apply List.drop_eq_nil_of_le
    rw [h1]; exact h
  rw [h2, List.nil_append, List.drop_drop]
  have : k + p.length + (b.length - (k + p.length)) = b.length := by omega
  rw [this]
  exact List.drop_left _ _

/-- The bytes after the track header are the cells of the deltas of the stream. -/
theorem emittedCells_eq (out : File) (track_num track_side : Nat) (input : List (List Sample)) :
    emittedCells out track_num track_side input = cellStream (transitionDeltas (streamOf input)) := by
  unfold emittedCells
  rw [acquire_track_eq]
  have hd := (captured_captureState out track_num track_side input).data
  have hle := headerPatch_le out track_num track_side input
  have hb := beginTrack_data out track_num track_side
  have hw := withDirectoryEntry_length_ge out track_num track_side
  have hbl : out.data.length + 64 ≤ (beginTrack out track_num track_side).data.length := by
    rw [hb, List.length_append, trackStub_length]; omega
  generalize captureState out track_num track_side input = st at hd hle
  have hin : (fseekSet st.out (out.data.length + 4)).pos + (headerPatch st).length
      ≤ (fseekSet st.out (out.data.length + 4)).data.length := by
    simp only [fseekSet]
    rw [hd, List.length_append]
    omega
  show (fwrite (fseekSet st.out (out.data.length + 4)) (headerPatch st)).data.drop _ = _
  rw [fwrite_inside_data _ _ hin]
  simp only [fseekSet]
  rw [hd]
  exact drop_patched _ _ _ _ (by omega)

/-! ## Decoding -/

theorem decodeCells_zeros (k : Nat) :
    ∀ (pending : Int) (rest : List Nat),
      decodeCells pending (List.replicate (2 * k) 0 ++ rest)
        = decodeCells (pending + 0x10000 * (k : Int)) rest := by
  induction k with
  | zero => intro pending rest; simp
  | succ k ih =>
    intro pending rest
    have : List.replicate (2 * (k + 1)) 0 ++ rest = 0 :: 0 :: (List.replicate (2 * k) 0 ++ rest) := by
      rw [Nat.mul_add, Nat.mul_one, Nat.add_comm, List.replicate_add]
      rfl
    rw [this]
    simp only [decodeCells, and_self, if_true]
    rw [ih]
    congr 1
    push_cast
    ring

theorem decodeCells_deltaCells (d : Int) (h0 : 0 ≤ d) (hr : d % 0x10000 ≠ 0) (pending : Int)
    (rest : List Nat) :
    decodeCells pending (deltaCells d ++ rest) = (pending + d) :: decodeCells 0 rest := by
  have hq : 0 ≤ d / 0x10000 := Int.ediv_nonneg h0 (by norm_num)
  have hr0 : 0 ≤ d % 0x10000 := Int.emod_nonneg _ (by norm_num)
  have hr1 : d % 0x10000 < 0x10000 := Int.emod_lt_of_pos _ (by norm_num)
  have hhi : 0 ≤ d % 0x10000 / 256 := by omega
  have hlo : 0 ≤ d % 0x10000 % 256 := by omega
  unfold deltaCells
  rw [List.append_assoc, decodeCells_zeros]
  simp only [List.cons_append, List.nil_append, decodeCells]
  have hne : ¬ ((d % 0x10000 / 256).toNat = 0 ∧ (d % 0x10000 % 256).toNat = 0) := by
    intro ⟨h1, h2⟩
    have e1 : d % 0x10000 / 256 = 0 := by omega
    have e2 : d % 0x10000 % 256 = 0 := by omega
    omega
  rw [if_neg hne, Int.toNat_of_nonneg hq, Int.toNat_of_nonneg hhi, Int.toNat_of_nonneg hlo]
  congr 1
  omega

theorem decodeCells_cellStream (ds : List Int) (h : ∀ d ∈ ds, 0 ≤ d ∧ d % 0x10000 ≠ 0) :
    decodeCells 0 (cellStream ds) = ds := by
  induction ds with
  | nil => rfl
  | cons d ds ih =>
    have hd := h d (List.mem_cons_self _ _)
    have : cellStream (d :: ds) = deltaCells d ++ cellStream ds := by simp [cellStream]
    rw [this, decodeCells_deltaCells d hd.1 hd.2, ih (fun x hx => h x (List.mem_cons_of_mem _ hx))]
    simp

/-! ## Deltas are positive -/

theorem edgePositions_pairwise (edge : Sample → Sample → Bool) (s : List Sample) :
    ∀ (prev : Sample) (p : Nat), List.Pairwise (· < ·) (edgePositions edge prev p s) := by
  induction s with
  | nil => intro prev p; exact List.Pairwise.nil
  | cons b bs ih =>
    intro prev p
    simp only [edgePositions]
    split
    · apply List.Pairwise.cons
      · intro q hq
        have := edgePositions_bounds edge bs _ _ _ hq
        omega
      · exact ih _ _
    · exact ih _ _

theorem deltas_pos (ps : List Nat) (h : List.Pairwise (· < ·) ps) : ∀ d ∈ deltas ps, 0 < d := by
  induction ps with
  | nil => intro d hd; simp [deltas] at hd
  | cons a as ih =>
    cases as with
    | nil => intro d hd; simp [deltas] at hd
    | cons b bs =>
      intro d hd
      simp only [deltas, List.mem_cons] at hd
      rcases hd with hd | hd
      · have hab : a < b := (List.pairwise_cons.mp h).1 b (List.mem_cons_self _ _)
        omega
      · exact ih (List.pairwise_cons.mp h).2 d hd

theorem transitionDeltas_pos (s : List Sample) : ∀ d ∈ transitionDeltas s, 0 < d :=
  deltas_pos _ (edgePositions_pairwise _ _ _ _)

/-! ## A capture with a delta of exactly `0x10000` -/

theorem edgePositions_replicate (edge : Sample → Sample → Bool) (x : Sample) (n : Nat)
    (hx : edge x x = false) :
    ∀ (prev : Sample) (p : Nat), edge prev x = false →
      edgePositions edge prev p (List.replicate n x) = [] := by
  induction n with
  | zero => intro prev p _; rfl
  | succ n ih =>
    intro prev p hp
    rw [List.replicate_succ]
    simp only [edgePositions, hp, Bool.false_eq_true, if_false]
    exact ih x (p + 1) hx

theorem flatten_replicate_replicate (m n : Nat) (x : Sample) :
    (List.replicate m (List.replicate n x)).flatten = List.replicate (m * n) x := by
  induction m with
  | zero => simp
  | succ m ih =>
    rw [List.replicate_succ, List.flatten_cons, ih, ← List.replicate_add]
    congr 1
    ring

theorem streamOf_of_nonempty (cs : List (List Sample)) (h : ∀ c ∈ cs, 0 < c.length) :
    streamOf cs = cs.flatten := by
  unfold streamOf
  have : cs.takeWhile (fun c => decide (0 < c.length)) = cs := by
    rw [List.takeWhile_eq_self_iff]
    intro c hc
    simpa using h c hc
  rw [this]

theorem exactOverflowInput_chunks :
    ∀ c ∈ exactOverflowInput, 0 < c.length ∧ c.length ≤ 1024 := by
  intro c hc
  simp only [exactOverflowInput, List.mem_cons, List.mem_append, List.mem_replicate,
    List.mem_singleton, List.not_mem_nil, or_false] at hc
  rcases hc with hc | ⟨-, hc⟩ | hc <;> subst hc <;>
    simp only [List.length_append, List.length_replicate, List.length_cons, List.length_nil] <;>
    omega

theorem streamOf_exactOverflowInput :
    streamOf exactOverflowInput = [1, 0] ++ (List.replicate 32767 1 ++ [0]) := by
  rw [streamOf_of_nonempty _ (fun c hc => (exactOverflowInput_chunks c hc).1)]
  unfold exactOverflowInput
  rw [List.flatten_cons, List.flatten_append, flatten_replicate_replicate]
  have e1 : ([[1, 0]] : List (List Sample)).flatten = [1] ++ [0] := rfl
  have e2 : List.replicate 32767 (1 : Sample)
      = List.replicate 1022 1 ++ (List.replicate (31 * 1024) 1 ++ [1]) := by
    rw [← List.replicate_succ', ← List.replicate_add]
  rw [e1, e2]
  simp only [List.append_assoc]

theorem dataPositions_exactOverflow :
    dataPositions (streamOf exactOverflowInput) = [1, 32769] := by
  rw [streamOf_exactOverflowInput]
  unfold dataPositions
  rw [edgePositions_append, edgePositions_append,
    edgePositions_replicate dataEdge 1 _ (by decide) _ _ (by decide), List.getLast?_replicate,
    List.length_replicate]
  decide

theorem indexPositions_exactOverflow :
    indexPositions (streamOf exactOverflowInput) = [] := by
  rw [streamOf_exactOverflowInput]
  unfold indexPositions
  rw [edgePositions_append, edgePositions_append,
    edgePositions_replicate indexEdge 1 _ (by decide) _ _ (by decide), List.getLast?_replicate,
    List.length_replicate]
  decide

theorem transitionDeltas_exactOverflow :
    transitionDeltas (streamOf exactOverflowInput) = [0x10000] := by
  unfold transitionDeltas
  rw [processed_of_le _ (by rw [indexPositions_exactOverflow]; decide),
    dataPositions_exactOverflow]
  decide

/-- C2, counterexample.  Two transitions `0x10000` time units apart: the delta is positive,
`acquire_track` writes the four bytes `0, 0, 0, 0` for it, and the decoder of the claim
finds no duration in them. -/
theorem duration_roundtrip_counterexample :
    transitionDeltas (streamOf exactOverflowInput) = [0x10000]
      ∧ emittedCells headerFile 0 0 exactOverflowInput = [0, 0, 0, 0]
      ∧ decodeCells 0 (emittedCells headerFile 0 0 exactOverflowInput)
          ≠ transitionDeltas (streamOf exactOverflowInput) := by
  have h1 := transitionDeltas_exactOverflow
  have h2 : emittedCells headerFile 0 0 exactOverflowInput = [0, 0, 0, 0] := by
    rw [emittedCells_eq, h1]
    decide
  refine ⟨h1, h2, ?_⟩
  rw [h2, h1]
  decide

/-- C2, amended.  When no delta between consecutive transitions of the stream is a multiple
of `0x10000`, decoding the cell bytes that `acquire_track` leaves in the file (an all-zero
cell adds `0x10000` to the pending value, any other cell closes the value with its big-endian
remainder) gives back the deltas of the stream exactly. -/
theorem duration_roundtrip (out : File) (track_num track_side : Nat)
    (input : List (List Sample))
    (h : ∀ d ∈ transitionDeltas (streamOf input), d % 0x10000 ≠ 0) :
    decodeCells 0 (emittedCells out track_num track_side input)
      = transitionDeltas (streamOf input) := by
  rw [emittedCells_eq]
  apply decodeCells_cellStream
  intro d hd
  exact ⟨le_of_lt (transitionDeltas_pos _ d hd), h d hd⟩

/-- Witness of C2 (amended): transitions at the samples 1, 3 and 6, deltas 4 and 6. -/
theorem duration_roundtrip_witness :
    decodeCells 0 (emittedCells ⟨[], 0⟩ 0 0 [[1, 0, 1, 0], [1, 1, 0]])
      = transitionDeltas (streamOf [[1, 0, 1, 0], [1, 1, 0]]) :=
  duration_roundtrip ⟨[], 0⟩ 0 0 [[1, 0, 1, 0], [1, 1, 0]] (by decide)

theorem deltaCells_multiple (k : Nat) : deltaCells (0x10000 * (k : Int)) = List.replicate (2 * (k + 1)) 0 := by
  unfold deltaCells
  have h1 : (0x10000 * (k : Int)) / 0x10000 = k := by omega
  have h2 : (0x10000 * (k : Int)) % 0x10000 = 0 := by omega
  rw [h1, h2, Nat.mul_add, List.replicate_add]
  simp

theorem overflowThenShortInput_chunks :
    ∀ c ∈ overflowThenShortInput, 0 < c.length ∧ c.length ≤ 1024 := by
  intro c hc
  simp only [overflowThenShortInput, List.mem_cons, List.mem_append, List.mem_replicate,
    List.mem_singleton, List.not_mem_nil, or_false] at hc
  rcases hc with hc | ⟨-, hc⟩ | hc <;> subst hc <;>
    simp only [List.length_append, List.length_replicate, List.length_cons, List.length_nil] <;>
    omega

theorem streamOf_overflowThenShortInput :
    streamOf overflowThenShortInput = [1, 0] ++ (List.replicate 32767 1 ++ [0, 1, 0]) := by
  rw [streamOf_of_nonempty _ (fun c hc => (overflowThenShortInput_chunks c hc).1)]
  unfold overflowThenShortInput
  rw [List.flatten_cons, List.flatten_append, flatten_replicate_replicate]
  have e1 : ([[1, 0, 1, 0]] : List (List Sample)).flatten = [1] ++ [0, 1, 0] := rfl
  have e2 : List.replicate 32767 (1 : Sample)
      = List.replicate 1022 1 ++ (List.replicate (31 * 1024) 1 ++ [1]) := by
    rw [← List.replicate_succ', ← List.replicate_add]
  rw [e1, e2]
  simp only [List.append_assoc]

theorem dataPositions_overflowThenShort :
    dataPositions (streamOf overflowThenShortInput) = [1, 32769, 32771] := by
  rw [streamOf_overflowThenShortInput]
  unfold dataPositions
  rw [edgePositions_append, edgePositions_append,
    edgePositions_replicate dataEdge 1 _ (by decide) _ _ (by decide), List.getLast?_replicate,
    List.length_replicate]
  decide

theorem indexPositions_overflowThenShort :
    indexPositions (streamOf overflowThenShortInput) = [] := by
  rw [streamOf_overflowThenShortInput]
  unfold indexPositions
  rw [edgePositions_append, edgePositions_append,
    edgePositions_replicate indexEdge 1 _ (by decide) _ _ (by decide), List.getLast?_replicate,
    List.length_replicate]
  decide

theorem transitionDeltas_overflowThenShort :
    transitionDeltas (streamOf overflowThenShortInput) = [0x10000, 4] := by
  unfold transitionDeltas
  rw [processed_of_le _ (by rw [indexPositions_overflowThenShort]; decide),
    dataPositions_overflowThenShort]
  decide

/-- What the code writes for a delta of exactly `0x10000 * k`: the loop of lines 153-159
writes `k` all-zero cells and lines 160-162 then write the remainder cell, which is all-zero
as well, so `k + 1` all-zero cells stand between the cells of the earlier and of the later
deltas. -/
theorem exact_multiple_cells (out : File) (track_num track_side : Nat)
    (input : List (List Sample)) (before after : List Int) (k : Nat)
    (h : transitionDeltas (streamOf input) = before ++ [0x10000 * (k : Int)] ++ after) :
    emittedCells out track_num track_side input
      = cellStream before ++ List.replicate (2 * (k + 1)) 0 ++ cellStream after := by
  rw [emittedCells_eq, h, cellStream_append, cellStream_append, cellStream_singleton,
    deltaCells_multiple]

/-- C3, the code at two captures.  With two transitions `0x10000 * 1` time units apart,
`acquire_track` writes two all-zero cells (4 bytes) and not the one all-zero cell (2 bytes)
of the claim: the remainder cell of lines 160-162 follows the overflow cell although the
remainder is zero.  An all-zero cell is the overflow mark (comment of line 154), so the
extra cell reads as one more overflow: when a delta of 4 follows, the six bytes
`0, 0, 0, 0, 0, 4` decode to the single duration `0x10000 * 2 + 4`, and the decoded track is
`0x10000` time units longer than the captured one. -/
theorem exact_overflow_extra_cell :
    (transitionDeltas (streamOf exactOverflowInput) = [0x10000 * 1]
      ∧ emittedCells headerFile 0 0 exactOverflowInput = List.replicate (2 * 1 + 2) 0
      ∧ emittedCells headerFile 0 0 exactOverflowInput ≠ List.replicate (2 * 1) 0)
    ∧ (transitionDeltas (streamOf overflowThenShortInput) = [0x10000 * 1, 4]
      ∧ emittedCells headerFile 0 0 overflowThenShortInput = [0, 0, 0, 0, 0, 4]
      ∧ decodeCells 0 (emittedCells headerFile 0 0 overflowThenShortInput) = [0x10000 * 2 + 4]
      ∧ (decodeCells 0 (emittedCells headerFile 0 0 overflowThenShortInput)).sum
          = (transitionDeltas (streamOf overflowThenShortInput)).sum + 0x10000) := by
  have h1 : emittedCells headerFile 0 0 exactOverflowInput = [0, 0, 0, 0] := by
    rw [exact_multiple_cells headerFile 0 0 exactOverflowInput [] [] 1
      transitionDeltas_exactOverflow]
    decide
  have h2 : emittedCells headerFile 0 0 overflowThenShortInput = [0, 0, 0, 0, 0, 4] := by
    rw [exact_multiple_cells headerFile 0 0 overflowThenShortInput [] [4] 1
      transitionDeltas_overflowThenShort]
    decide
  refine ⟨⟨transitionDeltas_exactOverflow, ?_, ?_⟩, transitionDeltas_overflowThenShort, h2, ?_, ?_⟩
  · rw [h1]; rfl
  · rw [h1]; decide
  · rw [h2]; decide
  · rw [h2, transitionDeltas_overflowThenShort]; decide

/-! ## Edge tests -/

set_option maxRecDepth 100000 in
theorem valid_lt_four : ∀ x : Sample, x.val &&& UNUSED_MASK = 0 → x.val < 4 := by
  decide

theorem edges_of_small : ∀ a b : Fin 4,
    (indexEdge ⟨a.val, by omega⟩ ⟨b.val, by omega⟩ = true
        ↔ a.val.testBit 1 = true ∧ b.val.testBit 1 = false)
    ∧ (dataEdge ⟨a.val, by omega⟩ ⟨b.val, by omega⟩ = true
        ↔ a.val.testBit 0 = true ∧ b.val.testBit 0 = false) := by
  decide

/-- C4. For two consecutive valid samples (no bit of `0xFC` set in either), the index-edge
test of `acquire_track` fires iff bit 1 of the previous sample is 1 and bit 1 of the current
one is 0, and its data-edge test fires iff bit 0 of the previous sample is 1 and bit 0 of the
current one is 0; neither depends on the other channel. -/
theorem edge_detection_purity (prev cur : Sample)
    (hp : prev.val &&& UNUSED_MASK = 0) (hc : cur.val &&& UNUSED_MASK = 0) :
    (indexEdge prev cur = true ↔ prev.val.testBit 1 = true ∧ cur.val.testBit 1 = false)
    ∧ (dataEdge prev cur = true ↔ prev.val.testBit 0 = true ∧ cur.val.testBit 0 = false) :=
  edges_of_small ⟨prev.val, valid_lt_four prev hp⟩ ⟨cur.val, valid_lt_four cur hc⟩

/-- Witness of C4: from sample 3 to sample 1 the index channel falls, the data channel does
not. -/
theorem edge_detection_purity_witness :
    (indexEdge 3 1 = true ↔ (3 : Sample).val.testBit 1 = true ∧ (1 : Sample).val.testBit 1 = false)
    ∧ (dataEdge 3 1 = true ↔ (3 : Sample).val.testBit 0 = true ∧ (1 : Sample).val.testBit 0 = false) :=
  edge_detection_purity 3 1 (by decide) (by decide)

/-! ## Transitions before an index edge -/

theorem below_processed (s : List Sample) (q : Nat) (hq : q ≤ (processed s).length) :
    below (dataPositions (processed s)) q = below (dataPositions s) q := by
  obtain ⟨rest, hrest⟩ := processed_prefix s
  have h : dataPositions s = dataPositions (processed s)
      ++ edgePositions dataEdge ((processed s).getLast?.getD 0xff) (0 + (processed s).length) rest := by
    conv_lhs => rw [← hrest]
    exact edgePositions_append dataEdge _ _ _ _
  rw [h, below_append]
  have : below (edgePositions dataEdge ((processed s).getLast?.getD 0xff)
      (0 + (processed s).length) rest) q = [] := by
    apply below_none
    intro x hx
    have := edgePositions_bounds dataEdge rest _ _ _ hx
    omega
  rw [this, List.append_nil]

theorem getD_take_lt (l : List Nat) (n i : Nat) (h : i < n) : (l.take n).getD i 0 = l.getD i 0 := by
  simp [List.getD_eq_getElem?_getD, List.getElem?_take, h]

/-! ## Revolution records -/

theorem intBytes_eq (x : Int) : intBytes x = littleEndian32 x := by
  simp [intBytes, littleEndian32, List.range, List.range.loop]

theorem recordsFrom_slice (st : TrackState) (i : Nat) :
    ∀ (j m : Nat), i < m →
      ((recordsFrom st j m).drop (12 * i)).take 12 = recordBytes (revolutionRecord st (j + i)) := by
  induction i with
  | zero =>
    intro j m hm
    obtain ⟨m', rfl⟩ : ∃ m', m = m' + 1 := ⟨m - 1, by omega⟩
    rw [recordsFrom_succ]
    simp only [Nat.mul_zero, List.drop_zero, Nat.add_zero]
    exact List.take_left' (recordBytes_length _)
  | succ i ih =>
    intro j m hm
    obtain ⟨m', rfl⟩ : ∃ m', m = m' + 1 := ⟨m - 1, by omega⟩
    rw [recordsFrom_succ]
    have : 12 * (i + 1) = (recordBytes (revolutionRecord st j)).length + 12 * i := by
      rw [recordBytes_length]; omega
    rw [this, List.drop_append, ih (j + 1) m' (by omega)]
    congr 2
    omega

theorem slice_patched (d p : List Nat) (a k n : Nat) (ha : a ≤ d.length) (hk : k + n ≤ p.length) :
    ((d.take a ++ p ++ d.drop (a + p.length)).drop (a + k)).take n = (p.drop k).take n := by
  have h1 : (d.take a).length = a := by rw [List.length_take]; omega
  rw [List.append_assoc]
  have e : a + k = (d.take a).length + k := by rw [h1]
  rw [e, List.drop_append, List.drop_append_of_le_length (by omega),
    List.take_append_of_le_length (by rw [List.length_drop]; omega)]

/-- The bytes of the file once the header patch is written. -/
theorem acquire_track_patched (out : File) (track_num track_side : Nat)
    (input : List (List Sample)) :
    (acquire_track out track_num track_side input).data
      = (captureState out track_num track_side input).out.data.take (out.data.length + 4)
          ++ headerPatch (captureState out track_num track_side input)
          ++ (captureState out track_num track_side input).out.data.drop
              (out.data.length + 4
                + (headerPatch (captureState out track_num track_side input)).length)
      ∧ out.data.length + 64 ≤ (captureState out track_num track_side input).out.data.length := by
  rw [acquire_track_eq]
  have hd := captureState_data out track_num track_side input
  have hle := headerPatch_le out track_num track_side input
  have hw := withDirectoryEntry_length_ge out track_num track_side
  generalize captureState out track_num track_side input = st at hd hle
  have hlen : out.data.length + 64 ≤ st.out.data.length := by
    rw [hd]
    simp only [List.length_append, trackStub_length]
    omega
  refine ⟨?_, hlen⟩
  show (fwrite (fseekSet st.out (out.data.length + 4)) (headerPatch st)).data = _
  rw [fwrite_inside_data _ _ (by simp only [fseekSet]; omega)]
  rfl

theorem emittedCells_length (out : File) (track_num track_side : Nat)
    (input : List (List Sample)) :
    (((emittedCells out track_num track_side input).length : Nat) : Int)
      = (captureState out track_num track_side input).total_w := by
  rw [emittedCells_eq, (captured_captureState out track_num track_side input).written]
  rfl

/-- C6. After the capture loop, `acquire_track` has record `i` (for `i + 1 < index_count`) at
file offset `offset_track_header + 4 + 12*i` as 12 bytes: duration, transition count and
offset, each as 4 bytes, least significant first, where the offset is `index_offsets[i] + 64`,
`index_offsets[i]` being the number of cell bytes written in this track before index edge `i`;
the offset is at least 64 and at most 64 plus the number of cell bytes of the track. -/
theorem record_serialization (out : File) (track_num track_side : Nat)
    (input : List (List Sample)) (i : Nat)
    (hi : i + 1 < (captureState out track_num track_side input).index_count) :
    ((acquire_track out track_num track_side input).data.drop
        (out.data.length + 4 + 12 * i)).take 12
      = littleEndian32
            ((captureState out track_num track_side input).index_times.getD (i + 1) 0
              - (captureState out track_num track_side input).index_times.getD i 0)
          ++ littleEndian32
            ((captureState out track_num track_side input).index_transitions.getD (i + 1) 0
              - (captureState out track_num track_side input).index_transitions.getD i 0)
          ++ littleEndian32
            ((captureState out track_num track_side input).index_offsets.getD i 0 + 64)
    ∧ (captureState out track_num track_side input).index_offsets.getD i 0
        = (((cellStream (deltas (below (dataPositions (streamOf input))
              ((indexPositions (streamOf input)).getD i 0)))).length : Nat) : Int)
    ∧ 64 ≤ (captureState out track_num track_side input).index_offsets.getD i 0 + 64
    ∧ (captureState out track_num track_side input).index_offsets.getD i 0 + 64
        ≤ 64 + (((emittedCells out track_num track_side input).length : Nat) : Int) := by
  obtain ⟨hdata, hlen⟩ := acquire_track_patched out track_num track_side input
  have hc := captured_captureState out track_num track_side input
  have hP := indexPositions_processed (streamOf input)
  have hem := emittedCells_length out track_num track_side input
  have hple := headerPatch_le out track_num track_side input
  generalize captureState out track_num track_side input = st at *
  have hi' : i < (indexPositions (processed (streamOf input))).length := by
    rw [← hc.count]; omega
  have hoff := hc.offsets i hi'
  have hq : (indexPositions (processed (streamOf input))).getD i 0
      = (indexPositions (streamOf input)).getD i 0 := by
    rw [hP]
    apply getD_take_lt
    have := hc.count_le
    rw [hc.count] at this
    omega
  refine ⟨?_, ?_, ?_, ?_⟩
  · rw [hdata, Nat.add_assoc (out.data.length) 4 (12 * i), ← Nat.add_assoc]
    rw [slice_patched _ _ _ _ _ (by omega) (by rw [headerPatch_length]; omega)]
    have := recordsFrom_slice st i 0 (st.index_count - 1) (by omega)
    rw [Nat.zero_add] at this
    unfold headerPatch
    rw [this]
    simp only [recordBytes, revolutionRecord, intBytes_eq]
    norm_num [MAX_REVOLUTIONS, add_assoc]
  · rw [hoff, below_processed _ _ (le_of_lt (indexPositions_lt _ _ (getD_mem _ _ hi'))), hq]
  · rw [hoff]; omega
  · have := hc.offsets_le i hi'
    rw [hem]; omega

/-- Witness of C6: two index edges, so record 0 is written. -/
theorem record_serialization_witness :
    ((acquire_track headerFile 0 0 [[3, 1, 0, 1], [0, 2, 0]]).data.drop
        (headerFile.data.length + 4 + 12 * 0)).take 12
      = littleEndian32 (12 - 2) ++ littleEndian32 (2 - 0) ++ littleEndian32 (0 + 64) :=
  (record_serialization headerFile 0 0 [[3, 1, 0, 1], [0, 2, 0]] 0 (by decide)).1

/-! ## The stop at the sixth index edge -/

theorem processed_eq_take (s : List Sample) (p : Nat)
    (h : (indexPositions s)[MAX_REVOLUTIONS]? = some p) : processed s = s.take (p + 1) := by
  unfold processed
  rw [h]

theorem processed_idem (s : List Sample) : processed (processed s) = processed s := by
  cases h : (indexPositions s)[MAX_REVOLUTIONS]? with
  | none =>
    have : processed s = s := by unfold processed; rw [h]
    rw [this, this]
  | some p =>
    have h1 := processed_eq_take s p h
    have h2 : (indexPositions (processed s))[MAX_REVOLUTIONS]? = some p := by
      rw [indexPositions_processed, List.getElem?_take, if_pos (by omega), h]
    rw [processed_eq_take _ p h2, h1, List.take_take, Nat.min_self]

/-- The sample loop does not look beyond the processed part of the stream. -/
theorem runAt_processed (s : List Sample) (init : TrackState) (out0 : File)
    (h0 : Captured out0 [] init) : runAt s 0 init = runAt (processed s) 0 init := by
  cases h : (indexPositions s)[MAX_REVOLUTIONS]? with
  | none =>
    have : processed s = s := by unfold processed; rw [h]
    rw [this]
  | some p =>
    have h1 := processed_eq_take s p h
    have hsplit : s = processed s ++ s.drop (p + 1) := by
      rw [h1, List.take_append_drop]
    have hc := captured_runAt out0 init h0 (processed s)
    rw [processed_idem] at hc
    have hcnt : ¬ (runAt (processed s) 0 init).index_count ≤ MAX_REVOLUTIONS := by
      rw [hc.count, indexPositions_processed, List.length_take]
      have : MAX_REVOLUTIONS < (indexPositions s).length := by
        by_contra hlt
        have := List.getElem?_eq_none_iff.mpr (Nat.le_of_not_lt hlt)
        rw [this] at h
        cases h
      omega
    conv_lhs => rw [hsplit]
    rw [runAt_append, runAt_stopped _ _ _ hcnt]

theorem captureState_processed (out : File) (track_num track_side : Nat)
    (input input' : List (List Sample))
    (h : processed (streamOf input') = processed (streamOf input)) :
    ∃ n : Int, captureState out track_num track_side input'
      = { captureState out track_num track_side input with total_rd := n } := by
  unfold captureState
  obtain ⟨n, hn⟩ := captureLoop_eq_runAt input (trackInit out track_num track_side)
  obtain ⟨n', hn'⟩ := captureLoop_eq_runAt input' (trackInit out track_num track_side)
  refine ⟨n', ?_⟩
  have h0 : (trackInit out track_num track_side).total_rd = 0 := rfl
  rw [hn', hn, h0, runAt_processed (streamOf input') _ _ (captured_init out track_num track_side),
    runAt_processed (streamOf input) _ _ (captured_init out track_num track_side), h]

theorem acquire_track_with_total_rd (out : File) (track_num track_side : Nat)
    (input input' : List (List Sample)) (n : Int)
    (h : captureState out track_num track_side input'
      = { captureState out track_num track_side input with total_rd := n }) :
    acquire_track out track_num track_side input' = acquire_track out track_num track_side input := by
  rw [acquire_track_eq, acquire_track_eq, h]
  rfl

/-- C7. For every stream, `index_count` ends at no more than `MAX_REVOLUTIONS + 1 = 6` and the
three index arrays keep their 6 cells; and when the stream has a sixth index edge, at
position `p`, then `acquire_track` leaves the same file, and the capture loop the same
variables (up to the read counter `total_rd`), as for any input whose stream is the stream
cut after position `p`. -/
theorem stop_condition (out : File) (track_num track_side : Nat) (input : List (List Sample)) :
    (captureState out track_num track_side input).index_count ≤ MAX_REVOLUTIONS + 1
    ∧ (captureState out track_num track_side input).index_times.length = MAX_REVOLUTIONS + 1
    ∧ (captureState out track_num track_side input).index_offsets.length = MAX_REVOLUTIONS + 1
    ∧ (captureState out track_num track_side input).index_transitions.length
        = MAX_REVOLUTIONS + 1
    ∧ ∀ (p : Nat) (input' : List (List Sample)),
        (indexPositions (streamOf input))[MAX_REVOLUTIONS]? = some p →
        streamOf input' = (streamOf input).take (p + 1) →
        acquire_track out track_num track_side input'
            = acquire_track out track_num track_side input
          ∧ ∃ n : Int, captureState out track_num track_side input'
              = { captureState out track_num track_side input with total_rd := n } := by
  have hc := captured_captureState out track_num track_side input
  refine ⟨hc.count_le, hc.len_times, hc.len_offsets, hc.len_transitions, ?_⟩
  intro p input' hp hs
  have h1 := processed_eq_take _ p hp
  have h2 : processed (streamOf input') = processed (streamOf input) := by
    rw [hs, ← h1, processed_idem]
  obtain ⟨n, hn⟩ := captureState_processed out track_num track_side input input' h2
  exact ⟨acquire_track_with_total_rd out track_num track_side input input' n hn, n, hn⟩

/-- Witness of C7: a stream whose sixth index edge is at sample 11, with a transition after
it. -/
theorem stop_condition_witness :
    acquire_track headerFile 0 0 [[2, 0, 2, 0, 2, 0, 2, 0, 2, 0, 2, 0]]
      = acquire_track headerFile 0 0 [[2, 0, 2, 0, 2, 0, 2, 0], [2, 0, 2, 0, 1, 0, 1, 0]] :=
  ((stop_condition headerFile 0 0 [[2, 0, 2, 0, 2, 0, 2, 0], [2, 0, 2, 0, 1, 0, 1, 0]]).2.2.2.2
    11 [[2, 0, 2, 0, 2, 0, 2, 0, 2, 0, 2, 0]] (by decide) (by decide)).1

/-! ## The file header -/

theorem fileHeader_length : fileHeader.length = 680 := by
  unfold fileHeader
  rw [List.length_append, List.length_replicate]
  rfl

theorem headerFile_data : headerFile.data = fileHeader := by
  unfold headerFile
  rw [fwrite_end_data _ _ rfl]
  rfl

/-- C9. The header block that `main` writes is 680 bytes long; its bytes 0..11 are
`'S'`, `'C'`, `'P'`, `0x09`, `0x04`, `0x05`, `0x00`, `0xA5`, `0x03`, `0x00`, `0x00`, `0x00`,
and the bytes 12..679, the checksum and the 166 directory slots, are zero;
`680 = 16 + 4*166`. -/
theorem file_header :
    headerFile.data = fileHeader
    ∧ fileHeader.length = 680
    ∧ fileHeader.take 12
        = "SCP".toList.map Char.toNat ++ [0x09, 0x04, 0x05, 0x00, 0xA5, 0x03, 0x00, 0x00, 0x00]
    ∧ fileHeader.drop 12 = List.replicate 668 0
    ∧ 680 = 16 + 4 * 166 := by
  refine ⟨headerFile_data, fileHeader_length, ?_, ?_, rfl⟩
  · decide
  · rfl

/-! ## The track header -/

theorem take_four_append (h : List Nat) (rest : List Nat) (hl : h.length = 4) :
    (h ++ rest).take 4 = h := List.take_left' hl

/-- C10. For a cylinder in `[0,82]` and a side in `{0,1}`, on a file that holds the 680-byte
header (as every file that `main` hands to `acquire_track` does), `acquire_track` appends at
the former end of the file, before any cell, exactly 64 bytes: `'T'`, `'R'`, `'K'`, the byte
`2*cylinder + side` and 60 zero bytes; the cells follow at offset 64 from there; and when the
stream has fewer than 2 index edges the 60 bytes are still zero when `acquire_track`
returns. -/
theorem track_stub (out : File) (cylinder side : Nat) (input : List (List Sample))
    (hc : cylinder ≤ 82) (hs : side ≤ 1) (hout : 680 ≤ out.data.length) :
    (trackInit out cylinder side).out.data
        = withDirectoryEntry out cylinder side
            ++ ([84, 82, 75, 2 * cylinder + side] ++ List.replicate 60 0)
    ∧ (withDirectoryEntry out cylinder side).length = out.data.length
    ∧ (acquire_track out cylinder side input).data.take out.data.length
        = withDirectoryEntry out cylinder side
    ∧ ((acquire_track out cylinder side input).data.drop out.data.length).take 4
        = [84, 82, 75, 2 * cylinder + side]
    ∧ (acquire_track out cylinder side input).data.drop (out.data.length + 64)
        = cellStream (transitionDeltas (streamOf input))
    ∧ ((indexPositions (streamOf input)).length < 2 →
        ((acquire_track out cylinder side input).data.drop (out.data.length + 4)).take 60
          = List.replicate 60 0) := by
  have hslot : 16 + 4 * (2 * cylinder + side) + 4 ≤ out.data.length := by omega
  have hid : (2 * cylinder + side) % 256 = 2 * cylinder + side := Nat.mod_eq_of_lt (by omega)
  have hL := withDirectoryEntry_length out cylinder side hslot
  have hdata := acquire_track_data out cylinder side input hslot
  have hple := headerPatch_le out cylinder side input
  have hplen := headerPatch_length (captureState out cylinder side input)
  have hcnt := (captured_captureState out cylinder side input).count
  rw [hid] at hdata
  generalize headerPatch (captureState out cylinder side input) = patch at hdata hple hplen
  refine ⟨?_, hL, ?_, ?_, ?_, ?_⟩
  · show (beginTrack out cylinder side).data = _
    rw [beginTrack_data, trackStub, hid]
  · rw [hdata]
    simp only [List.append_assoc]
    exact List.take_left' hL
  · rw [hdata]
    simp only [List.append_assoc]
    rw [List.drop_left' hL]
    rfl
  · rw [hdata]
    apply List.drop_left'
    simp only [List.length_append, List.length_replicate, List.length_cons, List.length_nil, hL]
    omega
  · intro hlt
    have hp0 : patch = [] := by
      apply List.eq_nil_of_length_eq_zero
      rw [hplen, hcnt, indexPositions_processed, List.length_take]
      omega
    rw [hdata, hp0]
    simp only [List.append_assoc, List.length_nil, List.nil_append, Nat.sub_zero]
    have e : out.data.length + 4
        = (withDirectoryEntry out cylinder side).length + [84, 82, 75, 2 * cylinder + side].length := by
      rw [hL]; rfl
    rw [← List.append_assoc, e, ← List.length_append, List.drop_left]
    exact List.take_left' (by simp)

/-- Witness of C10: track 3 of side 1 on the file that holds the header only, with a stream
that has one index edge. -/
theorem track_stub_witness :
    ((acquire_track headerFile 3 1 [[2, 0, 1, 0]]).data.drop headerFile.data.length).take 4
        = [84, 82, 75, 2 * 3 + 1]
    ∧ ((indexPositions (streamOf [[2, 0, 1, 0]])).length < 2 →
        ((acquire_track headerFile 3 1 [[2, 0, 1, 0]]).data.drop
            (headerFile.data.length + 4)).take 60 = List.replicate 60 0) :=
  ⟨(track_stub headerFile 3 1 [[2, 0, 1, 0]] (by decide) (by decide)
      (by rw [headerFile_data, fileHeader_length])).2.2.2.1,
   (track_stub headerFile 3 1 [[2, 0, 1, 0]] (by decide) (by decide)
      (by rw [headerFile_data, fileHeader_length])).2.2.2.2.2⟩

/-! ## Slices of a patched file -/

theorem getElem?_slice (l : List Nat) (a n i : Nat) :
    ((l.drop a).take n)[i]? = if i < n then l[a + i]? else none := by
  rw [List.getElem?_take]
  split
  · rw [List.getElem?_drop]
  · rfl

theorem getElem?_patched (d bs : List Nat) (p j : Nat) (h : p + bs.length ≤ d.length) :
    (d.take p ++ bs ++ d.drop (p + bs.length))[j]?
      = if p ≤ j ∧ j < p + bs.length then bs[j - p]? else d[j]? := by
  have h1 : (d.take p).length = p := by rw [List.length_take]; omega
  by_cases hj1 : j < p
  · rw [if_neg (by omega), List.append_assoc, List.getElem?_append_left (by omega),
      List.getElem?_take, if_pos hj1]
  · by_cases hj2 : j < p + bs.length
    · rw [if_pos ⟨by omega, hj2⟩, List.getElem?_append_left (by rw [List.length_append]; omega),
        List.getElem?_append_right (by omega), h1]
    · rw [if_neg (by omega), List.getElem?_append_right (by rw [List.length_append]; omega),
        List.getElem?_drop, List.length_append, h1]
      congr 1
      omega

theorem slice_patched_outside (d bs : List Nat) (p a n : Nat) (h : p + bs.length ≤ d.length)
    (ha : a + n ≤ p ∨ p + bs.length ≤ a) :
    ((d.take p ++ bs ++ d.drop (p + bs.length)).drop a).take n = (d.drop a).take n := by
  apply List.ext_getElem?
  intro i
  rw [getElem?_slice, getElem?_slice]
  split
  · rw [getElem?_patched _ _ _ _ h, if_neg (by omega)]
  · rfl

theorem slice_patched_at (d bs : List Nat) (p : Nat) (h : p + bs.length ≤ d.length) :
    ((d.take p ++ bs ++ d.drop (p + bs.length)).drop p).take bs.length = bs := by
  apply List.ext_getElem?
  intro i
  rw [getElem?_slice]
  split
  · rw [getElem?_patched _ _ _ _ h, if_pos ⟨by omega, by omega⟩]
    congr 1
    omega
  · rename_i hi
    exact (List.getElem?_eq_none_iff.mpr (by omega)).symm

theorem slice_append_left (x y : List Nat) (a n : Nat) (h : a + n ≤ x.length) :
    ((x ++ y).drop a).take n = (x.drop a).take n := by
  rw [List.drop_append_of_le_length (by omega),
    List.take_append_of_le_length (by rw [List.length_drop]; omega)]

theorem leDecode_offsetBytes (x : Nat) : leDecode (offsetBytes x) = x % 2 ^ 32 := by
  simp only [leDecode, offsetBytes, List.foldr]
  omega

/-! ## The directory under a sequence of calls -/

theorem acquire_track_length (out : File) (cylinder side : Nat) (input : List (List Sample))
    (h : 16 + 4 * (2 * cylinder + side) + 4 ≤ out.data.length) :
    (acquire_track out cylinder side input).data.length
      = out.data.length + 64 + (cellStream (transitionDeltas (streamOf input))).length := by
  have hple := headerPatch_le out cylinder side input
  rw [acquire_track_data out cylinder side input h]
  simp only [List.length_append, List.length_replicate, List.length_cons, List.length_nil,
    withDirectoryEntry_length out cylinder side h]
  unfold trackCells transitionDeltas
  omega

theorem acquireAll_snoc (calls : List TrackCall) (c : TrackCall) (out : File) :
    acquireAll (calls ++ [c]) out
      = acquire_track (acquireAll calls out) c.cylinder c.side c.input := by
  simp [acquireAll, List.foldl_append]

/-- What a call of `acquire_track` does to the bytes that were in the file: the directory
entry of the track gets the old length of the file, the track header is appended. -/
theorem acquire_track_frame (out : File) (cylinder side : Nat) (input : List (List Sample))
    (hc : cylinder ≤ 82) (hs : side ≤ 1) (hout : 680 ≤ out.data.length) :
    ((acquire_track out cylinder side input).data.drop (16 + 4 * (2 * cylinder + side))).take 4
        = offsetBytes out.data.length
    ∧ ((acquire_track out cylinder side input).data.drop out.data.length).take 3 = [84, 82, 75]
    ∧ out.data.length + 64 ≤ (acquire_track out cylinder side input).data.length
    ∧ ∀ a n, a + n ≤ out.data.length →
        (a + n ≤ 16 + 4 * (2 * cylinder + side) ∨ 16 + 4 * (2 * cylinder + side) + 4 ≤ a) →
        ((acquire_track out cylinder side input).data.drop a).take n = (out.data.drop a).take n := by
  have hslot : 16 + 4 * (2 * cylinder + side) + 4 ≤ out.data.length := by omega
  have hL := withDirectoryEntry_length out cylinder side hslot
  have hW := withDirectoryEntry_inside out cylinder side hslot
  have hdata := acquire_track_data out cylinder side input hslot
  have hlen := acquire_track_length out cylinder side input hslot
  simp only [List.append_assoc] at hdata
  refine ⟨?_, ?_, by omega, ?_⟩
  · rw [hdata, slice_append_left _ _ _ _ (by omega), hW]
    have h4 : 16 + 4 * (2 * cylinder + side) + (offsetBytes out.data.length).length
        ≤ out.data.length := by rw [offsetBytes_length]; omega
    exact slice_patched_at out.data (offsetBytes out.data.length) _ h4
  · rw [hdata, List.drop_left' hL]
    rfl
  · intro a n han hdis
    rw [hdata, slice_append_left _ _ _ _ (by omega), hW]
    have h4 : 16 + 4 * (2 * cylinder + side) + (offsetBytes out.data.length).length
        ≤ out.data.length := by rw [offsetBytes_length]; omega
    exact slice_patched_outside out.data (offsetBytes out.data.length) _ a n h4
      (by rw [offsetBytes_length]; omega)

theorem fileHeader_slice_zero (a n : Nat) (ha : 12 ≤ a) (hn : a + n ≤ 680) :
    (fileHeader.drop a).take n = List.replicate n 0 := by
  have h12 : fileHeader.drop 12 = List.replicate 668 0 := by rfl
  have : fileHeader.drop a = (fileHeader.drop 12).drop (a - 12) := by
    rw [List.drop_drop]; congr 1; omega
  rw [this, h12, List.drop_replicate, List.take_replicate]
  congr 1
  omega

/-- The state of the directory after a sequence of calls on the file that holds the header. -/
theorem directory_after (calls : List TrackCall)
    (hrange : ∀ c ∈ calls, c.cylinder ≤ 82 ∧ c.side ≤ 1)
    (hdistinct : (calls.map trackId).Nodup) :
    680 ≤ (acquireAll calls headerFile).data.length
    ∧ (∀ k (hk : k < calls.length),
        (((acquireAll calls headerFile).data.drop (16 + 4 * trackId (calls.get ⟨k, hk⟩))).take 4
            = offsetBytes (acquireAll (calls.take k) headerFile).data.length)
        ∧ ((acquireAll calls headerFile).data.drop
              (acquireAll (calls.take k) headerFile).data.length).take 3 = [84, 82, 75]
        ∧ 680 ≤ (acquireAll (calls.take k) headerFile).data.length
        ∧ (acquireAll (calls.take k) headerFile).data.length + 64
            ≤ (acquireAll calls headerFile).data.length)
    ∧ (∀ id, id < 166 → id ∉ calls.map trackId →
        ((acquireAll calls headerFile).data.drop (16 + 4 * id)).take 4 = [0, 0, 0, 0]) := by
  induction calls using List.reverseRecOn with
  | nil =>
    refine ⟨?_, ?_, ?_⟩
    · show 680 ≤ headerFile.data.length
      rw [headerFile_data, fileHeader_length]
    · intro k hk
      simp at hk
    · intro id hid _
      show (headerFile.data.drop (16 + 4 * id)).take 4 = [0, 0, 0, 0]
      rw [headerFile_data, fileHeader_slice_zero _ _ (by omega) (by omega)]
      rfl
  | append_singleton calls c ih =>
    have hr' : ∀ x ∈ calls, x.cylinder ≤ 82 ∧ x.side ≤ 1 :=
      fun x hx => hrange x (List.mem_append_left _ hx)
    have hcr := hrange c (List.mem_append_right _ (List.mem_singleton_self c))
    rw [List.map_append, List.nodup_append] at hdistinct
    obtain ⟨hd1, -, hd3⟩ := hdistinct
    obtain ⟨ih1, ih2, ih3⟩ := ih hr' hd1
    obtain ⟨f1, f2, f3, f4⟩ := acquire_track_frame (acquireAll calls headerFile) c.cylinder c.side
      c.input hcr.1 hcr.2 ih1
    rw [acquireAll_snoc]
    refine ⟨by omega, ?_, ?_⟩
    · intro k hk
      rw [List.length_append, List.length_singleton] at hk
      by_cases hk2 : k < calls.length
      · have hget : (calls ++ [c]).get ⟨k, by rw [List.length_append, List.length_singleton]; omega⟩
            = calls.get ⟨k, hk2⟩ := by
          simp [List.getElem_append_left hk2]
        have htake : (calls ++ [c]).take k = calls.take k :=
          List.take_append_of_le_length (by omega)
        rw [hget, htake]
        obtain ⟨i1, i2, i3, i4⟩ := ih2 k hk2
        have hne : trackId (calls.get ⟨k, hk2⟩) ≠ trackId c := by
          intro he
          have hm1 : trackId (calls.get ⟨k, hk2⟩) ∈ calls.map trackId :=
            List.mem_map_of_mem _ (List.get_mem _ _ _)
          have hm2 : trackId (calls.get ⟨k, hk2⟩) ∈ [c].map trackId := by
            rw [he]; simp
          exact hd3 hm1 hm2
        have hidk : trackId (calls.get ⟨k, hk2⟩) ≤ 165 := by
          have := hr' _ (List.get_mem calls k hk2)
          unfold trackId; omega
        have hne' : trackId (calls.get ⟨k, hk2⟩) ≠ 2 * c.cylinder + c.side := hne
        refine ⟨?_, ?_, i3, by omega⟩
        · rw [f4 _ _ (by omega) (by omega)]
          exact i1
        · rw [f4 _ _ (by omega) (by omega)]
          exact i2
      · have hk3 : k = calls.length := by omega
        subst hk3
        have hget : (calls ++ [c]).get ⟨calls.length, by simp⟩ = c := by simp
        rw [hget, List.take_left]
        exact ⟨f1, f2, ih1, f3⟩
    · intro id hid hnot
      rw [List.map_append, List.mem_append, not_or] at hnot
      have hne : id ≠ 2 * c.cylinder + c.side := by
        intro he
        apply hnot.2
        simp [trackId, he]
      rw [f4 _ _ (by omega) (by omega)]
      exact ih3 id hid hnot.1

/-- C8, amended.  Starting from the 680-byte file header written by `main`, after any
sequence of `acquire_track` calls on pairwise distinct (cylinder, side) with cylinder in
`[0,82]` and side in `{0,1}`: for every acquired track the 4 bytes at file offset
`16 + 4*(2*cylinder + side)` decode as a little-endian value to the file offset at which that
track's bytes `'T','R','K'` begin, reduced modulo `2^32` (so to that offset itself when it is
below `2^32`), and the 4 bytes of every directory slot whose track id was never acquired are
zero. -/
theorem directory_integrity (calls : List TrackCall)
    (hrange : ∀ c ∈ calls, c.cylinder ≤ 82 ∧ c.side ≤ 1)
    (hdistinct : (calls.map (fun c => (c.cylinder, c.side))).Nodup) :
    (∀ k (hk : k < calls.length),
        leDecode (((acquireAll calls headerFile).data.drop
            (16 + 4 * (2 * (calls.get ⟨k, hk⟩).cylinder + (calls.get ⟨k, hk⟩).side))).take 4)
          = (acquireAll (calls.take k) headerFile).data.length % 2 ^ 32
        ∧ ((acquireAll (calls.take k) headerFile).data.length < 2 ^ 32 →
            leDecode (((acquireAll calls headerFile).data.drop
              (16 + 4 * (2 * (calls.get ⟨k, hk⟩).cylinder + (calls.get ⟨k, hk⟩).side))).take 4)
            = (acquireAll (calls.take k) headerFile).data.length)
        ∧ ((acquireAll calls headerFile).data.drop
              (acquireAll (calls.take k) headerFile).data.length).take 3 = [84, 82, 75])
    ∧ (∀ id, id < 166 → (∀ c ∈ calls, 2 * c.cylinder + c.side ≠ id) →
        ((acquireAll calls headerFile).data.drop (16 + 4 * id)).take 4 = [0, 0, 0, 0]) := by
  have hnodup : (calls.map trackId).Nodup := by
    have hinj : ∀ a ∈ calls, ∀ b ∈ calls, trackId a = trackId b →
        (fun c : TrackCall => (c.cylinder, c.side)) a = (fun c : TrackCall => (c.cylinder, c.side)) b := by
      intro a ha b hb hab
      have h1 := hrange a ha
      have h2 := hrange b hb
      unfold trackId at hab
      simp only [Prod.mk.injEq]
      omega
    rw [List.nodup_map_iff_inj_on (List.Nodup.of_map _ hdistinct)]
    intro a ha b hb hab
    exact List.inj_on_of_nodup_map hdistinct ha hb (hinj a ha b hb hab)
  obtain ⟨-, h2, h3⟩ := directory_after calls hrange hnodup
  refine ⟨?_, ?_⟩
  · intro k hk
    obtain ⟨i1, i2, -, -⟩ := h2 k hk
    have i1' : ((acquireAll calls headerFile).data.drop
            (16 + 4 * (2 * (calls.get ⟨k, hk⟩).cylinder + (calls.get ⟨k, hk⟩).side))).take 4
        = offsetBytes (acquireAll (calls.take k) headerFile).data.length := i1
    rw [i1', leDecode_offsetBytes]
    exact ⟨rfl, fun hlt => Nat.mod_eq_of_lt hlt, i2⟩
  · intro id hid hnot
    apply h3 id hid
    intro hmem
    obtain ⟨c, hc, hcid⟩ := List.mem_map.mp hmem
    exact hnot c hc hcid

/-- Witness of C8 (amended): track (1, 0) and then track (0, 1) on the header file. -/
theorem directory_integrity_witness :
    leDecode (((acquireAll [⟨1, 0, [[3, 1, 0, 1, 0]]⟩, ⟨0, 1, [[1, 0]]⟩] headerFile).data.drop
        (16 + 4 * (2 * 0 + 1))).take 4)
      = (acquireAll ([(⟨1, 0, [[3, 1, 0, 1, 0]]⟩ : TrackCall), ⟨0, 1, [[1, 0]]⟩].take 1)
          headerFile).data.length % 2 ^ 32 :=
  ((directory_integrity [⟨1, 0, [[3, 1, 0, 1, 0]]⟩, ⟨0, 1, [[1, 0]]⟩] (by decide) (by decide)).1
    1 (by decide)).1

/-! ## A disk image beyond `2^32` bytes -/

theorem flatten_replicate_flatten (m n : Nat) (l : List Sample) :
    (List.replicate m (List.replicate n l).flatten).flatten = (List.replicate (m * n) l).flatten := by
  induction m with
  | zero => rw [Nat.zero_mul]; rfl
  | succ m ih =>
    rw [List.replicate_succ, List.flatten_cons, ih, Nat.succ_mul, Nat.add_comm (m * n) n,
      List.replicate_add, List.flatten_append]

theorem squareWave_succ (n : Nat) :
    (List.replicate (n + 1) [(1 : Sample), 0]).flatten
      = 1 :: 0 :: (List.replicate n [(1 : Sample), 0]).flatten := by
  rw [List.replicate_succ, List.flatten_cons]
  rfl

theorem squareWave_length (n : Nat) :
    (List.replicate n [(1 : Sample), 0]).flatten.length = 2 * n := by
  induction n with
  | zero => rfl
  | succ n ih =>
    rw [squareWave_succ, List.length_cons, List.length_cons, ih]
    omega

theorem squareWave_index (n : Nat) :
    ∀ (prev : Sample) (p : Nat), indexEdge prev 1 = false →
      edgePositions indexEdge prev p (List.replicate n [(1 : Sample), 0]).flatten = [] := by
  induction n with
  | zero => intro prev p _; rfl
  | succ n ih =>
    intro prev p hp
    have h10 : indexEdge 1 0 = false := by decide
    rw [squareWave_succ]
    simp only [edgePositions, hp, h10, Bool.false_eq_true, if_false]
    exact ih 0 _ (by decide)

theorem squareWave_data (n : Nat) :
    ∀ (prev : Sample) (p : Nat), dataEdge prev 1 = false →
      edgePositions dataEdge prev p (List.replicate (n + 1) [(1 : Sample), 0]).flatten
        = (p + 1) :: edgePositions dataEdge 0 (p + 1 + 1) (List.replicate n [(1 : Sample), 0]).flatten := by
  intro prev p hp
  have h10 : dataEdge 1 0 = true := by decide
  rw [squareWave_succ]
  simp only [edgePositions, hp, h10, Bool.false_eq_true, if_false, if_true]

theorem squareWave_cells (n : Nat) :
    ∀ (prev : Sample) (p : Nat), dataEdge prev 1 = false →
      (cellStream (deltas (edgePositions dataEdge prev p
        (List.replicate (n + 1) [(1 : Sample), 0]).flatten))).length = 2 * n := by
  induction n with
  | zero =>
    intro prev p hp
    rw [squareWave_data 0 prev p hp]
    rfl
  | succ n ih =>
    intro prev p hp
    have h01 : dataEdge 0 1 = false := by decide
    have := ih 0 (p + 1 + 1) h01
    rw [squareWave_data (n + 1) prev p hp]
    rw [squareWave_data n 0 (p + 1 + 1) h01] at this ⊢
    simp only [deltas]
    have hd : 2 * (((p + 1 + 1 + 1 : Nat)) : Int) - 2 * (((p + 1 : Nat)) : Int) = 4 := by
      push_cast; ring
    rw [hd]
    have hc : ∀ ds : List Int, cellStream (4 :: ds) = [0, 4] ++ cellStream ds := by
      intro ds
      simp only [cellStream, List.map_cons, List.flatten_cons]
      rfl
    rw [hc, List.length_append, this]
    simp only [List.length_cons, List.length_nil]
    omega

theorem squareWaveInput_chunks :
    ∀ chunk ∈ squareWaveInput, 0 < chunk.length ∧ chunk.length ≤ 1024 := by
  intro chunk hc
  rw [squareWaveInput, List.mem_replicate] at hc
  rw [hc.2, squareWave_length]
  omega

theorem streamOf_squareWaveInput :
    streamOf squareWaveInput = (List.replicate (32768 * 512) [(1 : Sample), 0]).flatten := by
  rw [streamOf_of_nonempty _ (fun c hc => (squareWaveInput_chunks c hc).1)]
  exact flatten_replicate_flatten _ _ _

theorem squareWave_transitionCells :
    (cellStream (transitionDeltas (streamOf squareWaveInput))).length = 33554430 := by
  have hidx : indexPositions (streamOf squareWaveInput) = [] := by
    rw [streamOf_squareWaveInput]
    exact squareWave_index _ _ _ (by decide)
  unfold transitionDeltas
  rw [processed_of_le _ (by rw [hidx]; exact Nat.zero_le _), streamOf_squareWaveInput]
  exact squareWave_cells (32768 * 512 - 1) 0xff 0 (by decide)

theorem squareWave_file_length (k : Nat) (hk : k ≤ 128) :
    (acquireAll ((List.range k).map (fun j => (⟨j / 2, j % 2, squareWaveInput⟩ : TrackCall)))
        headerFile).data.length = 680 + k * 33554494 := by
  induction k with
  | zero =>
    show headerFile.data.length = _
    rw [headerFile_data, fileHeader_length]
  | succ k ih =>
    have ih' := ih (by omega)
    rw [List.range_succ, List.map_append, List.map_singleton, acquireAll_snoc]
    simp only
    rw [acquire_track_length _ _ _ _ (by rw [ih']; omega), ih', squareWave_transitionCells]
    omega

theorem squareWaveCalls_take : squareWaveCalls.take 128
    = (List.range 128).map (fun j => (⟨j / 2, j % 2, squareWaveInput⟩ : TrackCall)) := by
  unfold squareWaveCalls
  exact List.take_left' (by rw [List.length_map, List.length_range])

theorem squareWaveCalls_range :
    ∀ c ∈ squareWaveCalls, c.cylinder ≤ 82 ∧ c.side ≤ 1 := by
  intro c hc
  rw [squareWaveCalls, List.mem_append, List.mem_map, List.mem_singleton] at hc
  rcases hc with ⟨j, hj, rfl⟩ | rfl
  · rw [List.mem_range] at hj
    simp only
    omega
  · simp only
    decide

theorem squareWaveCalls_ids : squareWaveCalls.map trackId = List.range 129 := by
  have h1 : ∀ j, trackId (⟨j / 2, j % 2, squareWaveInput⟩ : TrackCall) = j := by
    intro j; unfold trackId; simp only; omega
  have h2 : List.map (trackId ∘ fun j => (⟨j / 2, j % 2, squareWaveInput⟩ : TrackCall))
      (List.range 128) = List.map id (List.range 128) :=
    List.map_congr_left (fun j _ => h1 j)
  rw [squareWaveCalls, List.map_append, List.map_map, h2, List.map_id,
    List.range_succ (n := 128)]
  rfl

/-- C8, counterexample.  `main` acquires the track ids 0 to 127 from a capture device that
delivers `CAPTURE_SIZE` samples of a square wave for each, and then track id 128: that track
begins at file offset 4294975912, and the 4 bytes of its directory slot decode to 8616. -/
theorem directory_integrity_counterexample :
    (∀ c ∈ squareWaveCalls, c.cylinder ≤ 82 ∧ c.side ≤ 1)
    ∧ (squareWaveCalls.map (fun c => (c.cylinder, c.side))).Nodup
    ∧ (∀ chunk ∈ squareWaveInput, 0 < chunk.length ∧ chunk.length ≤ 1024)
    ∧ (streamOf squareWaveInput).length = CAPTURE_SIZE
    ∧ (acquireAll (squareWaveCalls.take 128) headerFile).data.length = 4294975912
    ∧ ((acquireAll squareWaveCalls headerFile).data.drop 4294975912).take 3 = [84, 82, 75]
    ∧ leDecode (((acquireAll squareWaveCalls headerFile).data.drop (16 + 4 * (2 * 64 + 0))).take 4)
        = 8616 := by
  have hids : (squareWaveCalls.map trackId).Nodup := by
    rw [squareWaveCalls_ids]; exact List.nodup_range 129
  have hpairs : (squareWaveCalls.map (fun c => (c.cylinder, c.side))).Nodup := by
    have : squareWaveCalls.map trackId
        = (squareWaveCalls.map (fun c => (c.cylinder, c.side))).map (fun q => 2 * q.1 + q.2) := by
      rw [List.map_map]; rfl
    rw [this] at hids
    exact List.Nodup.of_map _ hids
  have hlen : (acquireAll (squareWaveCalls.take 128) headerFile).data.length = 4294975912 := by
    rw [squareWaveCalls_take, squareWave_file_length 128 (le_refl _)]
  have hk : 128 < squareWaveCalls.length := by
    rw [squareWaveCalls, List.length_append, List.length_map, List.length_range]
    exact Nat.lt_succ_self _
  have hget : squareWaveCalls.get ⟨128, hk⟩ = ⟨64, 0, []⟩ := by
    simp only [squareWaveCalls, List.get_eq_getElem]
    rw [List.getElem_append_right (by rw [List.length_map, List.length_range])]
    simp only [List.length_map, List.length_range, Nat.sub_self, List.getElem_cons_zero]
  obtain ⟨-, h2, -⟩ := directory_after squareWaveCalls squareWaveCalls_range hids
  obtain ⟨i1, i2, -, -⟩ := h2 128 hk
  rw [hlen] at i1 i2
  rw [hget] at i1
  refine ⟨squareWaveCalls_range, hpairs, squareWaveInput_chunks, ?_, hlen, i2, ?_⟩
  · rw [streamOf_squareWaveInput, squareWave_length]
    rfl
  · have i1' : ((acquireAll squareWaveCalls headerFile).data.drop (16 + 4 * (2 * 64 + 0))).take 4
        = offsetBytes 4294975912 := i1
    rw [i1', leDecode_offsetBytes]
    norm_num

/-! ## Edges of a stream of valid samples -/

set_option maxRecDepth 100000 in
theorem no_edge_at_start : ∀ b : Sample, indexEdge 0xff b = false ∧ dataEdge 0xff b = false := by
  decide

theorem flatten_replicate_zero_cell (k : Nat) :
    (List.replicate k [(0 : Nat), 0]).flatten = List.replicate (2 * k) 0 := by
  induction k with
  | zero => rfl
  | succ k ih =>
    rw [List.replicate_succ, List.flatten_cons, ih, Nat.mul_succ, Nat.add_comm (2 * k) 2,
      List.replicate_add]
    rfl

theorem deltaCells_eq_bigEndian (d : Int) :
    deltaCells d = ((cellValues d).map bigEndianCell).flatten := by
  have hr : (d % 0x10000) / 256 % 256 = (d % 0x10000) / 256 := by omega
  unfold deltaCells cellValues
  rw [List.map_append, List.map_replicate, List.flatten_append]
  have h0 : bigEndianCell 0 = [0, 0] := rfl
  rw [h0, flatten_replicate_zero_cell]
  simp only [List.map_cons, List.map_nil, List.flatten_cons, List.flatten_nil, List.append_nil,
    bigEndianCell, hr]

theorem cellStream_eq_bigEndian (ds : List Int) :
    cellStream ds = (((ds.map cellValues).flatten).map bigEndianCell).flatten := by
  induction ds with
  | nil => rfl
  | cons d ds ih =>
    have : cellStream (d :: ds) = deltaCells d ++ cellStream ds := by simp [cellStream]
    rw [this, ih, deltaCells_eq_bigEndian]
    simp only [List.map_cons, List.flatten_cons, List.map_append, List.flatten_append]

theorem cellValues_range (d : Int) : ∀ v ∈ cellValues d, 0 ≤ v ∧ v < 0x10000 := by
  intro v hv
  unfold cellValues at hv
  rw [List.mem_append, List.mem_replicate, List.mem_singleton] at hv
  rcases hv with ⟨-, rfl⟩ | rfl
  · omega
  · omega

/-- C12, counterexample.  Two transitions 2 samples apart give one cell of value 4;
`acquire_track` writes it as the bytes `0, 4`, and the low byte first would be `4, 0`. -/
theorem cell_byte_order_counterexample :
    ((transitionDeltas (streamOf [[1, 0, 1, 0]])).map cellValues).flatten = [4]
    ∧ emittedCells headerFile 0 0 [[1, 0, 1, 0]] = [0, 4]
    ∧ emittedCells headerFile 0 0 [[1, 0, 1, 0]]
        ≠ ((((transitionDeltas (streamOf [[1, 0, 1, 0]])).map cellValues).flatten).map
            littleEndianCell).flatten := by
  have h2 : emittedCells headerFile 0 0 [[1, 0, 1, 0]] = [0, 4] := by
    rw [emittedCells_eq]
    decide
  refine ⟨by decide, h2, ?_⟩
  rw [h2]
  decide

/-- C12, amended.  Every duration cell that `acquire_track` appends to the cell sequence of a
track is 2 bytes in big-endian order: the cell bytes in the file are, for the cell values of
the deltas of the stream in order (each a 16-bit value), the high 8 bits of the value
followed by its low 8 bits. -/
theorem cell_byte_order (out : File) (track_num track_side : Nat) (input : List (List Sample)) :
    emittedCells out track_num track_side input
      = ((((transitionDeltas (streamOf input)).map cellValues).flatten).map
          bigEndianCell).flatten
    ∧ ∀ v ∈ ((transitionDeltas (streamOf input)).map cellValues).flatten,
        0 ≤ v ∧ v < 0x10000 := by
  refine ⟨?_, ?_⟩
  · rw [emittedCells_eq, cellStream_eq_bigEndian]
  · intro v hv
    rw [List.mem_flatten] at hv
    obtain ⟨l, hl, hvl⟩ := hv
    rw [List.mem_map] at hl
    obtain ⟨d, -, rfl⟩ := hl
    exact cellValues_range d v hvl

/-- Witness of C12 (amended): the cell of value 4 is the bytes `0, 4`. -/
theorem cell_byte_order_witness :
    emittedCells headerFile 0 0 [[1, 0, 1, 0]]
      = ((((transitionDeltas (streamOf [[1, 0, 1, 0]])).map cellValues).flatten).map
          bigEndianCell).flatten :=
  (cell_byte_order headerFile 0 0 [[1, 0, 1, 0]]).1

/-! ## The first transition -/

theorem stepAt_histo (p : Int) (b : Sample) (st : TrackState) :
    (stepAt p b st).histo =
      if dataEdge st.prev_byte b = true ∧ 0 ≤ st.last_transition_time
      then histoBump st.histo (Int.tdiv ((2 * p - st.last_transition_time) * 25 + 499) 1000)
      else st.histo := by
  unfold stepAt
  simp only
  have hpb : ∀ t, (indexStep t st).prev_byte = st.prev_byte := fun _ => rfl
  have hh : ∀ t, (indexStep t st).histo = st.histo := fun _ => rfl
  have hl : ∀ t, (indexStep t st).last_transition_time = st.last_transition_time := fun _ => rfl
  generalize hst1 : (if indexEdge st.prev_byte b = true then indexStep (p * TIME_UNITS_PER_SAMPLE) st
    else st) = st1
  have e1 : st1.prev_byte = st.prev_byte := by subst hst1; split <;> simp [hpb]
  have e2 : st1.histo = st.histo := by subst hst1; split <;> simp [hh]
  have e3 : st1.last_transition_time = st.last_transition_time := by
    subst hst1; split <;> simp [hl]
  rw [e1]
  by_cases hd : dataEdge st.prev_byte b = true
  · simp only [hd, if_true, true_and]
    unfold transitionStep writeCells
    simp only [e3, TIME_UNITS_PER_SAMPLE, mul_comm p 2]
    by_cases hl0 : st.last_transition_time ≥ 0
    · have hl0' : 0 ≤ st.last_transition_time := hl0
      simp only [hl0, hl0', if_true]
      split <;> simp [e2]
    · have hl0' : ¬ 0 ≤ st.last_transition_time := hl0
      simp only [hl0, hl0', if_false]
      exact e2
  · simp [hd, e2]

theorem deltas_length (ps : List Nat) : (deltas ps).length = ps.length - 1 := by
  induction ps with
  | nil => rfl
  | cons a as ih =>
    cases as with
    | nil => rfl
    | cons b bs =>
      simp only [deltas, List.length_cons] at ih ⊢
      omega

theorem cellStream_length (ds : List Int) (h : ∀ d ∈ ds, 0 ≤ d) :
    (((cellStream ds).length : Nat) : Int)
      = 2 * (((ds.length : Nat) : Int) + (ds.map (fun d => d / 0x10000)).sum) := by
  induction ds with
  | nil => rfl
  | cons d ds ih =>
    have hd := h d (List.mem_cons_self _ _)
    have hq : 0 ≤ d / 0x10000 := Int.ediv_nonneg hd (by norm_num)
    have : cellStream (d :: ds) = deltaCells d ++ cellStream ds := by simp [cellStream]
    rw [this, List.length_append, deltaCells_length]
    push_cast
    rw [ih (fun x hx => h x (List.mem_cons_of_mem _ hx)), Int.toNat_of_nonneg hq]
    simp only [List.length_cons, List.map_cons, List.sum_cons]
    push_cast
    ring

/-- C13. The first data transition of a track appends no bytes: it leaves the file,
`total_w` and the histogram as they are, sets `last_transition_time` to its time, and is
counted in `num_transitions`.  After any stream with `n` transitions, whose successive deltas
are `delta_1 .. delta_(n-1)`, `total_w = 2 * ((n - 1) + sum of delta_j / 0x10000)`, which is 0
for `n = 0`, and `total_w` is the number of cell bytes in the file after the track header. -/
theorem first_transition_seeds (out : File) (track_num track_side : Nat)
    (input : List (List Sample)) :
    (∀ (input' : List (List Sample)) (b : Sample),
        streamOf input' = streamOf input ++ [b] →
        (captureState out track_num track_side input).index_count ≤ MAX_REVOLUTIONS →
        dataEdge (captureState out track_num track_side input).prev_byte b = true →
        (captureState out track_num track_side input).num_transitions = 0 →
        (captureState out track_num track_side input').out.data
            = (captureState out track_num track_side input).out.data
          ∧ (captureState out track_num track_side input').total_w
            = (captureState out track_num track_side input).total_w
          ∧ (captureState out track_num track_side input').histo
            = (captureState out track_num track_side input).histo
          ∧ (captureState out track_num track_side input').last_transition_time
            = ((streamOf input).length : Int) * TIME_UNITS_PER_SAMPLE
          ∧ (captureState out track_num track_side input').num_transitions = 1)
    ∧ (transitionDeltas (streamOf input)).length
        = ((captureState out track_num track_side input).num_transitions).toNat - 1
    ∧ (captureState out track_num track_side input).total_w
        = 2 * ((((transitionDeltas (streamOf input)).length : Nat) : Int)
                + ((transitionDeltas (streamOf input)).map (fun d => d / 0x10000)).sum)
    ∧ ((captureState out track_num track_side input).num_transitions = 0 →
        (captureState out track_num track_side input).total_w = 0)
    ∧ (captureState out track_num track_side input).out.data
        = (beginTrack out track_num track_side).data ++ emittedCells out track_num track_side input
    ∧ (captureState out track_num track_side input).total_w
        = (((emittedCells out track_num track_side input).length : Nat) : Int) := by
  have hc := captured_captureState out track_num track_side input
  have hem := emittedCells_eq out track_num track_side input
  have hpos := transitionDeltas_pos (streamOf input)
  have hlen : (transitionDeltas (streamOf input)).length
      = (dataPositions (processed (streamOf input))).length - 1 := deltas_length _
  have hsum := cellStream_length (transitionDeltas (streamOf input))
    (fun d hd => le_of_lt (hpos d hd))
  refine ⟨?_, ?_, ?_, ?_, ?_, ?_⟩
  · intro input' b hs hrun hedge hnum
    obtain ⟨n, hn⟩ := captureState_snoc out track_num track_side input input' b hs
    rw [hn, if_pos hrun]
    generalize captureState out track_num track_side input = st at *
    have hnil : dataPositions (processed (streamOf input)) = [] := by
      apply List.eq_nil_of_length_eq_zero
      have := hc.num
      rw [hnum] at this
      omega
    have hlast : st.last_transition_time = -1 := by rw [hc.last, hnil]; rfl
    have hmul : ((streamOf input).length : Int) * TIME_UNITS_PER_SAMPLE
        = 2 * ((streamOf input).length : Int) := by
      unfold TIME_UNITS_PER_SAMPLE; ring
    obtain ⟨h1, -, h3⟩ := stepAt_out ((streamOf input).length : Int) b st hc.writing hc.pos
      (by rw [hlast]; omega)
    have hcond : ¬ (dataEdge st.prev_byte b = true ∧ 0 ≤ st.last_transition_time) := by
      rw [hlast]; intro h; omega
    rw [if_neg hcond] at h1 h3
    refine ⟨?_, ?_, ?_, ?_, ?_⟩
    · show (stepAt _ b st).out.data = _
      rw [h1, List.append_nil]
    · show (stepAt _ b st).total_w = _
      rw [h3, add_zero]
    · show (stepAt _ b st).histo = _
      rw [stepAt_histo, if_neg hcond]
    · show (stepAt _ b st).last_transition_time = _
      rw [stepAt_last_transition_time, if_pos hedge, hmul]
    · show (stepAt _ b st).num_transitions = _
      rw [stepAt_num_transitions, if_pos hedge, hnum]
      rfl
  · rw [hlen, hc.num]
    simp
  · rw [hc.written]
    exact hsum
  · intro hnum
    have hnil : dataPositions (processed (streamOf input)) = [] := by
      apply List.eq_nil_of_length_eq_zero
      have := hc.num
      rw [hnum] at this
      omega
    rw [hc.written, hnil]
    rfl
  · rw [hc.data, hem]
    rfl
  · rw [hc.written, hem]
    rfl

/-- Witness of C13: after the sample 1 the sample 0 is the first transition of the track. -/
theorem first_transition_seeds_witness :
    (captureState headerFile 0 0 [[1], [0]]).out.data = (captureState headerFile 0 0 [[1]]).out.data
    ∧ (captureState headerFile 0 0 [[1], [0]]).total_w = (captureState headerFile 0 0 [[1]]).total_w
    ∧ (captureState headerFile 0 0 [[1], [0]]).histo = (captureState headerFile 0 0 [[1]]).histo
    ∧ (captureState headerFile 0 0 [[1], [0]]).last_transition_time
        = ((streamOf [[1]]).length : Int) * TIME_UNITS_PER_SAMPLE
    ∧ (captureState headerFile 0 0 [[1], [0]]).num_transitions = 1 :=
  (first_transition_seeds headerFile 0 0 [[1]]).1 [[1], [0]] 0 (by decide) (by decide)
    (by decide) (by decide)

/-! ## The first sample -/

theorem edgePositions_start_pos (edge : Sample → Sample → Bool)
    (hstart : ∀ b : Sample, edge 0xff b = false) (s : List Sample) (q : Nat)
    (hq : q ∈ edgePositions edge 0xff 0 s) : 1 ≤ q := by
  cases s with
  | nil => simp [edgePositions] at hq
  | cons b rest =>
    simp only [edgePositions, hstart b, Bool.false_eq_true, if_false] at hq
    exact (edgePositions_bounds edge rest _ _ _ hq).1

theorem stepAt_no_edge (p : Int) (b : Sample) (st : TrackState)
    (h1 : indexEdge st.prev_byte b = false) (h2 : dataEdge st.prev_byte b = false) :
    stepAt p b st = { st with prev_byte := b } := by
  unfold stepAt
  simp only [h1, h2, Bool.false_eq_true, if_false]

theorem captureLoop_cons (c : List Sample) (cs : List (List Sample)) (st : TrackState) :
    captureLoop (c :: cs) st =
      if 0 < c.length ∧ st.index_count ≤ MAX_REVOLUTIONS then
        captureLoop cs { forLoop c 0 st with
          total_rd := (forLoop c 0 st).total_rd + (c.length : Int) }
      else st := rfl

theorem captureState_single (out : File) (track_num track_side : Nat) (b : Sample) :
    captureState out track_num track_side [[b]]
      = { trackInit out track_num track_side with prev_byte := b, total_rd := 1 } := by
  have hcnt : (trackInit out track_num track_side).index_count ≤ MAX_REVOLUTIONS :=
    Nat.zero_le _
  have hstep := stepAt_no_edge
    ((trackInit out track_num track_side).total_rd + ((0 : Nat) : Int)) b
    (trackInit out track_num track_side) (no_edge_at_start b).1 (no_edge_at_start b).2
  unfold captureState
  rw [captureLoop_cons, if_pos ⟨Nat.zero_lt_one, hcnt⟩, forLoop_cons, if_pos hcnt, hstep]
  rfl

theorem lastTime_cases (ps : List Nat) (h : ∀ q ∈ ps, 1 ≤ q) :
    (ps = [] ∧ lastTime ps = -1) ∨ (ps ≠ [] ∧ 2 ≤ lastTime ps) := by
  unfold lastTime
  cases hl : ps.getLast? with
  | none => exact Or.inl ⟨List.getLast?_eq_none_iff.mp hl, rfl⟩
  | some q =>
    have hm := h q (List.mem_of_mem_getLast? hl)
    refine Or.inr ⟨?_, ?_⟩
    · intro hn; rw [hn] at hl; simp at hl
    · simp only
      omega

/-- C14. The very first sample of a track produces no edges: `prev_byte` starts as `0xff`, on
which neither the index-edge test nor the data-edge test fires whatever the sample, so the
first sample changes `prev_byte` only (and is counted in `total_rd`), position 0 is never an
index or data position, every recorded index time is at least 2, and `last_transition_time`
is -1 as long as no transition was seen and at least 2 afterwards. -/
theorem first_sample_no_edge (out : File) (track_num track_side : Nat)
    (input : List (List Sample)) :
    (trackInit out track_num track_side).prev_byte = 0xff
    ∧ (∀ b : Sample, indexEdge 0xff b = false ∧ dataEdge 0xff b = false)
    ∧ (∀ b : Sample, ∃ n : Int, captureState out track_num track_side [[b]]
        = { trackInit out track_num track_side with prev_byte := b, total_rd := n })
    ∧ (0 ∉ indexPositions (streamOf input) ∧ 0 ∉ dataPositions (streamOf input))
    ∧ (∀ i, i < (captureState out track_num track_side input).index_count →
        2 ≤ (captureState out track_num track_side input).index_times.getD i 0)
    ∧ (((captureState out track_num track_side input).num_transitions = 0
          ∧ (captureState out track_num track_side input).last_transition_time = -1)
        ∨ (1 ≤ (captureState out track_num track_side input).num_transitions
          ∧ 2 ≤ (captureState out track_num track_side input).last_transition_time)) := by
  have hc := captured_captureState out track_num track_side input
  have hi := edgePositions_start_pos indexEdge (fun b => (no_edge_at_start b).1)
  have hd := edgePositions_start_pos dataEdge (fun b => (no_edge_at_start b).2)
  refine ⟨rfl, no_edge_at_start, ?_, ⟨?_, ?_⟩, ?_, ?_⟩
  · intro b
    exact ⟨1, captureState_single out track_num track_side b⟩
  · intro h
    have := hi _ _ h
    omega
  · intro h
    have := hd _ _ h
    omega
  · intro i hi'
    rw [hc.count] at hi'
    rw [hc.times i hi']
    have h1 : 1 ≤ (indexPositions (processed (streamOf input))).getD i 0 :=
      hi _ _ (getD_mem _ _ hi')
    omega
  · rw [hc.num, hc.last]
    rcases lastTime_cases (dataPositions (processed (streamOf input))) (fun q hq => hd _ _ hq)
      with ⟨h1, h2⟩ | ⟨h1, h2⟩
    · left
      rw [h1] at h2 ⊢
      exact ⟨rfl, h2⟩
    · right
      refine ⟨?_, h2⟩
      have : 0 < (dataPositions (processed (streamOf input))).length :=
        List.length_pos.mpr h1
      omega

/-- Witness of C14: the index edge of the stream `2, 0` is recorded with the time 2. -/
theorem first_sample_no_edge_witness :
    2 ≤ (captureState headerFile 0 0 [[2, 0]]).index_times.getD 0 0 :=
  (first_sample_no_edge headerFile 0 0 [[2, 0]]).2.2.2.2.1 0 (by decide)

/-! ## Samples with unused bits set -/

set_option maxRecDepth 100000 in
theorem invalid_masks : ∀ x : Sample, x.val &&& UNUSED_MASK ≠ 0 →
    (x.val &&& (INDEX_MASK ||| UNUSED_MASK) ≠ INDEX_MASK
      ∧ x.val &&& (INDEX_MASK ||| UNUSED_MASK) ≠ 0
      ∧ x.val &&& (DATA_MASK ||| UNUSED_MASK) ≠ DATA_MASK
      ∧ x.val &&& (DATA_MASK ||| UNUSED_MASK) ≠ 0) := by
  decide

theorem no_edge_of_invalid (prev cur : Sample)
    (h : prev.val &&& UNUSED_MASK ≠ 0 ∨ cur.val &&& UNUSED_MASK ≠ 0) :
    indexEdge prev cur = false ∧ dataEdge prev cur = false := by
  unfold indexEdge dataEdge
  rcases h with h | h
  · obtain ⟨h1, -, h3, -⟩ := invalid_masks prev h
    simp [h1, h3]
  · obtain ⟨-, h2, -, h4⟩ := invalid_masks cur h
    simp [h2, h4]

theorem getLast?_getD_eq (s : List Sample) (prev : Sample) (hs : s ≠ []) :
    s[s.length - 1]? = some (s.getLast?.getD prev) := by
  rw [List.getLast?_eq_getElem?]
  have hlt : s.length - 1 < s.length := Nat.sub_lt (List.length_pos.mpr hs) Nat.one_pos
  rw [List.getElem?_eq_getElem hlt]
  rfl

/-- An edge position of a stream is a position at which the test holds between the sample
and its predecessor. -/
theorem mem_edgePositions (edge : Sample → Sample → Bool) (prev : Sample) (s : List Sample) :
    ∀ q, q ∈ edgePositions edge prev 0 s →
      ∃ a cur, s[q]? = some cur ∧ (q = 0 ∨ s[q - 1]? = some a) ∧ edge a cur = true := by
  induction s using List.reverseRecOn with
  | nil => intro q hq; simp [edgePositions] at hq
  | append_singleton s b ih =>
    intro q hq
    rw [edgePositions_snoc, List.mem_append] at hq
    rcases hq with hq | hq
    · obtain ⟨a, cur, h1, h2, h3⟩ := ih q hq
      have hlt := (edgePositions_bounds edge s _ _ _ hq).2
      refine ⟨a, cur, ?_, ?_, h3⟩
      · rw [List.getElem?_append_left (by omega)]; exact h1
      · rcases h2 with h2 | h2
        · exact Or.inl h2
        · right
          rw [List.getElem?_append_left (by omega)]; exact h2
    · by_cases he : edge (s.getLast?.getD prev) b = true
      · rw [if_pos he, List.mem_singleton, Nat.zero_add] at hq
        subst hq
        refine ⟨s.getLast?.getD prev, b, ?_, ?_, he⟩
        · rw [List.getElem?_append_right (le_refl _)]
          simp
        · by_cases hs : s = []
          · left; rw [hs]; rfl
          · right
            rw [List.getElem?_append_left (Nat.sub_lt (List.length_pos.mpr hs) Nat.one_pos)]
            exact getLast?_getD_eq s prev hs
      · rw [if_neg he] at hq
        simp at hq

theorem not_mem_edgePositions_of_invalid (edge : Sample → Sample → Bool)
    (hedge : ∀ a cur : Sample, (a.val &&& UNUSED_MASK ≠ 0 ∨ cur.val &&& UNUSED_MASK ≠ 0) →
      edge a cur = false)
    (s : List Sample) (p : Nat) (b : Sample) (hb : s[p]? = some b)
    (hinv : b.val &&& UNUSED_MASK ≠ 0) :
    p ∉ edgePositions edge 0xff 0 s ∧ (p + 1) ∉ edgePositions edge 0xff 0 s := by
  refine ⟨?_, ?_⟩
  · intro hmem
    obtain ⟨a, cur, h1, -, h3⟩ := mem_edgePositions edge 0xff s p hmem
    rw [hb] at h1
    cases h1
    rw [hedge a b (Or.inr hinv)] at h3
    cases h3
  · intro hmem
    obtain ⟨a, cur, -, h2, h3⟩ := mem_edgePositions edge 0xff s (p + 1) hmem
    rcases h2 with h2 | h2
    · omega
    · rw [Nat.add_sub_cancel, hb] at h2
      cases h2
      rw [hedge b cur (Or.inl hinv)] at h3
      cases h3

/-- C15. When at least one of two consecutive samples `prev`, `cur` has a bit of `0xFC` set,
`acquire_track` fires neither the index edge nor the data edge at `cur`, whatever the bits 0
and 1; so a sample with such a bit is not an index or data position of the stream, and
neither is the position after it. -/
theorem out_of_mask_tolerance :
    (∀ prev cur : Sample,
        (prev.val &&& UNUSED_MASK ≠ 0 ∨ cur.val &&& UNUSED_MASK ≠ 0) →
        indexEdge prev cur = false ∧ dataEdge prev cur = false)
    ∧ (∀ (s : List Sample) (p : Nat) (b : Sample), s[p]? = some b → b.val &&& UNUSED_MASK ≠ 0 →
        p ∉ indexPositions s ∧ (p + 1) ∉ indexPositions s
          ∧ p ∉ dataPositions s ∧ (p + 1) ∉ dataPositions s) := by
  refine ⟨no_edge_of_invalid, ?_⟩
  intro s p b hb hinv
  obtain ⟨h1, h2⟩ := not_mem_edgePositions_of_invalid indexEdge
    (fun a cur h => (no_edge_of_invalid a cur h).1) s p b hb hinv
  obtain ⟨h3, h4⟩ := not_mem_edgePositions_of_invalid dataEdge
    (fun a cur h => (no_edge_of_invalid a cur h).2) s p b hb hinv
  exact ⟨h1, h2, h3, h4⟩

/-- Witness of C15: between the samples 3 and 4, and between 7 and 0, no edge fires; in the
stream `3, 7, 0` the sample 7 suppresses the edges at the positions 1 and 2. -/
theorem out_of_mask_tolerance_witness :
    (indexEdge 3 4 = false ∧ dataEdge 3 4 = false)
    ∧ (indexEdge 7 0 = false ∧ dataEdge 7 0 = false)
    ∧ (1 ∉ indexPositions [3, 7, 0] ∧ (1 + 1) ∉ indexPositions [3, 7, 0]
        ∧ 1 ∉ dataPositions [3, 7, 0] ∧ (1 + 1) ∉ dataPositions [3, 7, 0]) :=
  ⟨out_of_mask_tolerance.1 3 4 (Or.inr (by decide)),
   out_of_mask_tolerance.1 7 0 (Or.inl (by decide)),
   out_of_mask_tolerance.2 [3, 7, 0] 1 7 (by decide) (by decide)⟩

/-! ## The frame of the header patch -/

theorem take_patched (d p : List Nat) (k : Nat) (hk : k ≤ d.length) :
    (d.take k ++ p ++ d.drop (k + p.length)).take k = d.take k := by
  rw [List.append_assoc]
  exact List.take_left' (by rw [List.length_take]; omega)

theorem drop_patched_after (d p : List Nat) (k m : Nat) (hk : k + p.length ≤ d.length)
    (hm : k + p.length ≤ m) :
    (d.take k ++ p ++ d.drop (k + p.length)).drop m = d.drop m := by
  have h1 : (d.take k ++ p).length = k + p.length := by
    rw [List.length_append, List.length_take]; omega
  have h2 : m = (d.take k ++ p).length + (m - (k + p.length)) := by rw [h1]; omega
  rw [h2, List.drop_append, List.drop_drop, h1]

/-- C16. The header-patching step at the end of `acquire_track` is one write of
`12 * (index_count - 1)` bytes (none for `index_count <= 1`), at most 60, at offset
`offset_track_header + 4`, so inside `[offset_track_header + 4, offset_track_header + 64)`.
It leaves the length of the file and all bytes below `offset_track_header + 4` and from
`offset_track_header + 64` on as they are after the capture loop; on a file that holds the
680-byte header these are the file header, the directory, the earlier tracks, the magic
`'T','R','K'` with the track id, and the duration cells of this track. -/
theorem backpatch_frame (out : File) (track_num track_side : Nat) (input : List (List Sample)) :
    (headerPatch (captureState out track_num track_side input)).length
        = 12 * ((captureState out track_num track_side input).index_count - 1)
    ∧ (headerPatch (captureState out track_num track_side input)).length ≤ 60
    ∧ (acquire_track out track_num track_side input).data
        = (captureState out track_num track_side input).out.data.take (out.data.length + 4)
          ++ headerPatch (captureState out track_num track_side input)
          ++ (captureState out track_num track_side input).out.data.drop
              (out.data.length + 4
                + (headerPatch (captureState out track_num track_side input)).length)
    ∧ (acquire_track out track_num track_side input).data.length
        = (captureState out track_num track_side input).out.data.length
    ∧ (acquire_track out track_num track_side input).data.take (out.data.length + 4)
        = (captureState out track_num track_side input).out.data.take (out.data.length + 4)
    ∧ (acquire_track out track_num track_side input).data.drop (out.data.length + 64)
        = (captureState out track_num track_side input).out.data.drop (out.data.length + 64)
    ∧ (track_num ≤ 82 → track_side ≤ 1 → 680 ≤ out.data.length →
        (captureState out track_num track_side input).out.data.take out.data.length
            = withDirectoryEntry out track_num track_side
        ∧ (withDirectoryEntry out track_num track_side).length = out.data.length
        ∧ ((captureState out track_num track_side input).out.data.drop out.data.length).take 4
            = [84, 82, 75, 2 * track_num + track_side]
        ∧ (captureState out track_num track_side input).out.data.drop (out.data.length + 64)
            = emittedCells out track_num track_side input) := by
  obtain ⟨hdata, hlen⟩ := acquire_track_patched out track_num track_side input
  have hple := headerPatch_le out track_num track_side input
  have hplen := headerPatch_length (captureState out track_num track_side input)
  have hd := captureState_data out track_num track_side input
  have hem := emittedCells_eq out track_num track_side input
  generalize captureState out track_num track_side input = st at *
  refine ⟨hplen, hple, hdata, ?_, ?_, ?_, ?_⟩
  · rw [hdata]
    simp only [List.length_append, List.length_take, List.length_drop]
    omega
  · rw [hdata]
    exact take_patched _ _ _ (by omega)
  · rw [hdata]
    exact drop_patched_after _ _ _ _ (by omega) (by omega)
  · intro hc hs hout
    have hslot : 16 + 4 * (2 * track_num + track_side) + 4 ≤ out.data.length := by omega
    have hid : (2 * track_num + track_side) % 256 = 2 * track_num + track_side :=
      Nat.mod_eq_of_lt (by omega)
    have hL := withDirectoryEntry_length out track_num track_side hslot
    rw [hd, hem]
    refine ⟨?_, hL, ?_, ?_⟩
    · rw [List.append_assoc]
      exact List.take_left' hL
    · rw [List.append_assoc, List.drop_left' hL, trackStub, hid]
      rfl
    · apply List.drop_left'
      rw [List.length_append, trackStub_length, hL]

/-- Witness of C16: a track with two index edges, so that one record is patched in. -/
theorem backpatch_frame_witness :
    ((captureState headerFile 0 0 [[2, 0, 1, 0, 2, 0]]).out.data.drop
        headerFile.data.length).take 4 = [84, 82, 75, 2 * 0 + 0]
    ∧ (acquire_track headerFile 0 0 [[2, 0, 1, 0, 2, 0]]).data.take (headerFile.data.length + 4)
        = (captureState headerFile 0 0 [[2, 0, 1, 0, 2, 0]]).out.data.take
            (headerFile.data.length + 4) :=
  ⟨((backpatch_frame headerFile 0 0 [[2, 0, 1, 0, 2, 0]]).2.2.2.2.2.2 (by decide) (by decide)
      (by rw [headerFile_data, fileHeader_length])).2.2.1,
   (backpatch_frame headerFile 0 0 [[2, 0, 1, 0, 2, 0]]).2.2.2.2.1⟩

/-! ## The track loop of `main` -/

theorem acquireAll_cons (c : TrackCall) (calls : List TrackCall) (out : File) :
    acquireAll (c :: calls) out
      = acquireAll calls (acquire_track out c.cylinder c.side c.input) := rfl

theorem trackLoop_eq (input : Nat → Nat → List (List Sample)) (n : Nat) :
    ∀ (track : Nat) (out : File),
      trackLoop input n track out
        = acquireAll ((List.range' (2 * track) (2 * n)).map
            (fun id => (⟨id / 2, id % 2, input (id / 2) (id % 2)⟩ : TrackCall))) out := by
  induction n with
  | zero => intro track out; rfl
  | succ n ih =>
    intro track out
    have h2 : 2 * (n + 1) = 2 * n + 1 + 1 := by omega
    have e0 : 2 * track / 2 = track := by omega
    have e1 : 2 * track % 2 = 0 := by omega
    have e2 : (2 * track + 1) / 2 = track := by omega
    have e3 : (2 * track + 1) % 2 = 1 := by omega
    have e4 : 2 * track + 1 + 1 = 2 * (track + 1) := by omega
    rw [h2, List.range'_succ, List.range'_succ, List.map_cons, List.map_cons, acquireAll_cons,
      acquireAll_cons]
    simp only [e0, e1, e2, e3, e4]
    rw [← ih (track + 1)]
    rfl

theorem mainFile_eq (input : Nat → Nat → List (List Sample)) :
    mainFile input = acquireAll (trackCalls input 166) headerFile := by
  unfold mainFile trackCalls
  rw [trackLoop_eq, List.range_eq_range']

theorem trackCalls_succ (input : Nat → Nat → List (List Sample)) (m : Nat) :
    trackCalls input (m + 1)
      = trackCalls input m ++ [⟨m / 2, m % 2, input (m / 2) (m % 2)⟩] := by
  unfold trackCalls
  rw [List.range_succ, List.map_append, List.map_singleton]

theorem trackCalls_length (input : Nat → Nat → List (List Sample)) (m : Nat) :
    (trackCalls input m).length = m := by
  unfold trackCalls
  rw [List.length_map, List.length_range]

theorem trackCalls_ids (input : Nat → Nat → List (List Sample)) (m : Nat) :
    (trackCalls input m).map trackId = List.range m := by
  unfold trackCalls
  rw [List.map_map]
  have h : ∀ j ∈ List.range m,
      (trackId ∘ fun j => (⟨j / 2, j % 2, input (j / 2) (j % 2)⟩ : TrackCall)) j = id j := by
    intro j _
    show 2 * (j / 2) + j % 2 = j
    omega
  rw [List.map_congr_left h, List.map_id]

theorem trackCalls_range (input : Nat → Nat → List (List Sample)) (m : Nat) (hm : m ≤ 166) :
    ∀ c ∈ trackCalls input m, c.cylinder ≤ 82 ∧ c.side ≤ 1 := by
  intro c hc
  rw [trackCalls, List.mem_map] at hc
  obtain ⟨id, hid, rfl⟩ := hc
  rw [List.mem_range] at hid
  simp only
  omega

theorem trackCalls_take (input : Nat → Nat → List (List Sample)) (m k : Nat) (hk : k ≤ m) :
    (trackCalls input m).take k = trackCalls input k := by
  unfold trackCalls
  rw [← List.map_take, List.take_range, Nat.min_eq_left hk]

theorem trackCalls_get (input : Nat → Nat → List (List Sample)) (m k : Nat)
    (hk : k < (trackCalls input m).length) :
    (trackCalls input m).get ⟨k, hk⟩ = ⟨k / 2, k % 2, input (k / 2) (k % 2)⟩ := by
  simp only [trackCalls, List.get_eq_getElem, List.getElem_map, List.getElem_range]

theorem trackOffset_ge (input : Nat → Nat → List (List Sample)) (k : Nat) (hk : k ≤ 166) :
    680 ≤ trackOffset input k :=
  (directory_after (trackCalls input k) (trackCalls_range input k hk)
    (by rw [trackCalls_ids]; exact List.nodup_range k)).1

theorem trackOffset_zero (input : Nat → Nat → List (List Sample)) : trackOffset input 0 = 680 := by
  show headerFile.data.length = 680
  rw [headerFile_data, fileHeader_length]

theorem trackOffset_succ (input : Nat → Nat → List (List Sample)) (k : Nat) (hk : k < 166) :
    trackOffset input (k + 1)
      = trackOffset input k + 64
          + (cellStream (transitionDeltas (streamOf (input (k / 2) (k % 2))))).length := by
  have hge := trackOffset_ge input k (by omega)
  unfold trackOffset at hge ⊢
  rw [trackCalls_succ, acquireAll_snoc]
  simp only
  rw [acquire_track_length _ _ _ _ (by omega)]

theorem trackOffset_lt_succ (input : Nat → Nat → List (List Sample)) (k : Nat) (hk : k < 166) :
    trackOffset input k < trackOffset input (k + 1) := by
  rw [trackOffset_succ input k hk]
  omega

theorem trackOffset_strictMono (input : Nat → Nat → List (List Sample)) (j k : Nat)
    (hjk : j < k) (hk : k ≤ 166) : trackOffset input j < trackOffset input k := by
  induction k with
  | zero => omega
  | succ k ih =>
    have h1 := trackOffset_lt_succ input k (by omega)
    by_cases hj : j = k
    · rw [hj]; exact h1
    · exact lt_trans (ih (by omega) (by omega)) h1

/-- The directory slot of track id `k`, and the place where the track begins, when `main` has
made its first `m` calls. -/
theorem main_slots (input : Nat → Nat → List (List Sample)) (m k : Nat) (hm : m ≤ 166)
    (hk : k < 166) :
    (((acquireAll (trackCalls input m) headerFile).data.drop (16 + 4 * k)).take 4
        = if k < m then offsetBytes (trackOffset input k) else [0, 0, 0, 0])
    ∧ (k < m →
        ((acquireAll (trackCalls input m) headerFile).data.drop (trackOffset input k)).take 3
          = [84, 82, 75]) := by
  obtain ⟨-, h2, h3⟩ := directory_after (trackCalls input m) (trackCalls_range input m hm)
    (by rw [trackCalls_ids]; exact List.nodup_range m)
  by_cases hkm : k < m
  · have hk' : k < (trackCalls input m).length := by rw [trackCalls_length]; exact hkm
    obtain ⟨i1, i2, -, -⟩ := h2 k hk'
    rw [trackCalls_get, trackCalls_take input m k (by omega)] at i1
    rw [trackCalls_take input m k (by omega)] at i2
    have hid : trackId (⟨k / 2, k % 2, input (k / 2) (k % 2)⟩ : TrackCall) = k := by
      show 2 * (k / 2) + k % 2 = k
      omega
    rw [hid] at i1
    rw [if_pos hkm]
    exact ⟨i1, fun _ => i2⟩
  · rw [if_neg hkm]
    refine ⟨h3 k hk ?_, fun h => absurd h hkm⟩
    rw [trackCalls_ids, List.mem_range]
    exact hkm

theorem main_slot_decode (input : Nat → Nat → List (List Sample)) (k : Nat) (hk : k < 166) :
    leDecode (((mainFile input).data.drop (16 + 4 * k)).take 4) = trackOffset input k % 2 ^ 32 := by
  rw [mainFile_eq, (main_slots input 166 k (le_refl _) hk).1, if_pos hk, leDecode_offsetBytes]

theorem squareWave_trackOffset (k : Nat) (hk : k ≤ 128) :
    trackOffset (fun _ _ => squareWaveInput) k = 680 + k * 33554494 :=
  squareWave_file_length k hk

/-- C17, counterexample.  When the capture device delivers `CAPTURE_SIZE` samples of a square
wave for every track, track id 127 begins at file offset 4261421418 and track id 128 at
4294975912, and the directory slots of the two hold 4261421418 and 8616: the offsets in the
directory are not increasing from track id 127 to 128. -/
theorem track_layout_counterexample :
    (streamOf squareWaveInput).length = CAPTURE_SIZE
    ∧ trackOffset (fun _ _ => squareWaveInput) 127 = 4261421418
    ∧ trackOffset (fun _ _ => squareWaveInput) 128 = 4294975912
    ∧ leDecode (((mainFile (fun _ _ => squareWaveInput)).data.drop (16 + 4 * 127)).take 4)
        = 4261421418
    ∧ leDecode (((mainFile (fun _ _ => squareWaveInput)).data.drop (16 + 4 * 128)).take 4)
        = 8616 := by
  have h127 := squareWave_trackOffset 127 (by omega)
  have h128 := squareWave_trackOffset 128 (by omega)
  refine ⟨?_, h127, h128, ?_, ?_⟩
  · rw [streamOf_squareWaveInput, squareWave_length]
    rfl
  · rw [main_slot_decode _ 127 (by omega), h127]
    norm_num
  · rw [main_slot_decode _ 128 (by omega), h128]
    norm_num

/-- C17, amended.  `main` acquires every track id 0, 1, ..., 165 exactly once in ascending
order (cylinder 0..82, side 0 then 1).  The first track's stub begins at file offset 680, and
each later track's stub begins at the previous track's offset + 64 + the previous track's
cell-byte count, so the offsets of the tracks are strictly increasing in track id.  Each
directory slot is zero until the call for its track and holds that track's offset, reduced
modulo `2^32`, from then on; so the offsets in the directory are strictly increasing in track
id as far as the tracks begin below `2^32`. -/
theorem track_layout (input : Nat → Nat → List (List Sample)) :
    mainFile input = acquireAll (trackCalls input 166) headerFile
    ∧ (trackCalls input 166).map (fun c => (c.cylinder, c.side))
        = (List.range 166).map (fun id => (id / 2, id % 2))
    ∧ (trackCalls input 166).map trackId = List.range 166
    ∧ trackOffset input 0 = 680
    ∧ (∀ k, k < 166 →
        trackOffset input (k + 1)
          = trackOffset input k + 64
              + (emittedCells (acquireAll (trackCalls input k) headerFile) (k / 2) (k % 2)
                  (input (k / 2) (k % 2))).length)
    ∧ (∀ j k, j < k → k ≤ 166 → trackOffset input j < trackOffset input k)
    ∧ (∀ k, k < 166 →
        ((mainFile input).data.drop (trackOffset input k)).take 3 = [84, 82, 75])
    ∧ (∀ m k, m ≤ 166 → k < 166 →
        ((acquireAll (trackCalls input m) headerFile).data.drop (16 + 4 * k)).take 4
          = if k < m then offsetBytes (trackOffset input k) else [0, 0, 0, 0])
    ∧ (∀ k, k < 166 →
        leDecode (((mainFile input).data.drop (16 + 4 * k)).take 4)
          = trackOffset input k % 2 ^ 32)
    ∧ (∀ j k, j < k → k < 166 → trackOffset input k < 2 ^ 32 →
        leDecode (((mainFile input).data.drop (16 + 4 * j)).take 4)
          < leDecode (((mainFile input).data.drop (16 + 4 * k)).take 4)) := by
  refine ⟨mainFile_eq input, ?_, trackCalls_ids input 166, trackOffset_zero input, ?_,
    trackOffset_strictMono input, ?_, ?_, main_slot_decode input, ?_⟩
  · unfold trackCalls
    rw [List.map_map]
    rfl
  · intro k hk
    rw [emittedCells_eq]
    exact trackOffset_succ input k hk
  · intro k hk
    rw [mainFile_eq]
    exact (main_slots input 166 k (le_refl _) hk).2 hk
  · intro m k hm hk
    exact (main_slots input m k hm hk).1
  · intro j k hjk hk hlt
    have hmono := trackOffset_strictMono input j k hjk (by omega)
    rw [main_slot_decode input j (by omega), main_slot_decode input k hk,
      Nat.mod_eq_of_lt hlt, Nat.mod_eq_of_lt (by omega)]
    exact hmono

/-- Witness of C17 (amended): a capture device that delivers the samples `1, 0, 1, 0` for
every track. -/
theorem track_layout_witness :
    trackOffset (fun _ _ => [[1, 0, 1, 0]]) (0 + 1)
      = trackOffset (fun _ _ => [[1, 0, 1, 0]]) 0 + 64
          + (emittedCells (acquireAll (trackCalls (fun _ _ => [[1, 0, 1, 0]]) 0) headerFile)
              (0 / 2) (0 % 2) [[1, 0, 1, 0]]).length :=
  (track_layout (fun _ _ => [[1, 0, 1, 0]])).2.2.2.2.1 0 (by decide)

/-! ## The histogram and its labels -/

theorem twoMicrosecond_histo :
    transitionDeltas (streamOf twoMicrosecondInput) = [80]
    ∧ (captureState headerFile 0 0 twoMicrosecondInput).histo
        = [0, 0, 1, 0, 0, 0, 0, 0, 0, 0, 0, 0, 0, 0, 0, 0] := by
  decide

set_option maxRecDepth 100000 in
theorem fifteenMicrosecond_histo :
    transitionDeltas (streamOf fifteenMicrosecondInput) = [600]
    ∧ (captureState headerFile 0 0 fifteenMicrosecondInput).histo
        = [0, 0, 0, 0, 0, 0, 0, 0, 0, 0, 0, 0, 0, 0, 0, 1] := by
  decide

theorem histogramLines_label (histo : List Int) (i : Nat) (hi : i < 15) :
    (histogramLines histo)[i]? = some ("~" ++ toString (i + 1) ++ "us", histo.getD i 0) := by
  unfold histogramLines
  rw [List.getElem?_append_left (by rw [List.length_map, List.length_range]; exact hi),
    List.getElem?_map, List.getElem?_range hi]
  rfl

/-- C18, the code at two inputs.  An interval of 80 time units has `usecs = 2`; it is counted
in `histo[2]`, which line 177 prints under the label `~3us`, while the bin printed as `~2us`
stays empty.  An interval of 600 time units has `usecs = 15`, is not longer than 15
microseconds, and is counted in the bin printed as `>15us`. -/
theorem histogram_label_mismatch :
    (transitionDeltas (streamOf twoMicrosecondInput) = [80] ∧ usecsOf 80 = 2
      ∧ histogramLines (captureState headerFile 0 0 twoMicrosecondInput).histo
        = [("~1us", 0), ("~2us", 0), ("~3us", 1), ("~4us", 0), ("~5us", 0), ("~6us", 0),
           ("~7us", 0), ("~8us", 0), ("~9us", 0), ("~10us", 0), ("~11us", 0), ("~12us", 0),
           ("~13us", 0), ("~14us", 0), ("~15us", 0), (">15us", 0)])
    ∧ (transitionDeltas (streamOf fifteenMicrosecondInput) = [600] ∧ usecsOf 600 = 15
      ∧ 600 * 25 ≤ 15 * 1000
      ∧ histogramLines (captureState headerFile 0 0 fifteenMicrosecondInput).histo
        = [("~1us", 0), ("~2us", 0), ("~3us", 0), ("~4us", 0), ("~5us", 0), ("~6us", 0),
           ("~7us", 0), ("~8us", 0), ("~9us", 0), ("~10us", 0), ("~11us", 0), ("~12us", 0),
           ("~13us", 0), ("~14us", 0), ("~15us", 0), (">15us", 1)]) := by
  refine ⟨⟨twoMicrosecond_histo.1, by decide, ?_⟩,
    ⟨fifteenMicrosecond_histo.1, by decide, by decide, ?_⟩⟩
  · rw [twoMicrosecond_histo.2]
    decide
  · rw [fifteenMicrosecond_histo.2]
    decide

/-! ## Chunk boundaries -/

theorem forLoop_total_rd (c : List Sample) (i : Nat) (st : TrackState) :
    (forLoop c i st).total_rd = st.total_rd := by
  rw [forLoop_eq_runAt, runAt_total_rd]

/-- The read counter after the capture loop: it has advanced by whole chunks, by no more than
the stream, and by the whole stream when the loop did not end at the sixth index edge. -/
theorem captureLoop_total_rd (cs : List (List Sample)) :
    ∀ st : TrackState,
      st.total_rd ≤ (captureLoop cs st).total_rd
      ∧ (captureLoop cs st).total_rd ≤ st.total_rd + ((streamOf cs).length : Int)
      ∧ ((captureLoop cs st).index_count ≤ MAX_REVOLUTIONS →
          (captureLoop cs st).total_rd = st.total_rd + ((streamOf cs).length : Int)) := by
  induction cs with
  | nil => intro st; exact ⟨le_refl _, by simp [captureLoop, streamOf], fun _ => by simp [captureLoop, streamOf]⟩
  | cons c cs ih =>
    intro st
    rw [captureLoop_cons]
    by_cases hc : 0 < c.length
    · by_cases h : st.index_count ≤ MAX_REVOLUTIONS
      · rw [if_pos ⟨hc, h⟩, streamOf_cons_nonempty c cs hc, List.length_append]
        obtain ⟨i1, i2, i3⟩ := ih { forLoop c 0 st with
          total_rd := (forLoop c 0 st).total_rd + (c.length : Int) }
        simp only [forLoop_total_rd] at i1 i2 i3 ⊢
        push_cast
        refine ⟨by omega, by omega, fun hle => ?_⟩
        have := i3 hle
        omega
      · rw [if_neg (fun hh => h hh.2)]
        exact ⟨le_refl _, by omega, fun hle => absurd hle h⟩
    · rw [if_neg (fun hh => hc hh.1), streamOf_cons_empty c cs hc]
      exact ⟨le_refl _, by simp, fun _ => by simp⟩

theorem captureState_total_rd (out : File) (track_num track_side : Nat)
    (input : List (List Sample)) :
    0 ≤ (captureState out track_num track_side input).total_rd
    ∧ (captureState out track_num track_side input).total_rd ≤ ((streamOf input).length : Int)
    ∧ ((captureState out track_num track_side input).index_count ≤ MAX_REVOLUTIONS →
        (captureState out track_num track_side input).total_rd
          = ((streamOf input).length : Int)) := by
  obtain ⟨h1, h2, h3⟩ := captureLoop_total_rd input (trackInit out track_num track_side)
  have h0 : (trackInit out track_num track_side).total_rd = 0 := rfl
  rw [h0] at h1 h2 h3
  unfold captureState
  refine ⟨h1, by omega, fun hle => ?_⟩
  have := h3 hle
  omega

/-- C19. For every stream and every two ways of splitting it into non-empty read chunks,
`acquire_track` leaves the same file, and the capture loop the same file, counters, index
arrays, histogram and `prev_byte`: the chunked loop is one run of the loop body over the
concatenated stream.  The read counter `total_rd` is the same as well, namely the length of
the stream, unless the loop ended at the sixth index edge, where `total_rd` counts the whole
chunk in which it ended. -/
theorem chunk_invariance (out : File) (track_num track_side : Nat)
    (input input' : List (List Sample))
    (h1 : ∀ c ∈ input, 0 < c.length) (h2 : ∀ c ∈ input', 0 < c.length)
    (hflat : input'.flatten = input.flatten) :
    acquire_track out track_num track_side input' = acquire_track out track_num track_side input
    ∧ (captureState out track_num track_side input').out
        = (captureState out track_num track_side input).out
    ∧ (captureState out track_num track_side input').index_count
        = (captureState out track_num track_side input).index_count
    ∧ (captureState out track_num track_side input').num_transitions
        = (captureState out track_num track_side input).num_transitions
    ∧ (captureState out track_num track_side input').total_w
        = (captureState out track_num track_side input).total_w
    ∧ (captureState out track_num track_side input').last_transition_time
        = (captureState out track_num track_side input).last_transition_time
    ∧ (captureState out track_num track_side input').index_times
        = (captureState out track_num track_side input).index_times
    ∧ (captureState out track_num track_side input').index_offsets
        = (captureState out track_num track_side input).index_offsets
    ∧ (captureState out track_num track_side input').index_transitions
        = (captureState out track_num track_side input).index_transitions
    ∧ (captureState out track_num track_side input').histo
        = (captureState out track_num track_side input).histo
    ∧ (captureState out track_num track_side input').prev_byte
        = (captureState out track_num track_side input).prev_byte
    ∧ (∃ n : Int, captureState out track_num track_side input
        = { runAt input.flatten 0 (trackInit out track_num track_side) with total_rd := n })
    ∧ ((captureState out track_num track_side input).index_count ≤ MAX_REVOLUTIONS →
        (captureState out track_num track_side input').total_rd
            = (captureState out track_num track_side input).total_rd
          ∧ (captureState out track_num track_side input).total_rd
            = (input.flatten.length : Int)) := by
  have hs : streamOf input = input.flatten := streamOf_of_nonempty input h1
  have hs' : streamOf input' = input.flatten := by
    rw [streamOf_of_nonempty input' h2, hflat]
  have hp : processed (streamOf input') = processed (streamOf input) := by rw [hs, hs']
  obtain ⟨n, hn⟩ := captureState_processed out track_num track_side input input' hp
  have hacq := acquire_track_with_total_rd out track_num track_side input input' n hn
  obtain ⟨-, -, t3⟩ := captureState_total_rd out track_num track_side input
  obtain ⟨-, -, t3'⟩ := captureState_total_rd out track_num track_side input'
  have hcnt : (captureState out track_num track_side input').index_count
      = (captureState out track_num track_side input).index_count := by rw [hn]
  refine ⟨hacq, by rw [hn], hcnt, by rw [hn], by rw [hn], by rw [hn], by rw [hn], by rw [hn],
    by rw [hn], by rw [hn], by rw [hn], ?_, ?_⟩
  · obtain ⟨m, hm⟩ := captureLoop_eq_runAt input (trackInit out track_num track_side)
    refine ⟨m, ?_⟩
    rw [← hs]
    exact hm
  · intro hle
    have e1 := t3 hle
    have e2 := t3' (by rw [hcnt]; exact hle)
    rw [hs] at e1
    rw [hs'] at e2
    exact ⟨by rw [e1, e2], e1⟩

/-- Witness of C19: the stream `2, 0, 1, 0, 1, 0` read in chunks of 1, 2 and 3 samples, and
in chunks of 4 and 2 samples. -/
theorem chunk_invariance_witness :
    acquire_track headerFile 0 0 [[2, 0, 1, 0], [1, 0]]
      = acquire_track headerFile 0 0 [[2], [0, 1], [0, 1, 0]] :=
  (chunk_invariance headerFile 0 0 [[2], [0, 1], [0, 1, 0]] [[2, 0, 1, 0], [1, 0]]
    (by decide) (by decide) (by decide)).1

/-! ## Bounds within the capture size -/

theorem edgePositions_length_le (edge : Sample → Sample → Bool) (s : List Sample) :
    ∀ (prev : Sample) (p : Nat), (edgePositions edge prev p s).length ≤ s.length := by
  induction s with
  | nil => intro prev p; exact Nat.le_refl _
  | cons b bs ih =>
    intro prev p
    simp only [edgePositions]
    split
    · rw [List.length_cons, List.length_cons]
      exact Nat.succ_le_succ (ih _ _)
    · rw [List.length_cons]
      exact Nat.le_succ_of_le (ih _ _)

theorem below_length_mono (l : List Nat) (p q : Nat) (h : p ≤ q) :
    (below l p).length ≤ (below l q).length := by
  unfold below
  induction l with
  | nil => exact Nat.le_refl _
  | cons a l ih =>
    simp only [List.filter_cons]
    by_cases h1 : a < p
    · have h2 : a < q := by omega
      simp [h1, h2, ih]
    · by_cases h2 : a < q
      · simp [h1, h2]; omega
      · simp [h1, h2, ih]

theorem below_length_le (l : List Nat) (p : Nat) : (below l p).length ≤ l.length :=
  List.length_filter_le _ _

theorem deltaCells_length_le (d : Int) (hd : 2 ≤ d) :
    (((deltaCells d).length : Nat) : Int) ≤ d := by
  rw [deltaCells_length]
  have hq : 0 ≤ d / 0x10000 := Int.ediv_nonneg (by omega) (by norm_num)
  push_cast
  rw [Int.toNat_of_nonneg hq]
  omega

/-- The cells of transitions at increasing positions take no more bytes than the time from
the first to the last of them. -/
theorem cellStream_deltas_le (rest : List Nat) :
    ∀ a : Nat, List.Pairwise (· < ·) (a :: rest) →
      (((cellStream (deltas (a :: rest))).length : Nat) : Int) + 2 * (a : Int)
        ≤ lastTime (a :: rest) := by
  induction rest with
  | nil =>
    intro a _
    show ((0 : Nat) : Int) + 2 * (a : Int) ≤ 2 * (a : Int)
    omega
  | cons b r ih =>
    intro a hp
    have hab : a < b := (List.pairwise_cons.mp hp).1 b (List.mem_cons_self _ _)
    have hih := ih b (List.pairwise_cons.mp hp).2
    have hl : lastTime (a :: b :: r) = lastTime (b :: r) := by
      unfold lastTime
      rw [List.getLast?_cons_cons]
    have hc : cellStream (deltas (a :: b :: r))
        = deltaCells (2 * (b : Int) - 2 * (a : Int)) ++ cellStream (deltas (b :: r)) := by
      simp [deltas, cellStream]
    have hd := deltaCells_length_le (2 * (b : Int) - 2 * (a : Int)) (by omega)
    rw [hl, hc, List.length_append]
    push_cast
    omega

theorem cellStream_deltas_bound (ps : List Nat) (n : Nat) (hp : List.Pairwise (· < ·) ps)
    (hn : ∀ q ∈ ps, q < n) :
    (((cellStream (deltas ps)).length : Nat) : Int) ≤ 2 * (n : Int) := by
  cases ps with
  | nil => show ((0 : Nat) : Int) ≤ _; omega
  | cons a rest =>
    have h1 := cellStream_deltas_le rest a hp
    have h2 := lastTime_lt (a :: rest) n hn
    omega

theorem processed_length_le (s : List Sample) : (processed s).length ≤ s.length := by
  have h := processed_prefix s
  exact h.length_le

/-- Bounds on the variables of `acquire_track` after a stream. -/
theorem captured_bounds (out0 : File) (v : List Sample) (st : TrackState)
    (hc : Captured out0 v st) :
    (0 ≤ st.total_w ∧ st.total_w ≤ 2 * (v.length : Int))
    ∧ (0 ≤ st.num_transitions ∧ st.num_transitions ≤ (v.length : Int))
    ∧ (-1 ≤ st.last_transition_time ∧ st.last_transition_time < 2 * (v.length : Int))
    ∧ (∀ i, i < st.index_count →
        (0 ≤ st.index_times.getD i 0 ∧ st.index_times.getD i 0 < 2 * (v.length : Int))
        ∧ (0 ≤ st.index_offsets.getD i 0 ∧ st.index_offsets.getD i 0 ≤ 2 * (v.length : Int))
        ∧ (0 ≤ st.index_transitions.getD i 0
            ∧ st.index_transitions.getD i 0 ≤ (v.length : Int)))
    ∧ (∀ i, i + 1 < st.index_count →
        st.index_times.getD i 0 < st.index_times.getD (i + 1) 0
        ∧ st.index_transitions.getD i 0 ≤ st.index_transitions.getD (i + 1) 0) := by
  have hdl : ∀ q ∈ dataPositions v, q < v.length := dataPositions_lt v
  have hw := cellStream_deltas_bound (dataPositions v) v.length
    (edgePositions_pairwise _ _ _ _) hdl
  have hnl : (dataPositions v).length ≤ v.length := edgePositions_length_le _ _ _ _
  have hlt := lastTime_lt (dataPositions v) v.length hdl
  have hipw : List.Pairwise (· < ·) (indexPositions v) := edgePositions_pairwise _ _ _ _
  refine ⟨⟨?_, ?_⟩, ⟨?_, ?_⟩, ?_, ?_, ?_⟩
  · rw [hc.written]; omega
  · rw [hc.written]; exact hw
  · rw [hc.num]; omega
  · rw [hc.num]; omega
  · rw [hc.last]
    refine ⟨?_, hlt⟩
    unfold lastTime
    split <;> omega
  · intro i hi
    rw [hc.count] at hi
    have hp := indexPositions_lt v _ (getD_mem _ _ hi)
    have hoff := hc.offsets_le i hi
    have hbl := below_length_le (dataPositions v) ((indexPositions v).getD i 0)
    rw [hc.times i hi, hc.transitions i hi]
    refine ⟨⟨by omega, by omega⟩, ⟨?_, ?_⟩, ⟨by omega, by omega⟩⟩
    · rw [hc.offsets i hi]; omega
    · rw [hc.written] at hoff; omega
  · intro i hi
    rw [hc.count] at hi
    rw [hc.times i (by omega), hc.times (i + 1) hi, hc.transitions i (by omega),
      hc.transitions (i + 1) hi]
    have hlt2 : (indexPositions v).getD i 0 < (indexPositions v).getD (i + 1) 0 := by
      rw [List.getD_eq_getElem?_getD, List.getD_eq_getElem?_getD,
        List.getElem?_eq_getElem (by omega : i < (indexPositions v).length),
        List.getElem?_eq_getElem hi]
      exact List.pairwise_iff_getElem.mp hipw i (i + 1) (by omega) hi (by omega)
    have hm := below_length_mono (dataPositions v) _ _ (le_of_lt hlt2)
    refine ⟨by omega, by omega⟩

/-- C20. For every stream of at most `CAPTURE_SIZE = 33554432` samples, the `int` values
that `acquire_track` computes lie in `[0, 2^31 - 1]`: after the stream, `total_rd`, `total_w`,
`num_transitions`, the recorded index times, offsets (also with 64 added) and transition
counts, and the duration and transition count of every revolution record
(`last_transition_time` is -1 or in that range); and for the next sample, as long as the
stream with it is within the capture size, the time `(total_rd+i)*TIME_UNITS_PER_SAMPLE` of
the sample and, at a transition with a predecessor, `delta`, which is strictly positive,
`delta*25 + 499`, and the histogram index `min(usecs, 15)`, which lies in `[0, 15]`. -/
theorem no_int_overflow (out : File) (track_num track_side : Nat) (input : List (List Sample))
    (hlen : (streamOf input).length ≤ CAPTURE_SIZE) :
    (0 ≤ (captureState out track_num track_side input).total_rd
      ∧ (captureState out track_num track_side input).total_rd < 2 ^ 31)
    ∧ (0 ≤ (captureState out track_num track_side input).total_w
      ∧ (captureState out track_num track_side input).total_w < 2 ^ 31)
    ∧ (0 ≤ (captureState out track_num track_side input).num_transitions
      ∧ (captureState out track_num track_side input).num_transitions < 2 ^ 31)
    ∧ (-1 ≤ (captureState out track_num track_side input).last_transition_time
      ∧ (captureState out track_num track_side input).last_transition_time < 2 ^ 31)
    ∧ (∀ i, i < (captureState out track_num track_side input).index_count →
        (0 ≤ (captureState out track_num track_side input).index_times.getD i 0
          ∧ (captureState out track_num track_side input).index_times.getD i 0 < 2 ^ 31)
        ∧ (0 ≤ (captureState out track_num track_side input).index_offsets.getD i 0
          ∧ (captureState out track_num track_side input).index_offsets.getD i 0
              + 4 + 12 * (MAX_REVOLUTIONS : Int) < 2 ^ 31)
        ∧ (0 ≤ (captureState out track_num track_side input).index_transitions.getD i 0
          ∧ (captureState out track_num track_side input).index_transitions.getD i 0 < 2 ^ 31))
    ∧ (∀ i, i + 1 < (captureState out track_num track_side input).index_count →
        (0 ≤ (revolutionRecord (captureState out track_num track_side input) i).1
          ∧ (revolutionRecord (captureState out track_num track_side input) i).1 < 2 ^ 31)
        ∧ (0 ≤ (revolutionRecord (captureState out track_num track_side input) i).2.1
          ∧ (revolutionRecord (captureState out track_num track_side input) i).2.1 < 2 ^ 31)
        ∧ (0 ≤ (revolutionRecord (captureState out track_num track_side input) i).2.2
          ∧ (revolutionRecord (captureState out track_num track_side input) i).2.2 < 2 ^ 31))
    ∧ (∀ (input' : List (List Sample)) (b : Sample),
        streamOf input' = streamOf input ++ [b] →
        (streamOf input').length ≤ CAPTURE_SIZE →
        (captureState out track_num track_side input).index_count ≤ MAX_REVOLUTIONS →
        (0 ≤ ((streamOf input).length : Int) * TIME_UNITS_PER_SAMPLE
          ∧ ((streamOf input).length : Int) * TIME_UNITS_PER_SAMPLE < 2 ^ 31)
        ∧ (dataEdge (captureState out track_num track_side input).prev_byte b = true →
            0 ≤ (captureState out track_num track_side input).last_transition_time →
            (0 < ((streamOf input).length : Int) * TIME_UNITS_PER_SAMPLE
                  - (captureState out track_num track_side input).last_transition_time
              ∧ ((streamOf input).length : Int) * TIME_UNITS_PER_SAMPLE
                  - (captureState out track_num track_side input).last_transition_time < 2 ^ 31)
            ∧ (0 ≤ (((streamOf input).length : Int) * TIME_UNITS_PER_SAMPLE
                  - (captureState out track_num track_side input).last_transition_time) * 25 + 499
              ∧ (((streamOf input).length : Int) * TIME_UNITS_PER_SAMPLE
                  - (captureState out track_num track_side input).last_transition_time) * 25 + 499
                  < 2 ^ 31)
            ∧ (0 ≤ (if usecsOf (((streamOf input).length : Int) * TIME_UNITS_PER_SAMPLE
                        - (captureState out track_num track_side input).last_transition_time) < 15
                    then usecsOf (((streamOf input).length : Int) * TIME_UNITS_PER_SAMPLE
                        - (captureState out track_num track_side input).last_transition_time)
                    else 15)
              ∧ (if usecsOf (((streamOf input).length : Int) * TIME_UNITS_PER_SAMPLE
                        - (captureState out track_num track_side input).last_transition_time) < 15
                    then usecsOf (((streamOf input).length : Int) * TIME_UNITS_PER_SAMPLE
                        - (captureState out track_num track_side input).last_transition_time)
                    else 15) ≤ 15)
            ∧ (captureState out track_num track_side input').histo
                = histoBump (captureState out track_num track_side input).histo
                    (usecsOf (((streamOf input).length : Int) * TIME_UNITS_PER_SAMPLE
                      - (captureState out track_num track_side input).last_transition_time)))) := by
  have hc := captured_captureState out track_num track_side input
  obtain ⟨r1, r2, -⟩ := captureState_total_rd out track_num track_side input
  obtain ⟨b1, b2, b3, b4, b5⟩ := captured_bounds _ _ _ hc
  have hpl := processed_length_le (streamOf input)
  have hcap : CAPTURE_SIZE = 33554432 := rfl
  have hmax : (MAX_REVOLUTIONS : Int) = 5 := rfl
  have hL : ((streamOf input).length : Int) ≤ 33554432 := by
    rw [hcap] at hlen; exact_mod_cast hlen
  have hPL : ((processed (streamOf input)).length : Int) ≤ 33554432 := by
    have : ((processed (streamOf input)).length : Int) ≤ ((streamOf input).length : Int) := by
      exact_mod_cast hpl
    omega
  refine ⟨⟨r1, by omega⟩, ⟨b1.1, by omega⟩, ⟨b2.1, by omega⟩, ⟨b3.1, by omega⟩, ?_, ?_, ?_⟩
  · intro i hi
    obtain ⟨⟨c1, c2⟩, ⟨c3, c4⟩, ⟨c5, c6⟩⟩ := b4 i hi
    exact ⟨⟨c1, by omega⟩, ⟨c3, by omega⟩, ⟨c5, by omega⟩⟩
  · intro i hi
    obtain ⟨⟨c1, c2⟩, ⟨c3, c4⟩, ⟨c5, c6⟩⟩ := b4 i (by omega)
    obtain ⟨⟨d1, d2⟩, -, ⟨d5, d6⟩⟩ := b4 (i + 1) hi
    obtain ⟨e1, e2⟩ := b5 i hi
    refine ⟨⟨?_, ?_⟩, ⟨?_, ?_⟩, ⟨?_, ?_⟩⟩
    · show 0 ≤ (captureState out track_num track_side input).index_times.getD (i + 1) 0
        - (captureState out track_num track_side input).index_times.getD i 0
      omega
    · show (captureState out track_num track_side input).index_times.getD (i + 1) 0
        - (captureState out track_num track_side input).index_times.getD i 0 < 2 ^ 31
      omega
    · show 0 ≤ (captureState out track_num track_side input).index_transitions.getD (i + 1) 0
        - (captureState out track_num track_side input).index_transitions.getD i 0
      omega
    · show (captureState out track_num track_side input).index_transitions.getD (i + 1) 0
        - (captureState out track_num track_side input).index_transitions.getD i 0 < 2 ^ 31
      omega
    · show 0 ≤ (captureState out track_num track_side input).index_offsets.getD i 0
        + 4 + 12 * (MAX_REVOLUTIONS : Int)
      omega
    · show (captureState out track_num track_side input).index_offsets.getD i 0
        + 4 + 12 * (MAX_REVOLUTIONS : Int) < 2 ^ 31
      omega
  · intro input' b hs hlen' hrun
    have hL' : ((streamOf input).length : Int) + 1 ≤ 33554432 := by
      rw [hs, List.length_append, List.length_singleton, hcap] at hlen'
      exact_mod_cast hlen'
    have hmul : ((streamOf input).length : Int) * TIME_UNITS_PER_SAMPLE
        = 2 * ((streamOf input).length : Int) := by
      unfold TIME_UNITS_PER_SAMPLE; ring
    have hps : processed (streamOf input) = streamOf input :=
      processed_of_le _ (by
        have := hc.count
        rw [indexPositions_processed, List.length_take] at this
        omega)
    rw [hps] at b3
    rw [hmul]
    refine ⟨⟨by omega, by omega⟩, ?_⟩
    intro hedge hpred
    have hd0 : 0 < 2 * ((streamOf input).length : Int)
        - (captureState out track_num track_side input).last_transition_time := by omega
    have hnn : 0 ≤ (2 * ((streamOf input).length : Int)
        - (captureState out track_num track_side input).last_transition_time) * 25 + 499 := by
      omega
    have hu : 0 ≤ usecsOf (2 * ((streamOf input).length : Int)
        - (captureState out track_num track_side input).last_transition_time) :=
      Int.tdiv_nonneg hnn (by norm_num)
    refine ⟨⟨hd0, by omega⟩, ⟨hnn, by omega⟩, ⟨?_, ?_⟩, ?_⟩
    · split <;> omega
    · split <;> omega
    · obtain ⟨n, hn⟩ := captureState_snoc out track_num track_side input input' b hs
      rw [hn, if_pos hrun]
      show (stepAt _ b _).histo = _
      rw [stepAt_histo, if_pos ⟨hedge, hpred⟩]
      rfl

/-- Witness of C20: after the samples `1, 0, 1` the sample `0` is a transition with a
predecessor, at delta 4. -/
theorem no_int_overflow_witness :
    (0 < ((streamOf [[1, 0, 1]]).length : Int) * TIME_UNITS_PER_SAMPLE
          - (captureState headerFile 0 0 [[1, 0, 1]]).last_transition_time
      ∧ ((streamOf [[1, 0, 1]]).length : Int) * TIME_UNITS_PER_SAMPLE
          - (captureState headerFile 0 0 [[1, 0, 1]]).last_transition_time < 2 ^ 31) :=
  (((no_int_overflow headerFile 0 0 [[1, 0, 1]] (by decide)).2.2.2.2.2.2
    [[1, 0, 1], [0]] 0 (by decide) (by decide) (by decide)).2 (by decide) (by decide)).1

end BeagleFloppy
